import Mathlib

/-!
Verification of the Jeremiah parallel-edition pipeline.

The Python sources under scripts/ are shallowly embedded as Lean functions
over `List Char`.  Strings are modelled as `List Char`; Python regular
expressions are modelled by hand-written scanners implementing exactly the
greedy / non-greedy / leftmost-match semantics the concrete patterns have.
Character classes (`\d`, `\w`, `\s`, `[A-Za-z]`) are modelled over ASCII.
Raising `ValueError` is modelled as `Option.none`.
-/

/-- Convert a string literal into the `List Char` representation. -/
def str (s : String) : List Char := s.data

/-- ASCII whitespace, the model of Python whitespace / regex class `\s`. -/
def wsChar (c : Char) : Bool := c = ' ' ∨ c = '\t' ∨ c = '\n' ∨ c = '\r'

/-- Model of the regex class `\w` (word characters). -/
def isWordChar (c : Char) : Bool := c.isAlphanum ∨ c = '_'

/-- ASCII letter, the model of the regex class `[A-Za-z]`. -/
def asciiLetter (c : Char) : Bool := c.isAlpha

/-- Remove trailing whitespace. -/
def trimEnd (s : List Char) : List Char := ((s.reverse).dropWhile wsChar).reverse

/-- Model of Python `str.strip()`: remove leading and trailing whitespace. -/
def pyStrip (s : List Char) : List Char := trimEnd (s.dropWhile wsChar)

/-- Value of a decimal digit string, the model of Python `int`. -/
def digitsVal (ds : List Char) : Nat :=
  ds.foldl (fun a c => 10 * a + (c.toNat - 48)) 0

/-- Fuel-driven helper for decimal rendering (structural recursion on the fuel
so that concrete values reduce in the kernel). -/
def natToDecimalAux : Nat → Nat → List Char
  | 0, _ => []
  | fuel + 1, n =>
    if n < 10 then [Nat.digitChar n]
    else natToDecimalAux fuel (n / 10) ++ [Nat.digitChar (n % 10)]

/-- Decimal rendering of a natural number, the model of Python `str(n)`
and of `f"{n}"` interpolation. -/
def natToDecimal (n : Nat) : List Char := natToDecimalAux (n + 1) n

theorem natToDecimalAux_irrel :
    ∀ n f1 f2, n < f1 → n < f2 → natToDecimalAux f1 n = natToDecimalAux f2 n := by
  intro n
  induction n using Nat.strong_induction_on with
  | _ n ih =>
    intro f1 f2 h1 h2
    match f1, f2 with
    | a + 1, b + 1 =>
      by_cases h10 : n < 10
      · simp [natToDecimalAux, h10]
      · simp only [natToDecimalAux, if_neg h10]
        have hdiv : n / 10 < n := by omega
        rw [ih (n / 10) hdiv a b (by omega) (by omega)]

/-- Unfolding equation for `natToDecimal`. -/
theorem natToDecimal_eq (n : Nat) :
    natToDecimal n =
      if n < 10 then [Nat.digitChar n] else natToDecimal (n / 10) ++ [Nat.digitChar (n % 10)] := by
  by_cases h10 : n < 10
  · rw [if_pos h10]
    unfold natToDecimal
    simp [natToDecimalAux, h10]
  · rw [if_neg h10]
    conv_lhs => unfold natToDecimal
    conv_rhs => unfold natToDecimal
    have h1 : natToDecimalAux (n + 1) n = natToDecimalAux n (n / 10) ++ [Nat.digitChar (n % 10)] := by
      simp [natToDecimalAux, h10]
    rw [h1, natToDecimalAux_irrel (n / 10) n (n / 10 + 1) (by omega) (by omega)]

/-!  ## parse_ref (scripts/04_build_parallel_csv.py lines 14-28; the same
function appears verbatim in scripts/03_make_mapping_skeleton.py lines 11-25).

Python:
```
REF_RE = re.compile(regex (\d+):(\d+)([a-z]?) anchored, re.IGNORECASE)
def parse_ref(ref):
    ref = ref.strip()
    m = REF_RE.match(ref)  -- anchored at both ends
    if not m: raise ValueError(...)
    return int(m.group(1)), int(m.group(2)), (m.group(3) or "").lower()
```
`re.IGNORECASE` makes `[a-z]?` also accept `[A-Z]`.  `ValueError` is `none`. -/
def parse_ref (ref : List Char) : Option (Nat × Nat × List Char) :=
  let s := pyStrip ref
  let d1 := s.takeWhile Char.isDigit
  let r1 := s.dropWhile Char.isDigit
  if d1 = [] then none else
  match r1 with
  | ':' :: r2 =>
    let d2 := r2.takeWhile Char.isDigit
    let r3 := r2.dropWhile Char.isDigit
    if d2 = [] then none else
    match r3 with
    | [] => some (digitsVal d1, digitsVal d2, [])
    | [c] => if asciiLetter c then some (digitsVal d1, digitsVal d2, [c.toLower]) else none
    | _ => none
  | _ => none

/-- Model of the formatting expression `f"{ch}:{v}{suf}"` used to re-render
a parsed reference triple. -/
def formatRef (ch v : Nat) (suf : List Char) : List Char :=
  natToDecimal ch ++ ':' :: (natToDecimal v ++ suf)

/-!  ## expand_range (scripts/04_build_parallel_csv.py lines 43-50).

Python:
```
def expand_range(start, end):
    sc, sv, ss = parse_ref(start)
    ec, ev, es = parse_ref(end)
    if ss or es: raise ValueError(...)
    if sc != ec: raise ValueError(...)
    return [f"{sc}:{vv}" for vv in range(sv, ev + 1)]
```  -/
def expand_range (start stop : List Char) : Option (List (List Char)) := do
  let (sc, sv, ss) ← parse_ref start
  let (ec, ev, es) ← parse_ref stop
  if ss ≠ [] ∨ es ≠ [] then none
  else if sc ≠ ec then none
  else some ((List.range' sv (ev + 1 - sv)).map (fun vv => natToDecimal sc ++ ':' :: natToDecimal vv))

/-- Canonical decimal numeral of a positive integer: nonempty, all digits,
no leading zero. -/
def canonNum (ds : List Char) : Prop :=
  ds ≠ [] ∧ (∀ c ∈ ds, c.isDigit) ∧ ds.head? ≠ some '0'

/-!  ### Decimal round-trip lemmas  -/

theorem digitsVal_append_singleton (ds : List Char) (d : Char) :
    digitsVal (ds ++ [d]) = 10 * digitsVal ds + (d.toNat - 48) := by
  simp [digitsVal, List.foldl_append]

theorem char_eq_of_toNat_eq {c d : Char} (h : c.toNat = d.toNat) : c = d :=
  Char.ext (UInt32.ext h)

theorem isDigit_toNat_bounds (d : Char) (h : d.isDigit) :
    48 ≤ d.toNat ∧ d.toNat ≤ 57 := by
  revert h
  simp [Char.isDigit, Char.le_def, Char.toNat, UInt32.le_def, Fin.le_def]
  intro h1 h2
  exact ⟨h1, h2⟩

theorem digitChar_toNat_sub (d : Char) (h : d.isDigit) :
    Nat.digitChar (d.toNat - 48) = d := by
  obtain ⟨h1, h2⟩ := isDigit_toNat_bounds d h
  apply char_eq_of_toNat_eq
  interval_cases (d.toNat) <;> decide

theorem foldl_digits_ge_one :
    ∀ (rest : List Char) (a : Nat), 1 ≤ a →
      1 ≤ List.foldl (fun a c => 10 * a + (c.toNat - 48)) a rest := by
  intro rest
  induction rest with
  | nil => intro a h; exact h
  | cons c cs ih => intro a h; exact ih (10 * a + (c.toNat - 48)) (by omega)

theorem digitsVal_pos (ds : List Char) (h1 : ds ≠ []) (h2 : ∀ c ∈ ds, c.isDigit)
    (h3 : ds.head? ≠ some '0') : 1 ≤ digitsVal ds := by
  obtain ⟨c, rest, rfl⟩ := List.exists_cons_of_ne_nil h1
  have hc : c.isDigit := h2 c (by simp)
  have hb := isDigit_toNat_bounds c hc
  have hc0 : c.toNat ≠ 48 := by
    intro he
    apply h3
    have : c = '0' := char_eq_of_toNat_eq (by simpa using he)
    simp [this]
  simp only [digitsVal, List.foldl_cons]
  exact foldl_digits_ge_one rest _ (by omega)

/-- Formatting the integer value of a canonical decimal numeral gives the
numeral back. -/
theorem natToDecimal_digitsVal :
    ∀ ds : List Char, (∀ c ∈ ds, c.isDigit) → ds.head? ≠ some '0' → ds ≠ [] →
      natToDecimal (digitsVal ds) = ds := by
  intro ds
  induction ds using List.reverseRecOn with
  | nil => intro _ _ h; exact absurd rfl h
  | append_singleton init d ih =>
    intro hdig hhead _
    have hd : d.isDigit := hdig d (by simp)
    have hb := isDigit_toNat_bounds d hd
    rcases eq_or_ne init [] with hinit | hinit
    · subst hinit
      have hv : digitsVal ([] ++ [d]) = d.toNat - 48 := by simp [digitsVal]
      rw [hv]
      rw [natToDecimal_eq, if_pos (by omega)]
      rw [digitChar_toNat_sub d hd]
      simp
    · have hdig' : ∀ c ∈ init, c.isDigit := fun c hc => hdig c (by simp [hc])
      have hhead' : init.head? ≠ some '0' := by
        obtain ⟨a, t, rfl⟩ := List.exists_cons_of_ne_nil hinit
        simpa using hhead
      have hpos : 1 ≤ digitsVal init := digitsVal_pos init hinit hdig' hhead'
      rw [digitsVal_append_singleton]
      rw [natToDecimal_eq, if_neg (by omega)]
      have e1 : (10 * digitsVal init + (d.toNat - 48)) / 10 = digitsVal init := by omega
      have e2 : (10 * digitsVal init + (d.toNat - 48)) % 10 = d.toNat - 48 := by omega
      rw [e1, e2, ih hdig' hhead' hinit, digitChar_toNat_sub d hd]

/-!  ### Generic scanning helpers  -/

theorem dropWhile_eq_self_of (p : Char → Bool) (l : List Char)
    (h : ∀ c ∈ l, ¬ p c) : l.dropWhile p = l := by
  cases l with
  | nil => rfl
  | cons a t =>
    have : p a = false := by simpa using h a (by simp)
    simp [List.dropWhile, this]

theorem pyStrip_eq_self (s : List Char) (h : ∀ c ∈ s, ¬ wsChar c) : pyStrip s = s := by
  unfold pyStrip trimEnd
  rw [dropWhile_eq_self_of wsChar s h]
  rw [dropWhile_eq_self_of wsChar s.reverse (fun c hc => h c (List.mem_reverse.mp hc))]
  exact List.reverse_reverse s

theorem takeWhile_app (p : Char → Bool) (l : List Char) (x : Char) (t : List Char)
    (hl : ∀ c ∈ l, p c) (hx : ¬ p x) : (l ++ x :: t).takeWhile p = l := by
  have hx' : p x = false := by simpa using hx
  induction l with
  | nil => simp [List.takeWhile_cons, hx']
  | cons a as ih =>
    have ha : p a := hl a (by simp)
    simp only [List.cons_append, List.takeWhile_cons, ha]
    simp [ih (fun c hc => hl c (by simp [hc]))]

theorem dropWhile_app (p : Char → Bool) (l : List Char) (x : Char) (t : List Char)
    (hl : ∀ c ∈ l, p c) (hx : ¬ p x) : (l ++ x :: t).dropWhile p = x :: t := by
  have hx' : p x = false := by simpa using hx
  induction l with
  | nil => simp [List.dropWhile_cons, hx']
  | cons a as ih =>
    have ha : p a := hl a (by simp)
    simp only [List.cons_append, List.dropWhile_cons, ha]
    simp [ih (fun c hc => hl c (by simp [hc]))]

theorem takeWhile_all (p : Char → Bool) (l : List Char) (hl : ∀ c ∈ l, p c) :
    l.takeWhile p = l := by
  induction l with
  | nil => rfl
  | cons a as ih =>
    have ha : p a := hl a (by simp)
    simp [List.takeWhile_cons, ha, ih (fun c hc => hl c (by simp [hc]))]

theorem dropWhile_all (p : Char → Bool) (l : List Char) (hl : ∀ c ∈ l, p c) :
    l.dropWhile p = [] := by
  induction l with
  | nil => rfl
  | cons a as ih =>
    have ha : p a := hl a (by simp)
    simp [List.dropWhile_cons, ha, ih (fun c hc => hl c (by simp [hc]))]

theorem digit_not_ws (c : Char) (h : c.isDigit) : ¬ wsChar c := by
  have hb := isDigit_toNat_bounds c h
  intro hw
  simp only [wsChar, decide_eq_true_eq] at hw
  rcases hw with h' | h' | h' | h' <;> subst h' <;> revert hb <;> decide

theorem alpha_toNat_bounds (c : Char) (h : c.isAlpha) :
    (65 ≤ c.toNat ∧ c.toNat ≤ 90) ∨ (97 ≤ c.toNat ∧ c.toNat ≤ 122) := by
  simp only [Char.isAlpha, Char.isUpper, Char.isLower, Bool.or_eq_true, Bool.and_eq_true,
    decide_eq_true_eq] at h
  rcases h with ⟨h1, h2⟩ | ⟨h1, h2⟩
  · exact Or.inl ⟨UInt32.le_toNat_of_le (by decide) h1, UInt32.toNat_le_of_le (by decide) h2⟩
  · exact Or.inr ⟨UInt32.le_toNat_of_le (by decide) h1, UInt32.toNat_le_of_le (by decide) h2⟩

theorem alpha_not_digit (c : Char) (h : c.isAlpha) : ¬ c.isDigit := by
  intro hd
  have h1 := isDigit_toNat_bounds c hd
  have h2 := alpha_toNat_bounds c h
  omega

theorem alpha_not_ws (c : Char) (h : c.isAlpha) : ¬ wsChar c := by
  have hb := alpha_toNat_bounds c h
  intro hw
  simp only [wsChar, decide_eq_true_eq] at hw
  rcases hw with h' | h' | h' | h' <;> subst h' <;> revert hb <;> decide

theorem lower_toNat_bounds (c : Char) (h : c.isLower) :
    97 ≤ c.toNat ∧ c.toNat ≤ 122 := by
  simp only [Char.isLower, Bool.and_eq_true, decide_eq_true_eq] at h
  exact ⟨UInt32.le_toNat_of_le (by decide) h.1, UInt32.toNat_le_of_le (by decide) h.2⟩

theorem lower_toLower_self (c : Char) (h : c.isLower) : c.toLower = c := by
  have hb := lower_toNat_bounds c h
  unfold Char.toLower
  rw [if_neg (by omega)]

theorem lower_isAlpha (c : Char) (h : c.isLower) : c.isAlpha := by
  simp [Char.isAlpha, h]

theorem mem_takeWhile_pred {p : Char → Bool} :
    ∀ l : List Char, ∀ c ∈ l.takeWhile p, p c := by
  intro l
  induction l with
  | nil => intro c hc; simp [List.takeWhile] at hc
  | cons a as ih =>
    intro c hc
    rw [List.takeWhile_cons] at hc
    by_cases ha : p a
    · simp [ha] at hc
      rcases hc with h | h
      · rwa [h]
      · exact ih c h
    · simp [ha] at hc

/-- Evaluation of `parse_ref` on an input whose stripped form decomposes as
digits, colon, digits, optional letter. -/
theorem parse_ref_strip_eval (ref a b sfx : List Char)
    (hstrip : pyStrip ref = a ++ ':' :: (b ++ sfx))
    (ha : ∀ c ∈ a, c.isDigit) (hane : a ≠ [])
    (hb : ∀ c ∈ b, c.isDigit) (hbne : b ≠ [])
    (hs : sfx = [] ∨ ∃ c, c.isAlpha ∧ sfx = [c]) :
    parse_ref ref = some (digitsVal a, digitsVal b, sfx.map Char.toLower) := by
  unfold parse_ref
  rw [hstrip]
  dsimp only
  rw [takeWhile_app Char.isDigit a ':' (b ++ sfx) ha (by decide)]
  rw [dropWhile_app Char.isDigit a ':' (b ++ sfx) ha (by decide)]
  rw [if_neg hane]
  simp only []
  rcases hs with hnil | ⟨c, hca, hceq⟩
  · subst hnil
    rw [List.append_nil]
    rw [takeWhile_all Char.isDigit b hb, dropWhile_all Char.isDigit b hb]
    rw [if_neg hbne]
    simp
  · subst hceq
    rw [takeWhile_app Char.isDigit b c [] hb (alpha_not_digit c hca)]
    rw [dropWhile_app Char.isDigit b c [] hb (alpha_not_digit c hca)]
    rw [if_neg hbne]
    simp [asciiLetter, hca]

/-- C5: for every valid VerseRef string (canonical decimal chapter, colon,
canonical decimal verse, optional single lowercase ASCII letter suffix),
re-formatting the triple returned by parse_ref via the f-string
f-chapter-colon-verse-suffix yields the original string again. -/
theorem C5_parse_format_round_trip (cds vds sfx : List Char)
    (hc : canonNum cds) (hv : canonNum vds)
    (hs : sfx = [] ∨ ∃ c, c.isLower ∧ sfx = [c]) :
    parse_ref (cds ++ ':' :: (vds ++ sfx)) = some (digitsVal cds, digitsVal vds, sfx) ∧
    formatRef (digitsVal cds) (digitsVal vds) sfx = cds ++ ':' :: (vds ++ sfx) := by
  obtain ⟨hc1, hc2, hc3⟩ := hc
  obtain ⟨hv1, hv2, hv3⟩ := hv
  have hs' : sfx = [] ∨ ∃ c, c.isAlpha ∧ sfx = [c] := by
    rcases hs with h | ⟨c, h1, h2⟩
    · exact Or.inl h
    · exact Or.inr ⟨c, lower_isAlpha c h1, h2⟩
  have hstrip : pyStrip (cds ++ ':' :: (vds ++ sfx)) = cds ++ ':' :: (vds ++ sfx) := by
    apply pyStrip_eq_self
    intro x hx
    simp only [List.mem_append, List.mem_cons] at hx
    rcases hx with h | h | h | h
    · exact digit_not_ws x (hc2 x h)
    · subst h; decide
    · exact digit_not_ws x (hv2 x h)
    · rcases hs' with hnil | ⟨c, hca, hceq⟩
      · subst hnil; simp at h
      · subst hceq
        rw [List.mem_singleton] at h
        subst h
        exact alpha_not_ws x hca
  have hmap : sfx.map Char.toLower = sfx := by
    rcases hs with h | ⟨c, h1, h2⟩
    · simp [h]
    · subst h2; simp [lower_toLower_self c h1]
  refine ⟨?_, ?_⟩
  · rw [parse_ref_strip_eval _ cds vds sfx hstrip hc2 hc1 hv2 hv1 hs', hmap]
  · unfold formatRef
    rw [natToDecimal_digitsVal cds hc2 hc3 hc1, natToDecimal_digitsVal vds hv2 hv3 hv1]

/-- Witness for C5 at the concrete reference 12:3a. -/
theorem C5_witness :
    parse_ref (str "12" ++ ':' :: (str "3" ++ ['a'])) =
      some (digitsVal (str "12"), digitsVal (str "3"), ['a']) ∧
    formatRef (digitsVal (str "12")) (digitsVal (str "3")) ['a'] =
      str "12" ++ ':' :: (str "3" ++ ['a']) :=
  C5_parse_format_round_trip (str "12") (str "3") ['a']
    ⟨by decide, by decide, by decide⟩ ⟨by decide, by decide, by decide⟩
    (Or.inr ⟨'a', by decide, rfl⟩)

/-- The reference grammar exactly as the spec words it: digits, colon, digits,
followed by at most one LOWERCASE letter.  This is a second definition written
from the spec text, to be compared against `parse_ref` (from the source). -/
def SpecRefGrammarLower (t : List Char) : Prop :=
  ∃ a b sfx : List Char, t = a ++ ':' :: (b ++ sfx) ∧ a ≠ [] ∧ (∀ c ∈ a, c.isDigit) ∧
    b ≠ [] ∧ (∀ c ∈ b, c.isDigit) ∧ (sfx = [] ∨ ∃ c, c.isLower ∧ sfx = [c])

/-- Case-insensitive variant of the reference grammar: the optional suffix
letter may be of either case (the behaviour `re.IGNORECASE` actually gives). -/
def SpecRefGrammarIC (t : List Char) : Prop :=
  ∃ a b sfx : List Char, t = a ++ ':' :: (b ++ sfx) ∧ a ≠ [] ∧ (∀ c ∈ a, c.isDigit) ∧
    b ≠ [] ∧ (∀ c ∈ b, c.isDigit) ∧ (sfx = [] ∨ ∃ c, c.isAlpha ∧ sfx = [c])

/-- C6 counterexample: parse_ref accepts the uppercase-suffixed reference 1:2A
(because of re.IGNORECASE), although that string does not match the
lowercase-suffix grammar the claim states; so parse_ref does NOT fail exactly
on the non-matching strings. -/
theorem C6_counterexample :
    parse_ref (str "1:2A") = some (1, 2, ['a']) ∧ ¬ SpecRefGrammarLower (str "1:2A") := by
  constructor
  · decide
  · intro h
    obtain ⟨a, b, sfx, heq, hane, hadig, hbne, hbdig, hsfx⟩ := h
    obtain ⟨x, a', rfl⟩ := List.exists_cons_of_ne_nil hane
    rw [show str "1:2A" = ['1', ':', '2', 'A'] from rfl] at heq
    simp only [List.cons_append] at heq
    injection heq with h1 h2
    cases a' with
    | cons y a'' =>
      simp only [List.cons_append] at h2
      injection h2 with h3 _
      have hy : y.isDigit := hadig y (by simp)
      rw [← h3] at hy
      exact absurd hy (by decide)
    | nil =>
      simp only [List.nil_append] at h2
      injection h2 with _ h4
      obtain ⟨z, b', rfl⟩ := List.exists_cons_of_ne_nil hbne
      simp only [List.cons_append] at h4
      injection h4 with h5 h6
      cases b' with
      | cons w b'' =>
        simp only [List.cons_append] at h6
        injection h6 with h7 _
        have hw : w.isDigit := hbdig w (by simp)
        rw [← h7] at hw
        exact absurd hw (by decide)
      | nil =>
        simp only [List.nil_append] at h6
        rcases hsfx with h9 | ⟨c, hcl, h10⟩
        · rw [h9] at h6; exact absurd h6 (by simp)
        · rw [h10] at h6
          injection h6 with h11 _
          rw [← h11] at hcl
          exact absurd hcl (by decide)

theorem parse_ref_isSome_grammar (s : List Char) :
    (parse_ref s).isSome ↔ SpecRefGrammarIC (pyStrip s) := by
  constructor
  · intro h
    rw [Option.isSome_iff_exists] at h
    obtain ⟨v, hv⟩ := h
    unfold parse_ref at hv
    dsimp only at hv
    split at hv
    · exact absurd hv (by simp)
    · rename_i hd1
      split at hv
      · rename_i r2 heq1
        split at hv
        · exact absurd hv (by simp)
        · rename_i hd2
          have hdec : pyStrip s =
              (pyStrip s).takeWhile Char.isDigit ++ ':' ::
                (r2.takeWhile Char.isDigit ++ r2.dropWhile Char.isDigit) := by
            conv_lhs => rw [← List.takeWhile_append_dropWhile (p := Char.isDigit) (l := pyStrip s)]
            rw [heq1, List.takeWhile_append_dropWhile]
          split at hv
          · rename_i heq3
            refine ⟨(pyStrip s).takeWhile Char.isDigit, r2.takeWhile Char.isDigit, [], ?_, hd1,
              mem_takeWhile_pred _, hd2, mem_takeWhile_pred _, Or.inl rfl⟩
            rw [heq3] at hdec
            exact hdec
          · rename_i c heq3
            split at hv
            · rename_i hca
              refine ⟨(pyStrip s).takeWhile Char.isDigit, r2.takeWhile Char.isDigit, [c], ?_, hd1,
                mem_takeWhile_pred _, hd2, mem_takeWhile_pred _, Or.inr ⟨c, hca, rfl⟩⟩
              rw [heq3] at hdec
              exact hdec
            · exact absurd hv (by simp)
          · exact absurd hv (by simp)
      · exact absurd hv (by simp)
  · intro h
    obtain ⟨a, b, sfx, heq, hane, hadig, hbne, hbdig, hsfx⟩ := h
    rw [parse_ref_strip_eval s a b sfx heq hadig hane hbdig hbne hsfx]
    rfl

/-- C6 amended: parse_ref fails exactly on those inputs whose stripped form
does not match the grammar digits, colon, digits, at most one ASCII letter
taken CASE-INSENSITIVELY (`re.IGNORECASE`; the accepted suffix is lowercased in
the result).  In particular it fails for every string missing the colon and
for every string with a multi-character suffix, and succeeds on every string
matching the case-insensitive grammar. -/
theorem C6_parse_ref_failure_grammar :
    (∀ s : List Char, (parse_ref s).isSome ↔ SpecRefGrammarIC (pyStrip s)) ∧
    (∀ s : List Char, ':' ∉ pyStrip s → parse_ref s = none) ∧
    (∀ a b sfx : List Char, (∀ c ∈ a, c.isDigit) → (∀ c ∈ b, c.isDigit) →
      (∀ c ∈ sfx, c.isAlpha) → 2 ≤ sfx.length →
      parse_ref (a ++ ':' :: (b ++ sfx)) = none) := by
  refine ⟨parse_ref_isSome_grammar, ?_, ?_⟩
  · intro s hcol
    rw [← Option.not_isSome_iff_eq_none]
    intro hsome
    obtain ⟨a, b, sfx, heq, -, -, -, -, -⟩ := (parse_ref_isSome_grammar s).mp hsome
    apply hcol
    rw [heq]
    simp
  · intro a b sfx hadig hbdig hsalpha hlen
    cases sfx with
    | nil => simp at hlen
    | cons s0 stail =>
      cases stail with
      | nil => simp at hlen
      | cons s1 srest =>
        have hs0 : s0.isAlpha := hsalpha s0 (by simp)
        have hstrip : pyStrip (a ++ ':' :: (b ++ s0 :: s1 :: srest)) =
            a ++ ':' :: (b ++ s0 :: s1 :: srest) := by
          apply pyStrip_eq_self
          intro x hx
          simp only [List.mem_append, List.mem_cons] at hx
          rcases hx with h | h | h | h | h | h
          · exact digit_not_ws x (hadig x h)
          · subst h; decide
          · exact digit_not_ws x (hbdig x h)
          · subst h; exact alpha_not_ws x (hsalpha x (by simp))
          · subst h; exact alpha_not_ws x (hsalpha x (by simp))
          · exact alpha_not_ws x (hsalpha x (by simp [h]))
        unfold parse_ref
        rw [hstrip]
        dsimp only
        cases a with
        | nil =>
          rw [List.nil_append]
          rw [List.takeWhile_cons_of_neg (by decide)]
          simp
        | cons a0 arest =>
          rw [takeWhile_app Char.isDigit (a0 :: arest) ':' (b ++ s0 :: s1 :: srest) hadig (by decide)]
          rw [dropWhile_app Char.isDigit (a0 :: arest) ':' (b ++ s0 :: s1 :: srest) hadig (by decide)]
          rw [if_neg (by simp)]
          simp only []
          rw [takeWhile_app Char.isDigit b s0 (s1 :: srest) hbdig (alpha_not_digit s0 hs0)]
          rw [dropWhile_app Char.isDigit b s0 (s1 :: srest) hbdig (alpha_not_digit s0 hs0)]
          cases hbe : b with
          | nil => simp
          | cons b0 brest => rw [if_neg (by simp)]

/-- Witness for C6 at a colon-free string and at a two-letter suffix. -/
theorem C6_witness :
    parse_ref (str "abc") = none ∧
    parse_ref (str "1" ++ ':' :: (str "2" ++ ['a', 'b'])) = none :=
  ⟨C6_parse_ref_failure_grammar.2.1 (str "abc") (by decide),
   C6_parse_ref_failure_grammar.2.2 (str "1") (str "2") ['a', 'b']
     (by decide) (by decide) (by decide) (by decide)⟩

/-- C4 counterexample: expand_range on the range 24:40 to 24:45 returns SIX
references (verses 40,41,42,43,44,45), not five as the claim states. -/
theorem C4_counterexample :
    (expand_range (str "24:40") (str "24:45")).map List.length = some 6 ∧ (6 : Nat) ≠ 5 := by
  constructor
  · decide
  · decide

/-- C4 amended: the range 24:40-24:45 expands to the SIX individual references
24:40 .. 24:45 in ascending order, and every range crossing chapters or
carrying a suffix on either endpoint is a hard failure (ValueError). -/
theorem C4_expand_range :
    expand_range (str "24:40") (str "24:45") =
      some [str "24:40", str "24:41", str "24:42", str "24:43", str "24:44", str "24:45"] ∧
    (∀ s e : List Char, ∀ sc sv ec ev : Nat, ∀ ss es : List Char,
      parse_ref s = some (sc, sv, ss) → parse_ref e = some (ec, ev, es) →
      sc ≠ ec → expand_range s e = none) ∧
    (∀ s e : List Char, ∀ sc sv ec ev : Nat, ∀ ss es : List Char,
      parse_ref s = some (sc, sv, ss) → parse_ref e = some (ec, ev, es) →
      (ss ≠ [] ∨ es ≠ []) → expand_range s e = none) := by
  refine ⟨by decide, ?_, ?_⟩
  · intro s e sc sv ec ev ss es h1 h2 hne
    unfold expand_range
    rw [h1, h2]
    by_cases hss : ss ≠ [] ∨ es ≠ []
    · simp [hss]
    · simp [hss, hne]
  · intro s e sc sv ec ev ss es h1 h2 hor
    unfold expand_range
    rw [h1, h2]
    simp [hor]

/-- Witness for C4: a cross-chapter range and a suffixed range both fail. -/
theorem C4_witness :
    expand_range (str "1:2") (str "2:2") = none ∧
    expand_range (str "1:2a") (str "1:3") = none :=
  ⟨C4_expand_range.2.1 (str "1:2") (str "2:2") 1 2 2 2 [] []
      (by decide) (by decide) (by decide),
   C4_expand_range.2.2 (str "1:2a") (str "1:3") 1 2 1 3 ['a'] []
      (by decide) (by decide) (by decide)⟩

/-!  ## Structural Decoder: render_structured_to_latex
(scripts/05_csv_to_tex.py lines 63-134).

The reserved delimiter is U+241E; `escaped_text.split(STRUCT_DELIM)` splits on
that single character.  The while loop over `parts` with index `i`, the
`pending_heading` flag and the accumulating `out` list is modelled as the
recursive `decodeLoop` over the remaining parts, carrying the flag and the
accumulator.  -/

/-- The reserved record-separator delimiter character U+241E. -/
def structDelim : Char := '\u241E'

def hdgTok : List Char := str "STYLE:HDG"

def paraTok : List Char := str "STYLE:PARA"

def pTok : List Char := str "P"

/-- The pilcrow glyph string (Python PILCROW, braces written via \x7b/\x7d). -/
def PILCROW : List Char := str "\x7b\\small\\textparagraph\\thinspace\x7d"

/-- Python render_heading_verse (nested in render_structured_to_latex). -/
def render_heading_verse (t : List Char) : List Char :=
  str "\\DescriptiveHeading\x7b" ++ pyStrip t ++ str "\x7d"

/-- Indent of a poetry token, `int(token[2:]) if token[2:].isdigit() else 1`,
specialised to ASCII digit strings (the scope of the C3/C8 decoder claims);
qIndentE further below models the full Unicode digit semantics of isdigit
and int, including the ValueError path. -/
def qIndent (tok : List Char) : Nat :=
  let ds := tok.drop 2
  if ds ≠ [] ∧ ds.all Char.isDigit then digitsVal ds else 1

/-- Python rf-string `\poemline{indent}{line}`. -/
def poemline (indent : Nat) (line : List Char) : List Char :=
  str "\\poemline\x7b" ++ natToDecimal indent ++ str "\x7d\x7b" ++ line ++ str "\x7d"

/-- Python `text.split(sep)` for a single-character separator. -/
def splitOnChar (c : Char) : List Char → List (List Char)
  | [] => [[]]
  | x :: xs =>
    if x = c then [] :: splitOnChar c xs
    else
      match splitOnChar c xs with
      | [] => [[x]]
      | h :: t => (x :: h) :: t

/-- Python `pat in s` (substring test). -/
def hasSub (pat : List Char) : List Char → Bool
  | [] => pat.isPrefixOf []
  | c :: cs => pat.isPrefixOf (c :: cs) || hasSub pat cs

/-- The decoder's while loop (lines 77-128): remaining parts, the
pending_heading flag, and the accumulated `out` list.  The loop is modelled
with an explicit fuel argument (structural recursion on the fuel, so that the
kernel can evaluate it); every iteration advances the index by at least one,
so a fuel equal to the number of remaining parts always suffices, which is
what the `decodeLoop` wrapper below supplies.  `parts[i+2]`, `parts[i+1]` of
the Python loop are `rest[1]?`, `rest.head?` here. -/
def decodeLoopF : Nat → List (List Char) → Bool → List (List Char) → List (List Char)
  | 0, _, _, out => out
  | fuel + 1, parts, pending, out =>
    Option.elim parts.head? out (fun tok =>
      let rest := parts.tail
      if tok = hdgTok then decodeLoopF fuel rest true out
      else if (str "Q:").isPrefixOf tok then
        Option.elim rest.head? out (fun payload =>
          decodeLoopF fuel rest.tail pending (out ++ [poemline (qIndent tok) (pyStrip payload)]))
      else if tok = pTok then
        if rest[1]? = some paraTok then
          let out1 := out ++ [if out = [] then PILCROW else str "\\par" ++ PILCROW]
          Option.elim rest.tail.tail.head? out1 (fun payload =>
            let seg := pyStrip payload
            if seg = [] then decodeLoopF fuel rest.tail.tail.tail pending out1
            else if pending then
              decodeLoopF fuel rest.tail.tail.tail false (out1 ++ [render_heading_verse seg ++ [' ']])
            else decodeLoopF fuel rest.tail.tail.tail pending (out1 ++ [seg ++ [' ']]))
        else
          Option.elim rest.head? out (fun payload =>
            let seg := pyStrip payload
            if seg = [] then decodeLoopF fuel rest.tail pending out
            else if pending then
              decodeLoopF fuel rest.tail false (out ++ [render_heading_verse seg ++ [' ']])
            else decodeLoopF fuel rest.tail pending (out ++ [seg ++ [' ']]))
      else
        if pyStrip tok = [] then decodeLoopF fuel rest pending out
        else if pending then decodeLoopF fuel rest false (out ++ [render_heading_verse tok ++ [' ']])
        else decodeLoopF fuel rest pending (out ++ [pyStrip tok ++ [' ']]))

/-- The decoder loop started with sufficient fuel. -/
def decodeLoop (parts : List (List Char)) (pending : Bool) (out : List (List Char)) :
    List (List Char) :=
  decodeLoopF parts.length parts pending out

/-- One unfolding step of the fuelled decoder loop (definitional). -/
theorem decodeLoopF_succ (fuel : Nat) (parts : List (List Char)) (pending : Bool)
    (out : List (List Char)) :
    decodeLoopF (fuel + 1) parts pending out =
      Option.elim parts.head? out (fun tok =>
        let rest := parts.tail
        if tok = hdgTok then decodeLoopF fuel rest true out
        else if (str "Q:").isPrefixOf tok then
          Option.elim rest.head? out (fun payload =>
            decodeLoopF fuel rest.tail pending (out ++ [poemline (qIndent tok) (pyStrip payload)]))
        else if tok = pTok then
          if rest[1]? = some paraTok then
            let out1 := out ++ [if out = [] then PILCROW else str "\\par" ++ PILCROW]
            Option.elim rest.tail.tail.head? out1 (fun payload =>
              let seg := pyStrip payload
              if seg = [] then decodeLoopF fuel rest.tail.tail.tail pending out1
              else if pending then
                decodeLoopF fuel rest.tail.tail.tail false (out1 ++ [render_heading_verse seg ++ [' ']])
              else decodeLoopF fuel rest.tail.tail.tail pending (out1 ++ [seg ++ [' ']]))
          else
            Option.elim rest.head? out (fun payload =>
              let seg := pyStrip payload
              if seg = [] then decodeLoopF fuel rest.tail pending out
              else if pending then
                decodeLoopF fuel rest.tail false (out ++ [render_heading_verse seg ++ [' ']])
              else decodeLoopF fuel rest.tail pending (out ++ [seg ++ [' ']]))
        else
          if pyStrip tok = [] then decodeLoopF fuel rest pending out
          else if pending then decodeLoopF fuel rest false (out ++ [render_heading_verse tok ++ [' ']])
          else decodeLoopF fuel rest pending (out ++ [pyStrip tok ++ [' ']])) := rfl

/-- The general decoding path of render_structured_to_latex: split, loop,
join, strip, and the ragged-alignment wrap for poem lines (lines 67-134,
without the early return at lines 64-65). -/
def renderGeneral (escaped_text : List Char) : List Char :=
  let parts := splitOnChar structDelim escaped_text
  let rendered := pyStrip (List.flatten (decodeLoop parts false []))
  if hasSub (str "\\poemline") rendered then
    str "\x7b\\raggedright " ++ rendered ++ str "\x7d"
  else rendered

/-- render_structured_to_latex: the early return when the input contains no
reserved delimiter, else the general path. -/
def render_structured_to_latex (escaped_text : List Char) : List Char :=
  if structDelim ∉ escaped_text then escaped_text
  else renderGeneral escaped_text

theorem trimEnd_sublist (y : List Char) : List.Sublist (trimEnd y) y := by
  unfold trimEnd
  have h := List.Sublist.reverse (List.dropWhile_sublist (l := y.reverse) wsChar)
  rwa [List.reverse_reverse] at h

theorem pyStrip_sublist (s : List Char) : List.Sublist (pyStrip s) s := by
  unfold pyStrip
  exact (trimEnd_sublist _).trans (List.dropWhile_sublist wsChar)

theorem dropWhile_of_pyStrip_eq (s : List Char) (h : pyStrip s = s) :
    s.dropWhile wsChar = s := by
  apply (List.dropWhile_sublist wsChar).eq_of_length
  have h1 := (trimEnd_sublist (s.dropWhile wsChar)).length_le
  have h2 := (List.dropWhile_sublist (l := s) wsChar).length_le
  have h3 : (pyStrip s).length = s.length := by rw [h]
  unfold pyStrip at h3
  omega

theorem trimEnd_of_pyStrip_eq (s : List Char) (h : pyStrip s = s) :
    trimEnd s = s := by
  have h1 := dropWhile_of_pyStrip_eq s h
  unfold pyStrip at h
  rwa [h1] at h

theorem trimEnd_append_space (s : List Char) : trimEnd (s ++ [' ']) = trimEnd s := by
  unfold trimEnd
  rw [List.reverse_append]
  simp only [List.reverse_singleton, List.singleton_append]
  rw [List.dropWhile_cons, if_pos (by decide)]

theorem pyStrip_append_space (s : List Char) (h : pyStrip s = s) :
    pyStrip (s ++ [' ']) = s := by
  have h1 := dropWhile_of_pyStrip_eq s h
  have h2 := trimEnd_of_pyStrip_eq s h
  cases s with
  | nil => decide
  | cons c t =>
    have hc : wsChar c = false := by
      by_contra hcc
      simp only [Bool.not_eq_false] at hcc
      rw [List.dropWhile_cons, if_pos hcc] at h1
      have h4 := (List.dropWhile_sublist (l := t) wsChar).length_le
      have h5 := congrArg List.length h1
      simp at h5
      omega
    unfold pyStrip
    rw [List.cons_append, List.dropWhile_cons, if_neg (by simp [hc]), ← List.cons_append]
    rw [trimEnd_append_space]
    exact h2

theorem splitOnChar_no_delim (c : Char) (s : List Char) (h : c ∉ s) :
    splitOnChar c s = [s] := by
  induction s with
  | nil => rfl
  | cons x xs ih =>
    have hx : x ≠ c := fun he => h (by simp [he])
    unfold splitOnChar
    rw [if_neg hx, ih (fun hm => h (by simp [hm]))]

/-- Behaviour of the decoder loop on a single remaining token (all inner
matches reduce, so this equation holds by definitional unfolding). -/
theorem decodeLoop_one (tok : List Char) (pending : Bool) (out : List (List Char)) :
    decodeLoop [tok] pending out =
      if tok = hdgTok then out
      else if (str "Q:").isPrefixOf tok = true then out
      else if tok = pTok then out
      else if pyStrip tok = [] then out
      else if pending = true then out ++ [render_heading_verse tok ++ [' ']]
      else out ++ [pyStrip tok ++ [' ']] := rfl

/-- C3 counterexample: on the delimiter-free input "STYLE:HDG" the fast path
returns the input unchanged but the general token-by-token path returns the
empty string, so the two paths are not behaviourally identical. -/
theorem C3_counterexample :
    render_structured_to_latex (str "STYLE:HDG") = str "STYLE:HDG" ∧
    renderGeneral (str "STYLE:HDG") = [] ∧
    str "STYLE:HDG" ≠ ([] : List Char) :=
  ⟨by decide, by decide, by decide⟩

/-- C3 amended: every delimiter-free input is returned unchanged by
render_structured_to_latex; the general token-by-token path agrees with it on
a delimiter-free input provided the input is already whitespace-stripped, is
not the bare token STYLE:HDG or P, does not start with the Q: tag prefix, and
does not contain the poemline command as a substring. -/
theorem C3_fast_path_agreement (s : List Char)
    (h1 : structDelim ∉ s) (h2 : pyStrip s = s)
    (h3 : s ≠ hdgTok) (h4 : s ≠ pTok)
    (h5 : (str "Q:").isPrefixOf s = false)
    (h6 : hasSub (str "\\poemline") s = false) :
    render_structured_to_latex s = s ∧ renderGeneral s = s := by
  have hgen : renderGeneral s = s := by
    unfold renderGeneral
    rw [splitOnChar_no_delim structDelim s h1]
    dsimp only
    rw [decodeLoop_one]
    rw [if_neg h3]
    rw [if_neg (show ¬((str "Q:").isPrefixOf s = true) by rw [h5]; simp)]
    rw [if_neg h4, h2]
    by_cases hnil : s = []
    · subst hnil
      decide
    · rw [if_neg hnil]
      simp only [if_neg (show ¬(false = true) by simp), List.nil_append,
        List.flatten_cons, List.flatten_nil, List.append_nil]
      rw [pyStrip_append_space s h2]
      rw [if_neg (show ¬(hasSub (str "\\poemline") s = true) by rw [h6]; simp)]
  refine ⟨?_, hgen⟩
  unfold render_structured_to_latex
  rw [if_pos h1]

/-- Witness for C3 at the concrete delimiter-free input "hello". -/
theorem C3_witness :
    render_structured_to_latex (str "hello") = str "hello" ∧
    renderGeneral (str "hello") = str "hello" :=
  C3_fast_path_agreement (str "hello") (by decide) (by decide) (by decide)
    (by decide) (by decide) (by decide)

/-- C8: a token stream ending mid-tag (prose tag P or any poetry tag starting
with Q: as the final token, with no following payload) makes the decoder skip
the dangling tag: it emits nothing for it, raises no error (the function is
total), and returns exactly the output accumulated from the preceding
tokens. -/
theorem C8_dangling_tag (tag : List Char) (pending : Bool) (out : List (List Char))
    (h : tag = pTok ∨ (str "Q:").isPrefixOf tag = true) :
    decodeLoop [tag] pending out = out := by
  rcases h with h | h
  · subst h
    rfl
  · obtain ⟨t, ht⟩ := List.isPrefixOf_iff_prefix.mp h
    rw [show str "Q:" ++ t = 'Q' :: ':' :: t from rfl] at ht
    subst ht
    have hne : ('Q' :: ':' :: t) ≠ hdgTok := by
      intro he
      have h0 := congrArg List.head? he
      rw [show hdgTok = 'S' :: str "TYLE:HDG" from rfl] at h0
      simp at h0
    rw [decodeLoop_one, if_neg hne, if_pos h]

/-- Witness for C8 at a dangling prose tag after accumulated output. -/
theorem C8_witness : decodeLoop [pTok] false [str "before "] = [str "before "] :=
  C8_dangling_tag pTok false [str "before "] (Or.inl rfl)

/-!  ## Footnote Extractor: extract_usfm_footnotes
(scripts/02_parse_usfm.py lines 49-100).

The regexes are modelled by fuelled scanners; every scanner consumes at least
one character per iteration, so a fuel equal to the input length always
suffices and that is what the wrappers supply.

`FOOTNOTE_BLOCK_RE = \\f\b.*?\\f\*` (DOTALL): leftmost match starting at a
`\f` followed by a word boundary, `.*?` non-greedy, so the block ends at the
EARLIEST following `\f*`.  `PLUS_MARK_RE = \\\+[A-Za-z]+[* ]?`.
`FR_RE = \\fr\b\s*([^\\]+)`, `FT_RE = \\ft\b\s*([^\\]+)`: greedy `\s*` then a
greedy nonempty run of non-backslash characters; when everything after the
whitespace run starts with a backslash (or is empty), the regex backtracks one
whitespace character into the capture group. -/

@[reducible] def fMark : List Char := ['\\', 'f']

@[reducible] def fStarMark : List Char := ['\\', 'f', '*']

@[reducible] def frMark : List Char := ['\\', 'f', 'r']

@[reducible] def ftMark : List Char := ['\\', 'f', 't']

@[reducible] def plusMark : List Char := ['\\', '+']

def FOOTNOTE_DELIM : List Char := str "\u241EFOOTNOTE\u241E"

/-- Word-boundary test used for `\b` after a marker: the next character (if
any) is not a word character. -/
def notWordAt (s : List Char) : Bool := Option.elim s.head? true (fun c => ! isWordChar c)

/-- PLUS_MARK_RE.sub("", s): delete every occurrence of backslash-plus
followed by one or more ASCII letters and optionally one star or space. -/
def plusMarkSubF : Nat → List Char → List Char
  | 0, s => s
  | fuel + 1, s =>
    Option.elim s.head? [] (fun c =>
      if (plusMark).isPrefixOf s ∧ (s.drop 2).takeWhile asciiLetter ≠ [] then
        let rest := (s.drop 2).dropWhile asciiLetter
        let rest2 := if rest.head? = some '*' ∨ rest.head? = some ' ' then rest.tail else rest
        plusMarkSubF fuel rest2
      else c :: plusMarkSubF fuel s.tail)

def plusMarkSub (s : List Char) : List Char := plusMarkSubF s.length s

/-- FR_RE.search: the capture group of the first match, if any. -/
def frSearchF : Nat → List Char → Option (List Char)
  | 0, _ => none
  | fuel + 1, s =>
    Option.elim s.head? none (fun _ =>
      if (frMark).isPrefixOf s ∧ notWordAt (s.drop 3) then
        let rest := s.drop 3
        let w := rest.takeWhile wsChar
        let rest' := rest.dropWhile wsChar
        if rest' ≠ [] ∧ rest'.head? ≠ some '\\' then
          some (rest'.takeWhile (fun c => c ≠ '\\'))
        else if w ≠ [] then some (Option.elim w.getLast? [] (fun c => [c]))
        else frSearchF fuel s.tail
      else frSearchF fuel s.tail)

def frSearch (s : List Char) : Option (List Char) := frSearchF s.length s

/-- FT_RE.finditer: the capture groups of all non-overlapping matches, in
order; scanning resumes after each match. -/
def ftFindF : Nat → List Char → List (List Char)
  | 0, _ => []
  | fuel + 1, s =>
    Option.elim s.head? [] (fun _ =>
      if (ftMark).isPrefixOf s ∧ notWordAt (s.drop 3) then
        let rest := s.drop 3
        let w := rest.takeWhile wsChar
        let rest' := rest.dropWhile wsChar
        if rest' ≠ [] ∧ rest'.head? ≠ some '\\' then
          rest'.takeWhile (fun c => c ≠ '\\') :: ftFindF fuel (rest'.dropWhile (fun c => c ≠ '\\'))
        else if w ≠ [] then Option.elim w.getLast? [] (fun c => [c]) :: ftFindF fuel rest'
        else ftFindF fuel s.tail
      else ftFindF fuel s.tail)

def ftFind (s : List Char) : List (List Char) := ftFindF s.length s

/-- Python `" ".join(parts)`. -/
def joinSpace (l : List (List Char)) : List Char :=
  match l with
  | [] => []
  | x :: xs => xs.foldl (fun acc y => acc ++ ' ' :: y) x

/-- The leftmost occurrence of the closing marker: returns the text before the
first `\f*` and the text after it. -/
def splitAtCloseF : Nat → List Char → Option (List Char × List Char)
  | 0, _ => none
  | fuel + 1, s =>
    Option.elim s.head? none (fun c =>
      if (fStarMark).isPrefixOf s then some ([], s.tail.tail.tail)
      else Option.elim (splitAtCloseF fuel s.tail) none (fun p => some (c :: p.1, p.2)))

def splitAtClose (s : List Char) : Option (List Char × List Char) :=
  splitAtCloseF s.length s

/-- The `repl` function nested in extract_usfm_footnotes: strip
character-style runs, extract the optional reference and all body pieces,
delete empty footnotes, and otherwise emit the delimited placeholder plus a
trailing space. -/
def footnoteRepl (block : List Char) : List Char :=
  let cleaned := plusMarkSub block
  let fr := Option.elim (frSearch cleaned) [] pyStrip
  let fts := (ftFind cleaned).map pyStrip
  let ft := pyStrip (joinSpace fts)
  if ft = [] then [' ']
  else FOOTNOTE_DELIM ++ (if fr ≠ [] then fr ++ str ": " ++ ft else ft) ++ FOOTNOTE_DELIM ++ [' ']

/-- FOOTNOTE_BLOCK_RE.sub(repl, raw): scan for the leftmost `\f`-with-boundary
opener that has a later `\f*`; replace the shortest such block via
footnoteRepl and continue after it. -/
def extractF : Nat → List Char → List Char
  | 0, s => s
  | fuel + 1, s =>
    Option.elim s.head? [] (fun c =>
      if (fMark).isPrefixOf s ∧ notWordAt (s.drop 2) then
        Option.elim (splitAtClose (s.drop 2))
          (c :: extractF fuel s.tail)
          (fun p => footnoteRepl (fMark ++ p.1 ++ fStarMark) ++ extractF fuel p.2)
      else c :: extractF fuel s.tail)

def extract_usfm_footnotes (raw : List Char) : List Char := extractF raw.length raw

theorem plusMarkSubF_succ (fuel : Nat) (s : List Char) :
    plusMarkSubF (fuel + 1) s =
      Option.elim s.head? [] (fun c =>
        if (plusMark).isPrefixOf s ∧ (s.drop 2).takeWhile asciiLetter ≠ [] then
          let rest := (s.drop 2).dropWhile asciiLetter
          let rest2 := if rest.head? = some '*' ∨ rest.head? = some ' ' then rest.tail else rest
          plusMarkSubF fuel rest2
        else c :: plusMarkSubF fuel s.tail) := rfl

theorem frSearchF_succ (fuel : Nat) (s : List Char) :
    frSearchF (fuel + 1) s =
      Option.elim s.head? none (fun _ =>
        if (frMark).isPrefixOf s ∧ notWordAt (s.drop 3) then
          let rest := s.drop 3
          let w := rest.takeWhile wsChar
          let rest' := rest.dropWhile wsChar
          if rest' ≠ [] ∧ rest'.head? ≠ some '\\' then
            some (rest'.takeWhile (fun c => c ≠ '\\'))
          else if w ≠ [] then some (Option.elim w.getLast? [] (fun c => [c]))
          else frSearchF fuel s.tail
        else frSearchF fuel s.tail) := rfl

theorem ftFindF_succ (fuel : Nat) (s : List Char) :
    ftFindF (fuel + 1) s =
      Option.elim s.head? [] (fun _ =>
        if (ftMark).isPrefixOf s ∧ notWordAt (s.drop 3) then
          let rest := s.drop 3
          let w := rest.takeWhile wsChar
          let rest' := rest.dropWhile wsChar
          if rest' ≠ [] ∧ rest'.head? ≠ some '\\' then
            rest'.takeWhile (fun c => c ≠ '\\') ::
              ftFindF fuel (rest'.dropWhile (fun c => c ≠ '\\'))
          else if w ≠ [] then Option.elim w.getLast? [] (fun c => [c]) :: ftFindF fuel rest'
          else ftFindF fuel s.tail
        else ftFindF fuel s.tail) := rfl

theorem splitAtCloseF_succ (fuel : Nat) (s : List Char) :
    splitAtCloseF (fuel + 1) s =
      Option.elim s.head? none (fun c =>
        if (fStarMark).isPrefixOf s then some ([], s.tail.tail.tail)
        else Option.elim (splitAtCloseF fuel s.tail) none (fun p => some (c :: p.1, p.2))) := rfl

theorem extractF_succ (fuel : Nat) (s : List Char) :
    extractF (fuel + 1) s =
      Option.elim s.head? [] (fun c =>
        if (fMark).isPrefixOf s ∧ notWordAt (s.drop 2) then
          Option.elim (splitAtClose (s.drop 2))
            (c :: extractF fuel s.tail)
            (fun p => footnoteRepl (fMark ++ p.1 ++ fStarMark) ++ extractF fuel p.2)
        else c :: extractF fuel s.tail) := rfl

theorem splitAtCloseF_length :
    ∀ (fuel : Nat) (s : List Char) (p : List Char × List Char),
      splitAtCloseF fuel s = some p → p.2.length + 3 ≤ s.length := by
  intro fuel
  induction fuel with
  | zero => intro s p h; simp [splitAtCloseF] at h
  | succ f ih =>
    intro s p h
    cases s with
    | nil => simp [splitAtCloseF_succ] at h
    | cons c cs =>
      rw [splitAtCloseF_succ] at h
      simp only [List.head?_cons, Option.elim, List.tail_cons] at h
      by_cases hpre : (fStarMark).isPrefixOf (c :: cs) = true
      · rw [if_pos hpre] at h
        obtain ⟨t, ht⟩ := List.isPrefixOf_iff_prefix.mp hpre
        rw [show fStarMark ++ t = '\\' :: 'f' :: '*' :: t from rfl] at ht
        injection ht with h1 h2
        subst h2
        cases h
        simp
      · rw [if_neg hpre] at h
        cases hsp : splitAtCloseF f cs with
        | none => rw [hsp] at h; simp [Option.elim] at h
        | some q =>
          rw [hsp] at h
          simp only [Option.elim, Option.some.injEq] at h
          have := ih cs q hsp
          cases h
          simp only [List.length_cons]
          omega

theorem splitAtClose_length (s : List Char) (p : List Char × List Char)
    (h : splitAtClose s = some p) : p.2.length + 3 ≤ s.length :=
  splitAtCloseF_length s.length s p h

theorem extractF_irrel :
    ∀ (n : Nat) (s : List Char) (f1 f2 : Nat), s.length ≤ n → s.length ≤ f1 →
      s.length ≤ f2 → extractF f1 s = extractF f2 s := by
  intro n
  induction n with
  | zero =>
    intro s f1 f2 h1 _ _
    have hs : s = [] := List.eq_nil_of_length_eq_zero (by omega)
    subst hs
    cases f1 <;> cases f2 <;> rfl
  | succ n ih =>
    intro s f1 f2 h1 hf1 hf2
    cases s with
    | nil => cases f1 <;> cases f2 <;> rfl
    | cons c cs =>
      simp only [List.length_cons] at h1 hf1 hf2
      match f1, f2, hf1, hf2 with
      | a + 1, b + 1, _, _ =>
        rw [extractF_succ, extractF_succ]
        simp only [List.head?_cons, Option.elim, List.tail_cons]
        have hstep : extractF a cs = extractF b cs :=
          ih cs a b (by omega) (by omega) (by omega)
        by_cases hcond : ((fMark).isPrefixOf (c :: cs) = true ∧
            notWordAt ((c :: cs).drop 2) = true)
        · rw [if_pos hcond, if_pos hcond]
          cases hsp : splitAtClose ((c :: cs).drop 2) with
          | none => simp only [Option.elim, hstep]
          | some p =>
            simp only [Option.elim]
            have hlen := splitAtClose_length _ p hsp
            simp only [List.drop_succ_cons, List.drop_zero] at hlen
            have hdl := (List.drop_sublist 1 cs).length_le
            rw [ih p.2 a b (by omega) (by omega) (by omega)]
        · rw [if_neg hcond, if_neg hcond, hstep]

theorem ftFindF_irrel :
    ∀ (n : Nat) (s : List Char) (f1 f2 : Nat), s.length ≤ n → s.length ≤ f1 →
      s.length ≤ f2 → ftFindF f1 s = ftFindF f2 s := by
  intro n
  induction n with
  | zero =>
    intro s f1 f2 h1 _ _
    have hs : s = [] := List.eq_nil_of_length_eq_zero (by omega)
    subst hs
    cases f1 <;> cases f2 <;> rfl
  | succ n ih =>
    intro s f1 f2 h1 hf1 hf2
    cases s with
    | nil => cases f1 <;> cases f2 <;> rfl
    | cons c cs =>
      simp only [List.length_cons] at h1 hf1 hf2
      match f1, f2, hf1, hf2 with
      | a + 1, b + 1, _, _ =>
        rw [ftFindF_succ, ftFindF_succ]
        simp only [List.head?_cons, Option.elim, List.tail_cons]
        have hstep : ftFindF a cs = ftFindF b cs :=
          ih cs a b (by omega) (by omega) (by omega)
        have hdrop3 : ((c :: cs).drop 3).length ≤ cs.length := by
          simp only [List.drop_succ_cons]
          exact (List.drop_sublist 2 cs).length_le
        by_cases hcond : ((ftMark).isPrefixOf (c :: cs) = true ∧
            notWordAt ((c :: cs).drop 3) = true)
        · rw [if_pos hcond, if_pos hcond]
          have hrest' : (((c :: cs).drop 3).dropWhile wsChar).length ≤ cs.length :=
            le_trans (List.dropWhile_sublist wsChar).length_le hdrop3
          by_cases hmain : ((((c :: cs).drop 3).dropWhile wsChar) ≠ [] ∧
              (((c :: cs).drop 3).dropWhile wsChar).head? ≠ some '\\')
          · rw [if_pos hmain, if_pos hmain]
            have hgl : ((((c :: cs).drop 3).dropWhile wsChar).dropWhile
                (fun c => c ≠ '\\')).length ≤ cs.length :=
              le_trans (List.dropWhile_sublist _).length_le hrest'
            rw [ih _ a b (by omega) (by omega) (by omega)]
          · rw [if_neg hmain, if_neg hmain]
            by_cases hw : (((c :: cs).drop 3).takeWhile wsChar) ≠ []
            · rw [if_pos hw, if_pos hw]
              rw [ih _ a b (by omega) (by omega) (by omega)]
            · rw [if_neg hw, if_neg hw, hstep]
        · rw [if_neg hcond, if_neg hcond, hstep]

theorem isPrefixOf_head {d c : Char} {pat cs : List Char}
    (h : (d :: pat).isPrefixOf (c :: cs) = true) : d = c := by
  simp only [List.isPrefixOf, Bool.and_eq_true, beq_iff_eq] at h
  exact h.1

theorem extract_step (c : Char) (cs : List Char)
    (h : ¬((fMark).isPrefixOf (c :: cs) = true ∧ notWordAt ((c :: cs).drop 2) = true)) :
    extract_usfm_footnotes (c :: cs) = c :: extract_usfm_footnotes cs := by
  unfold extract_usfm_footnotes
  simp only [List.length_cons]
  rw [extractF_succ]
  simp only [List.head?_cons, Option.elim, List.tail_cons]
  rw [if_neg h]

theorem extract_seg (seg ys : List Char) (h : '\\' ∉ seg) :
    extract_usfm_footnotes (seg ++ ys) = seg ++ extract_usfm_footnotes ys := by
  induction seg with
  | nil => simp
  | cons c cs ih =>
    have hc : c ≠ '\\' := fun he => h (by simp [he])
    have hcond : ¬((fMark).isPrefixOf (c :: (cs ++ ys)) = true ∧
        notWordAt ((c :: (cs ++ ys)).drop 2) = true) := by
      rintro ⟨hp, -⟩
      rw [show fMark = '\\' :: ['f'] from rfl] at hp
      exact hc (isPrefixOf_head hp).symm
    rw [List.cons_append, extract_step c (cs ++ ys) hcond,
      ih (fun hm => h (by simp [hm]))]
    simp

theorem notWordAt_append_bs (ins r : List Char) (hb : notWordAt ins = true) :
    notWordAt (ins ++ '\\' :: r) = true := by
  cases ins with
  | nil => simp [notWordAt, Option.elim]; decide
  | cons a t => simpa [notWordAt, Option.elim] using hb

theorem extract_match (ins post : List Char) (hb : notWordAt ins = true)
    (hsp : splitAtClose (ins ++ fStarMark ++ post) = some (ins, post)) :
    extract_usfm_footnotes ('\\' :: 'f' :: (ins ++ fStarMark ++ post)) =
      footnoteRepl (fMark ++ ins ++ fStarMark) ++ extract_usfm_footnotes post := by
  unfold extract_usfm_footnotes
  simp only [List.length_cons]
  rw [extractF_succ]
  simp only [List.head?_cons, Option.elim, List.tail_cons, List.drop_succ_cons,
    List.drop_zero]
  rw [if_pos ?hc]
  case hc =>
    constructor
    · simp [str, List.isPrefixOf]
    · rw [List.append_assoc]
      exact notWordAt_append_bs ins ('f' :: '*' :: post) hb
  rw [hsp]
  simp only [Option.elim]
  congr 1
  have hlen : post.length ≤ (ins ++ fStarMark ++ post).length := by
    simp [List.length_append]
    omega
  exact extractF_irrel ((ins ++ fStarMark ++ post).length + 1) post _ _
    (by omega) (by omega) (by omega)

/-- C1 general decomposition: the leftmost footnote block (a `\f` opener with
a word boundary, closed by the EARLIEST following `\f*`) is replaced inline by
footnoteRepl of the block, and extraction continues after the block. -/
theorem extract_block_decomp (pre ins post : List Char)
    (hpre : '\\' ∉ pre) (hb : notWordAt ins = true)
    (hsp : splitAtClose (ins ++ fStarMark ++ post) = some (ins, post)) :
    extract_usfm_footnotes (pre ++ '\\' :: 'f' :: (ins ++ fStarMark ++ post)) =
      pre ++ footnoteRepl (fMark ++ ins ++ fStarMark) ++ extract_usfm_footnotes post := by
  rw [extract_seg pre _ hpre, extract_match ins post hb hsp, List.append_assoc pre]

theorem splitAtClose_step (c : Char) (cs : List Char)
    (h : ¬(fStarMark.isPrefixOf (c :: cs) = true)) :
    splitAtClose (c :: cs) =
      Option.elim (splitAtClose cs) none (fun p => some (c :: p.1, p.2)) := by
  unfold splitAtClose
  simp only [List.length_cons]
  rw [splitAtCloseF_succ]
  simp only [List.head?_cons, Option.elim, List.tail_cons]
  rw [if_neg h]

theorem splitAtClose_seg (seg ys : List Char) (h : '\\' ∉ seg) :
    splitAtClose (seg ++ ys) =
      Option.elim (splitAtClose ys) none (fun p => some (seg ++ p.1, p.2)) := by
  induction seg with
  | nil =>
    simp only [List.nil_append]
    cases splitAtClose ys <;> simp [Option.elim]
  | cons c cs ih =>
    have hc : c ≠ '\\' := fun he => h (by simp [he])
    have hpre : ¬(fStarMark.isPrefixOf (c :: (cs ++ ys)) = true) := by
      intro hp
      exact hc (isPrefixOf_head hp).symm
    rw [List.cons_append, splitAtClose_step c (cs ++ ys) hpre,
      ih (fun hm => h (by simp [hm]))]
    cases splitAtClose ys with
    | none => simp [Option.elim]
    | some p => simp [Option.elim]

theorem splitAtClose_close (post : List Char) :
    splitAtClose ('\\' :: 'f' :: '*' :: post) = some ([], post) := by
  unfold splitAtClose
  simp only [List.length_cons]
  rw [splitAtCloseF_succ]
  simp only [List.head?_cons, Option.elim, List.tail_cons]
  rw [if_pos (by simp [List.isPrefixOf])]

theorem frSearch_step (c : Char) (cs : List Char)
    (h : ¬(frMark.isPrefixOf (c :: cs) = true ∧ notWordAt ((c :: cs).drop 3) = true)) :
    frSearch (c :: cs) = frSearch cs := by
  unfold frSearch
  simp only [List.length_cons]
  rw [frSearchF_succ]
  simp only [List.head?_cons, Option.elim, List.tail_cons]
  rw [if_neg h]

theorem frSearch_seg (seg ys : List Char) (h : '\\' ∉ seg) :
    frSearch (seg ++ ys) = frSearch ys := by
  induction seg with
  | nil => simp
  | cons c cs ih =>
    have hc : c ≠ '\\' := fun he => h (by simp [he])
    have hpre : ¬(frMark.isPrefixOf (c :: (cs ++ ys)) = true ∧
        notWordAt ((c :: (cs ++ ys)).drop 3) = true) := by
      rintro ⟨hp, -⟩
      exact hc (isPrefixOf_head hp).symm
    rw [List.cons_append, frSearch_step c (cs ++ ys) hpre,
      ih (fun hm => h (by simp [hm]))]

theorem ftFind_step (c : Char) (cs : List Char)
    (h : ¬(ftMark.isPrefixOf (c :: cs) = true ∧ notWordAt ((c :: cs).drop 3) = true)) :
    ftFind (c :: cs) = ftFind cs := by
  unfold ftFind
  simp only [List.length_cons]
  rw [ftFindF_succ]
  simp only [List.head?_cons, Option.elim, List.tail_cons]
  rw [if_neg h]

theorem ftFind_seg (seg ys : List Char) (h : '\\' ∉ seg) :
    ftFind (seg ++ ys) = ftFind ys := by
  induction seg with
  | nil => simp
  | cons c cs ih =>
    have hc : c ≠ '\\' := fun he => h (by simp [he])
    have hpre : ¬(ftMark.isPrefixOf (c :: (cs ++ ys)) = true ∧
        notWordAt ((c :: (cs ++ ys)).drop 3) = true) := by
      rintro ⟨hp, -⟩
      exact hc (isPrefixOf_head hp).symm
    rw [List.cons_append, ftFind_step c (cs ++ ys) hpre,
      ih (fun hm => h (by simp [hm]))]

theorem plusMarkSub_step (c : Char) (cs : List Char)
    (h : ¬(plusMark.isPrefixOf (c :: cs) = true ∧
      ((c :: cs).drop 2).takeWhile asciiLetter ≠ [])) :
    plusMarkSub (c :: cs) = c :: plusMarkSub cs := by
  unfold plusMarkSub
  simp only [List.length_cons]
  rw [plusMarkSubF_succ]
  simp only [List.head?_cons, Option.elim, List.tail_cons]
  rw [if_neg h]

theorem plusMarkSub_seg (seg ys : List Char) (h : '\\' ∉ seg) :
    plusMarkSub (seg ++ ys) = seg ++ plusMarkSub ys := by
  induction seg with
  | nil => simp
  | cons c cs ih =>
    have hc : c ≠ '\\' := fun he => h (by simp [he])
    have hpre : ¬(plusMark.isPrefixOf (c :: (cs ++ ys)) = true ∧
        ((c :: (cs ++ ys)).drop 2).takeWhile asciiLetter ≠ []) := by
      rintro ⟨hp, -⟩
      exact hc (isPrefixOf_head hp).symm
    rw [List.cons_append, plusMarkSub_step c (cs ++ ys) hpre,
      ih (fun hm => h (by simp [hm]))]
    simp

theorem notWordAt_cons (c : Char) (t : List Char) :
    notWordAt (c :: t) = ! isWordChar c := rfl

theorem frSearch_match (rest : List Char) (hb : notWordAt rest = true)
    (h1 : rest.dropWhile wsChar ≠ []) (h2 : (rest.dropWhile wsChar).head? ≠ some '\\') :
    frSearch ('\\' :: 'f' :: 'r' :: rest) =
      some ((rest.dropWhile wsChar).takeWhile (fun c => c ≠ '\\')) := by
  unfold frSearch
  simp only [List.length_cons]
  rw [frSearchF_succ]
  simp only [List.head?_cons, Option.elim, List.tail_cons, List.drop_succ_cons,
    List.drop_zero]
  rw [if_pos ⟨by simp [List.isPrefixOf], hb⟩]
  rw [if_pos ⟨h1, h2⟩]

theorem ftFind_match (rest : List Char) (hb : notWordAt rest = true)
    (h1 : rest.dropWhile wsChar ≠ []) (h2 : (rest.dropWhile wsChar).head? ≠ some '\\') :
    ftFind ('\\' :: 'f' :: 't' :: rest) =
      (rest.dropWhile wsChar).takeWhile (fun c => c ≠ '\\') ::
        ftFind ((rest.dropWhile wsChar).dropWhile (fun c => c ≠ '\\')) := by
  unfold ftFind
  simp only [List.length_cons]
  rw [ftFindF_succ]
  simp only [List.head?_cons, Option.elim, List.tail_cons, List.drop_succ_cons,
    List.drop_zero]
  rw [if_pos ⟨by simp [List.isPrefixOf], hb⟩]
  rw [if_pos ⟨h1, h2⟩]
  congr 1
  have hr : ((rest.dropWhile wsChar).dropWhile (fun c => c ≠ '\\')).length ≤ rest.length :=
    le_trans (List.dropWhile_sublist _).length_le (List.dropWhile_sublist _).length_le
  exact ftFindF_irrel (rest.length + 2) _ _ _ (by omega) (by omega) (by omega)

theorem head_not_ws_of_strip (c : Char) (t : List Char) (h : pyStrip (c :: t) = c :: t) :
    wsChar c = false := by
  have h1 := dropWhile_of_pyStrip_eq _ h
  by_contra hcc
  simp only [Bool.not_eq_false] at hcc
  rw [List.dropWhile_cons, if_pos hcc] at h1
  have h4 := (List.dropWhile_sublist (l := t) wsChar).length_le
  have h5 := congrArg List.length h1
  simp at h5
  omega

theorem plusMarkSub_cons_nb (c : Char) (t : List Char) (hc : c ≠ '\\') :
    plusMarkSub (c :: t) = c :: plusMarkSub t := by
  apply plusMarkSub_step
  rintro ⟨hp, -⟩
  exact hc (isPrefixOf_head hp).symm

theorem plusMarkSub_step_bs (t : List Char) :
    plusMarkSub ('\\' :: 'f' :: t) = '\\' :: plusMarkSub ('f' :: t) := by
  apply plusMarkSub_step
  rintro ⟨hp, -⟩
  simp [List.isPrefixOf] at hp

theorem frSearch_cons_nb (c : Char) (t : List Char) (hc : c ≠ '\\') :
    frSearch (c :: t) = frSearch t := by
  apply frSearch_step
  rintro ⟨hp, -⟩
  exact hc (isPrefixOf_head hp).symm

theorem frSearch_step_bs (c : Char) (t : List Char) (hc : c ≠ 'r') :
    frSearch ('\\' :: 'f' :: c :: t) = frSearch ('f' :: c :: t) := by
  apply frSearch_step
  rintro ⟨hp, -⟩
  simp only [frMark, List.isPrefixOf, Bool.and_eq_true, beq_iff_eq] at hp
  exact hc hp.2.2.1.symm

theorem ftFind_cons_nb (c : Char) (t : List Char) (hc : c ≠ '\\') :
    ftFind (c :: t) = ftFind t := by
  apply ftFind_step
  rintro ⟨hp, -⟩
  exact hc (isPrefixOf_head hp).symm

theorem ftFind_step_bs (c : Char) (t : List Char) (hc : c ≠ 't') :
    ftFind ('\\' :: 'f' :: c :: t) = ftFind ('f' :: c :: t) := by
  apply ftFind_step
  rintro ⟨hp, -⟩
  simp only [ftMark, List.isPrefixOf, Bool.and_eq_true, beq_iff_eq] at hp
  exact hc hp.2.2.1.symm

theorem splitAtClose_cons_nb (c : Char) (cs : List Char) (hc : c ≠ '\\') :
    splitAtClose (c :: cs) =
      Option.elim (splitAtClose cs) none (fun p => some (c :: p.1, p.2)) := by
  apply splitAtClose_step
  intro hp
  exact hc (isPrefixOf_head hp).symm

theorem splitAtClose_step_bs (c : Char) (t : List Char) (hc : c ≠ '*') :
    splitAtClose ('\\' :: 'f' :: c :: t) =
      Option.elim (splitAtClose ('f' :: c :: t)) none
        (fun p => some ('\\' :: p.1, p.2)) := by
  apply splitAtClose_step
  intro hp
  simp only [fStarMark, List.isPrefixOf, Bool.and_eq_true, beq_iff_eq] at hp
  exact hc hp.2.2.1.symm

theorem plusMarkSub_canon (R B post : List Char) (hR : '\\' ∉ R) (hB : '\\' ∉ B) :
    plusMarkSub ('\\' :: 'f' :: ' ' :: '+' :: ' ' :: '\\' :: 'f' :: 'r' :: ' ' ::
        (R ++ ' ' :: '\\' :: 'f' :: 't' :: ' ' :: (B ++ '\\' :: 'f' :: '*' :: post))) =
      '\\' :: 'f' :: ' ' :: '+' :: ' ' :: '\\' :: 'f' :: 'r' :: ' ' ::
        (R ++ ' ' :: '\\' :: 'f' :: 't' :: ' ' :: (B ++ '\\' :: 'f' :: '*' :: plusMarkSub post)) := by
  rw [plusMarkSub_step_bs]
  rw [plusMarkSub_cons_nb 'f' _ (by decide), plusMarkSub_cons_nb ' ' _ (by decide),
    plusMarkSub_cons_nb '+' _ (by decide), plusMarkSub_cons_nb ' ' _ (by decide)]
  rw [plusMarkSub_step_bs]
  rw [plusMarkSub_cons_nb 'f' _ (by decide), plusMarkSub_cons_nb 'r' _ (by decide),
    plusMarkSub_cons_nb ' ' _ (by decide)]
  rw [plusMarkSub_seg R _ hR]
  rw [plusMarkSub_cons_nb ' ' _ (by decide)]
  rw [plusMarkSub_step_bs]
  rw [plusMarkSub_cons_nb 'f' _ (by decide), plusMarkSub_cons_nb 't' _ (by decide),
    plusMarkSub_cons_nb ' ' _ (by decide)]
  rw [plusMarkSub_seg B _ hB]
  rw [plusMarkSub_step_bs]
  rw [plusMarkSub_cons_nb 'f' _ (by decide), plusMarkSub_cons_nb '*' _ (by decide)]

theorem frSearch_canon (R B post : List Char) (hR : '\\' ∉ R) (hRs : pyStrip R = R)
    (hRn : R ≠ []) :
    frSearch ('\\' :: 'f' :: ' ' :: '+' :: ' ' :: '\\' :: 'f' :: 'r' :: ' ' ::
        (R ++ ' ' :: '\\' :: 'f' :: 't' :: ' ' :: (B ++ '\\' :: 'f' :: '*' :: post))) =
      some (R ++ [' ']) := by
  rw [frSearch_step_bs ' ' _ (by decide)]
  rw [frSearch_cons_nb 'f' _ (by decide), frSearch_cons_nb ' ' _ (by decide),
    frSearch_cons_nb '+' _ (by decide), frSearch_cons_nb ' ' _ (by decide)]
  obtain ⟨r0, R', rfl⟩ := List.exists_cons_of_ne_nil hRn
  have hr0w : wsChar r0 = false := head_not_ws_of_strip r0 R' hRs
  have hr0b : r0 ≠ '\\' := fun he => hR (by simp [he])
  have hdw : ((' ' :: ((r0 :: R') ++ ' ' :: '\\' :: 'f' :: 't' :: ' ' ::
      (B ++ '\\' :: 'f' :: '*' :: post))).dropWhile wsChar) =
      (r0 :: R') ++ ' ' :: '\\' :: 'f' :: 't' :: ' ' :: (B ++ '\\' :: 'f' :: '*' :: post) := by
    rw [List.dropWhile_cons, if_pos (by decide)]
    rw [List.cons_append, List.dropWhile_cons, if_neg (by simp [hr0w])]
  rw [frSearch_match _ (by rw [notWordAt_cons]; decide) (by rw [hdw]; simp) ?hd]
  case hd =>
    rw [hdw]
    simp [hr0b]
  rw [hdw]
  rw [show ((r0 :: R') ++ ' ' :: '\\' :: 'f' :: 't' :: ' ' ::
      (B ++ '\\' :: 'f' :: '*' :: post)) = ((r0 :: R') ++ [' ']) ++ '\\' :: 'f' :: 't' :: ' ' ::
      (B ++ '\\' :: 'f' :: '*' :: post) from by simp]
  rw [takeWhile_app _ _ '\\' _ ?hall (by simp)]
  case hall =>
    intro c hc
    simp only [List.mem_append, List.mem_singleton] at hc
    simp only [decide_eq_true_eq]
    rcases hc with h | h
    · intro he
      exact hR (he ▸ h)
    · subst h
      decide

theorem ftFind_canon (R B post : List Char) (hR : '\\' ∉ R) (hB : '\\' ∉ B)
    (hBs : pyStrip B = B) (hBn : B ≠ []) :
    ftFind ('\\' :: 'f' :: ' ' :: '+' :: ' ' :: '\\' :: 'f' :: 'r' :: ' ' ::
        (R ++ ' ' :: '\\' :: 'f' :: 't' :: ' ' :: (B ++ '\\' :: 'f' :: '*' :: post))) =
      B :: ftFind ('\\' :: 'f' :: '*' :: post) := by
  rw [ftFind_step_bs ' ' _ (by decide)]
  rw [ftFind_cons_nb 'f' _ (by decide), ftFind_cons_nb ' ' _ (by decide),
    ftFind_cons_nb '+' _ (by decide), ftFind_cons_nb ' ' _ (by decide)]
  rw [ftFind_step_bs 'r' _ (by decide)]
  rw [ftFind_cons_nb 'f' _ (by decide), ftFind_cons_nb 'r' _ (by decide),
    ftFind_cons_nb ' ' _ (by decide)]
  rw [ftFind_seg R _ hR]
  rw [ftFind_cons_nb ' ' _ (by decide)]
  obtain ⟨b0, B', rfl⟩ := List.exists_cons_of_ne_nil hBn
  have hb0w : wsChar b0 = false := head_not_ws_of_strip b0 B' hBs
  have hb0b : b0 ≠ '\\' := fun he => hB (by simp [he])
  have hdw : ((' ' :: ((b0 :: B') ++ '\\' :: 'f' :: '*' :: post)).dropWhile wsChar) =
      (b0 :: B') ++ '\\' :: 'f' :: '*' :: post := by
    rw [List.dropWhile_cons, if_pos (by decide)]
    rw [List.cons_append, List.dropWhile_cons, if_neg (by simp [hb0w])]
  rw [ftFind_match _ (by rw [notWordAt_cons]; decide) (by rw [hdw]; simp) ?hd]
  case hd =>
    rw [hdw]
    simp [hb0b]
  rw [hdw]
  have hallB : ∀ c ∈ (b0 :: B'), (fun c => decide (c ≠ '\\')) c = true := by
    intro c hc
    simp only [decide_eq_true_eq]
    intro he
    exact hB (he ▸ hc)
  rw [takeWhile_app _ _ '\\' _ hallB (by simp)]
  rw [dropWhile_app _ _ '\\' _ hallB (by simp)]

theorem splitAtClose_canon (R B post : List Char) (hR : '\\' ∉ R) (hB : '\\' ∉ B) :
    splitAtClose (' ' :: '+' :: ' ' :: '\\' :: 'f' :: 'r' :: ' ' ::
        (R ++ ' ' :: '\\' :: 'f' :: 't' :: ' ' :: (B ++ '\\' :: 'f' :: '*' :: post))) =
      some (' ' :: '+' :: ' ' :: '\\' :: 'f' :: 'r' :: ' ' ::
        (R ++ ' ' :: '\\' :: 'f' :: 't' :: ' ' :: B), post) := by
  rw [splitAtClose_cons_nb ' ' _ (by decide), splitAtClose_cons_nb '+' _ (by decide),
    splitAtClose_cons_nb ' ' _ (by decide)]
  rw [splitAtClose_step_bs 'r' _ (by decide)]
  rw [splitAtClose_cons_nb 'f' _ (by decide), splitAtClose_cons_nb 'r' _ (by decide),
    splitAtClose_cons_nb ' ' _ (by decide)]
  rw [splitAtClose_seg R _ hR]
  rw [splitAtClose_cons_nb ' ' _ (by decide)]
  rw [splitAtClose_step_bs 't' _ (by decide)]
  rw [splitAtClose_cons_nb 'f' _ (by decide), splitAtClose_cons_nb 't' _ (by decide),
    splitAtClose_cons_nb ' ' _ (by decide)]
  rw [splitAtClose_seg B _ hB]
  rw [splitAtClose_close]
  simp [Option.elim]

theorem joinSpace_single (B : List Char) : joinSpace [B] = B := rfl

theorem footnoteRepl_canon (R B : List Char) (hR : '\\' ∉ R) (hRs : pyStrip R = R)
    (hRn : R ≠ []) (hB : '\\' ∉ B) (hBs : pyStrip B = B) (hBn : B ≠ []) :
    footnoteRepl ('\\' :: 'f' :: ' ' :: '+' :: ' ' :: '\\' :: 'f' :: 'r' :: ' ' ::
        (R ++ ' ' :: '\\' :: 'f' :: 't' :: ' ' :: (B ++ '\\' :: 'f' :: '*' :: []))) =
      FOOTNOTE_DELIM ++ (R ++ str ": " ++ B) ++ FOOTNOTE_DELIM ++ [' '] := by
  unfold footnoteRepl
  rw [plusMarkSub_canon R B [] hR hB]
  rw [show plusMarkSub ([] : List Char) = [] from rfl]
  dsimp only
  rw [frSearch_canon R B [] hR hRs hRn]
  rw [ftFind_canon R B [] hR hB hBs hBn]
  rw [show ftFind ['\\', 'f', '*'] = [] from by decide]
  simp only [Option.elim, List.map_cons, List.map_nil]
  rw [pyStrip_append_space R hRs, hBs, joinSpace_single, hBs]
  rw [if_neg hBn, if_pos hRn]

theorem plusMarkSub_canon_nf (B post : List Char) (hB : '\\' ∉ B) :
    plusMarkSub ('\\' :: 'f' :: ' ' :: '+' :: ' ' :: '\\' :: 'f' :: 't' :: ' ' ::
        (B ++ '\\' :: 'f' :: '*' :: post)) =
      '\\' :: 'f' :: ' ' :: '+' :: ' ' :: '\\' :: 'f' :: 't' :: ' ' ::
        (B ++ '\\' :: 'f' :: '*' :: plusMarkSub post) := by
  rw [plusMarkSub_step_bs]
  rw [plusMarkSub_cons_nb 'f' _ (by decide), plusMarkSub_cons_nb ' ' _ (by decide),
    plusMarkSub_cons_nb '+' _ (by decide), plusMarkSub_cons_nb ' ' _ (by decide)]
  rw [plusMarkSub_step_bs]
  rw [plusMarkSub_cons_nb 'f' _ (by decide), plusMarkSub_cons_nb 't' _ (by decide),
    plusMarkSub_cons_nb ' ' _ (by decide)]
  rw [plusMarkSub_seg B _ hB]
  rw [plusMarkSub_step_bs]
  rw [plusMarkSub_cons_nb 'f' _ (by decide), plusMarkSub_cons_nb '*' _ (by decide)]

theorem frSearch_canon_nf (B : List Char) (hB : '\\' ∉ B) :
    frSearch ('\\' :: 'f' :: ' ' :: '+' :: ' ' :: '\\' :: 'f' :: 't' :: ' ' ::
        (B ++ '\\' :: 'f' :: '*' :: [])) = none := by
  rw [frSearch_step_bs ' ' _ (by decide)]
  rw [frSearch_cons_nb 'f' _ (by decide), frSearch_cons_nb ' ' _ (by decide),
    frSearch_cons_nb '+' _ (by decide), frSearch_cons_nb ' ' _ (by decide)]
  rw [frSearch_step_bs 't' _ (by decide)]
  rw [frSearch_cons_nb 'f' _ (by decide), frSearch_cons_nb 't' _ (by decide),
    frSearch_cons_nb ' ' _ (by decide)]
  rw [frSearch_seg B _ hB]
  rw [frSearch_step_bs '*' _ (by decide)]
  rw [frSearch_cons_nb 'f' _ (by decide), frSearch_cons_nb '*' _ (by decide)]
  rfl

theorem ftFind_canon_nf (B post : List Char) (hB : '\\' ∉ B)
    (hBs : pyStrip B = B) (hBn : B ≠ []) :
    ftFind ('\\' :: 'f' :: ' ' :: '+' :: ' ' :: '\\' :: 'f' :: 't' :: ' ' ::
        (B ++ '\\' :: 'f' :: '*' :: post)) =
      B :: ftFind ('\\' :: 'f' :: '*' :: post) := by
  rw [ftFind_step_bs ' ' _ (by decide)]
  rw [ftFind_cons_nb 'f' _ (by decide), ftFind_cons_nb ' ' _ (by decide),
    ftFind_cons_nb '+' _ (by decide), ftFind_cons_nb ' ' _ (by decide)]
  obtain ⟨b0, B', rfl⟩ := List.exists_cons_of_ne_nil hBn
  have hb0w : wsChar b0 = false := head_not_ws_of_strip b0 B' hBs
  have hb0b : b0 ≠ '\\' := fun he => hB (by simp [he])
  have hdw : ((' ' :: ((b0 :: B') ++ '\\' :: 'f' :: '*' :: post)).dropWhile wsChar) =
      (b0 :: B') ++ '\\' :: 'f' :: '*' :: post := by
    rw [List.dropWhile_cons, if_pos (by decide)]
    rw [List.cons_append, List.dropWhile_cons, if_neg (by simp [hb0w])]
  rw [ftFind_match _ (by rw [notWordAt_cons]; decide) (by rw [hdw]; simp) ?hd]
  case hd =>
    rw [hdw]
    simp [hb0b]
  rw [hdw]
  have hallB : ∀ c ∈ (b0 :: B'), (fun c => decide (c ≠ '\\')) c = true := by
    intro c hc
    simp only [decide_eq_true_eq]
    intro he
    exact hB (he ▸ hc)
  rw [takeWhile_app _ _ '\\' _ hallB (by simp)]
  rw [dropWhile_app _ _ '\\' _ hallB (by simp)]

theorem splitAtClose_canon_nf (B post : List Char) (hB : '\\' ∉ B) :
    splitAtClose (' ' :: '+' :: ' ' :: '\\' :: 'f' :: 't' :: ' ' ::
        (B ++ '\\' :: 'f' :: '*' :: post)) =
      some (' ' :: '+' :: ' ' :: '\\' :: 'f' :: 't' :: ' ' :: B, post) := by
  rw [splitAtClose_cons_nb ' ' _ (by decide), splitAtClose_cons_nb '+' _ (by decide),
    splitAtClose_cons_nb ' ' _ (by decide)]
  rw [splitAtClose_step_bs 't' _ (by decide)]
  rw [splitAtClose_cons_nb 'f' _ (by decide), splitAtClose_cons_nb 't' _ (by decide),
    splitAtClose_cons_nb ' ' _ (by decide)]
  rw [splitAtClose_seg B _ hB]
  rw [splitAtClose_close]
  simp [Option.elim]

theorem footnoteRepl_canon_nf (B : List Char) (hB : '\\' ∉ B) (hBs : pyStrip B = B)
    (hBn : B ≠ []) :
    footnoteRepl ('\\' :: 'f' :: ' ' :: '+' :: ' ' :: '\\' :: 'f' :: 't' :: ' ' ::
        (B ++ '\\' :: 'f' :: '*' :: [])) =
      FOOTNOTE_DELIM ++ B ++ FOOTNOTE_DELIM ++ [' '] := by
  unfold footnoteRepl
  rw [plusMarkSub_canon_nf B [] hB]
  rw [show plusMarkSub ([] : List Char) = [] from rfl]
  dsimp only
  rw [frSearch_canon_nf B hB]
  rw [ftFind_canon_nf B [] hB hBs hBn]
  rw [show ftFind ['\\', 'f', '*'] = [] from by decide]
  simp only [Option.elim, List.map_cons, List.map_nil]
  rw [hBs, joinSpace_single, hBs]
  rw [if_neg hBn, if_neg (by simp)]

/-- C1 counterexample: the extractor can RETURN A LONGER fragment than its
input, because the placeholder `␞FOOTNOTE␞<note>␞FOOTNOTE␞ ` is longer than a
short footnote block; the "equal or shorter length" part of the claim is
false. -/
theorem C1_counterexample :
    ¬ ((extract_usfm_footnotes (str "\\f + \\ft X\\f*")).length ≤
        (str "\\f + \\ft X\\f*").length) := by
  decide

/-- C1 (amended: without the "equal or shorter length" clause): a footnote
block with reference piece R and body piece B (backslash-free, stripped,
non-empty) is replaced by `␞FOOTNOTE␞R: B␞FOOTNOTE␞ ` and extraction
continues after the block; a block with a body piece B but NO reference
piece is replaced by `␞FOOTNOTE␞B␞FOOTNOTE␞ ` (the note is just the body);
a block with no body is replaced by a single space; and the concrete
fragment with reference "1:2" and body "Note text" encodes to contain the
substring `␞FOOTNOTE␞1:2: Note text␞FOOTNOTE␞`. -/
theorem C1_footnote_extractor (pre R B post : List Char)
    (hpre : '\\' ∉ pre) (hR : '\\' ∉ R) (hRs : pyStrip R = R) (hRn : R ≠ [])
    (hB : '\\' ∉ B) (hBs : pyStrip B = B) (hBn : B ≠ []) :
    extract_usfm_footnotes (pre ++ '\\' :: 'f' :: ' ' :: '+' :: ' ' :: '\\' :: 'f' :: 'r' ::
        ' ' :: (R ++ ' ' :: '\\' :: 'f' :: 't' :: ' ' :: (B ++ '\\' :: 'f' :: '*' :: post))) =
      pre ++ (FOOTNOTE_DELIM ++ (R ++ str ": " ++ B) ++ FOOTNOTE_DELIM ++ [' ']) ++
        extract_usfm_footnotes post
    ∧ extract_usfm_footnotes (pre ++ '\\' :: 'f' :: ' ' :: '+' :: ' ' :: '\\' :: 'f' :: 't' ::
        ' ' :: (B ++ '\\' :: 'f' :: '*' :: post)) =
      pre ++ (FOOTNOTE_DELIM ++ B ++ FOOTNOTE_DELIM ++ [' ']) ++
        extract_usfm_footnotes post
    ∧ extract_usfm_footnotes (pre ++ '\\' :: 'f' :: ' ' :: '+' :: ' ' :: '\\' :: 'f' :: '*' ::
        post) =
      pre ++ [' '] ++ extract_usfm_footnotes post
    ∧ hasSub (FOOTNOTE_DELIM ++ str "1:2: Note text" ++ FOOTNOTE_DELIM)
        (extract_usfm_footnotes (str "a \\f + \\fr 1:2 \\ft Note text\\f* b")) = true := by
  refine ⟨?_, ?_, ?_, by decide⟩
  · have harg : pre ++ '\\' :: 'f' :: ' ' :: '+' :: ' ' :: '\\' :: 'f' :: 'r' ::
        ' ' :: (R ++ ' ' :: '\\' :: 'f' :: 't' :: ' ' :: (B ++ '\\' :: 'f' :: '*' :: post)) =
        pre ++ '\\' :: 'f' :: ((' ' :: '+' :: ' ' :: '\\' :: 'f' :: 'r' :: ' ' ::
          (R ++ ' ' :: '\\' :: 'f' :: 't' :: ' ' :: B)) ++ fStarMark ++ post) := by
      simp [fStarMark]
    have hsp : splitAtClose ((' ' :: '+' :: ' ' :: '\\' :: 'f' :: 'r' :: ' ' ::
        (R ++ ' ' :: '\\' :: 'f' :: 't' :: ' ' :: B)) ++ fStarMark ++ post) =
        some (' ' :: '+' :: ' ' :: '\\' :: 'f' :: 'r' :: ' ' ::
          (R ++ ' ' :: '\\' :: 'f' :: 't' :: ' ' :: B), post) := by
      rw [show (' ' :: '+' :: ' ' :: '\\' :: 'f' :: 'r' :: ' ' ::
          (R ++ ' ' :: '\\' :: 'f' :: 't' :: ' ' :: B)) ++ fStarMark ++ post =
          ' ' :: '+' :: ' ' :: '\\' :: 'f' :: 'r' :: ' ' ::
          (R ++ ' ' :: '\\' :: 'f' :: 't' :: ' ' :: (B ++ '\\' :: 'f' :: '*' :: post)) from by
        simp [fStarMark]]
      exact splitAtClose_canon R B post hR hB
    rw [harg, extract_block_decomp pre _ post hpre (by rw [notWordAt_cons]; decide) hsp]
    have hblk : fMark ++ (' ' :: '+' :: ' ' :: '\\' :: 'f' :: 'r' :: ' ' ::
        (R ++ ' ' :: '\\' :: 'f' :: 't' :: ' ' :: B)) ++ fStarMark =
        '\\' :: 'f' :: ' ' :: '+' :: ' ' :: '\\' :: 'f' :: 'r' :: ' ' ::
          (R ++ ' ' :: '\\' :: 'f' :: 't' :: ' ' :: (B ++ '\\' :: 'f' :: '*' :: [])) := by
      simp [fMark, fStarMark]
    rw [hblk, footnoteRepl_canon R B hR hRs hRn hB hBs hBn]
  · have harg : pre ++ '\\' :: 'f' :: ' ' :: '+' :: ' ' :: '\\' :: 'f' :: 't' ::
        ' ' :: (B ++ '\\' :: 'f' :: '*' :: post) =
        pre ++ '\\' :: 'f' :: ((' ' :: '+' :: ' ' :: '\\' :: 'f' :: 't' :: ' ' :: B) ++
          fStarMark ++ post) := by
      simp [fStarMark]
    have hsp : splitAtClose ((' ' :: '+' :: ' ' :: '\\' :: 'f' :: 't' :: ' ' :: B) ++
        fStarMark ++ post) =
        some (' ' :: '+' :: ' ' :: '\\' :: 'f' :: 't' :: ' ' :: B, post) := by
      rw [show (' ' :: '+' :: ' ' :: '\\' :: 'f' :: 't' :: ' ' :: B) ++
          fStarMark ++ post =
          ' ' :: '+' :: ' ' :: '\\' :: 'f' :: 't' :: ' ' ::
          (B ++ '\\' :: 'f' :: '*' :: post) from by simp [fStarMark]]
      exact splitAtClose_canon_nf B post hB
    rw [harg, extract_block_decomp pre _ post hpre (by rw [notWordAt_cons]; decide) hsp]
    have hblk : fMark ++ (' ' :: '+' :: ' ' :: '\\' :: 'f' :: 't' :: ' ' :: B) ++ fStarMark =
        '\\' :: 'f' :: ' ' :: '+' :: ' ' :: '\\' :: 'f' :: 't' :: ' ' ::
          (B ++ '\\' :: 'f' :: '*' :: []) := by
      simp [fMark, fStarMark]
    rw [hblk, footnoteRepl_canon_nf B hB hBs hBn]
  · have harg : pre ++ '\\' :: 'f' :: ' ' :: '+' :: ' ' :: '\\' :: 'f' :: '*' :: post =
        pre ++ '\\' :: 'f' :: ([' ', '+', ' '] ++ fStarMark ++ post) := by
      simp [fStarMark]
    have hsp : splitAtClose ([' ', '+', ' '] ++ fStarMark ++ post) =
        some ([' ', '+', ' '], post) := by
      rw [show ([' ', '+', ' '] : List Char) ++ fStarMark ++ post =
          ' ' :: '+' :: ' ' :: '\\' :: 'f' :: '*' :: post from by simp [fStarMark]]
      rw [splitAtClose_cons_nb ' ' _ (by decide), splitAtClose_cons_nb '+' _ (by decide),
        splitAtClose_cons_nb ' ' _ (by decide), splitAtClose_close]
      simp [Option.elim]
    rw [harg, extract_block_decomp pre _ post hpre (by rw [notWordAt_cons]; decide) hsp]
    rw [show footnoteRepl (fMark ++ [' ', '+', ' '] ++ fStarMark) = [' '] from by decide]

/-- C1 witness: the amended theorem instantiated on a concrete fragment. -/
theorem C1_witness :
    extract_usfm_footnotes (str "x " ++ '\\' :: 'f' :: ' ' :: '+' :: ' ' :: '\\' :: 'f' ::
        'r' :: ' ' :: (str "1:2" ++ ' ' :: '\\' :: 'f' :: 't' :: ' ' ::
          (str "Note" ++ '\\' :: 'f' :: '*' :: str " y"))) =
      str "x " ++ (FOOTNOTE_DELIM ++ (str "1:2" ++ str ": " ++ str "Note") ++
        FOOTNOTE_DELIM ++ [' ']) ++ extract_usfm_footnotes (str " y") :=
  (C1_footnote_extractor (str "x ") (str "1:2") (str "Note") (str " y") (by decide)
    (by decide) (by decide) (by decide) (by decide) (by decide) (by decide)).1

/-- Inline style placeholders shared by encoder and decoder. -/
def ADD_OPEN : List Char := str "␞ADDOPEN␞"

def ADD_CLOSE : List Char := str "␞ADDCLOSE␞"

def SC_OPEN : List Char := str "␞SCOPEN␞"

def SC_CLOSE : List Char := str "␞SCCLOSE␞"

def SUP_OPEN : List Char := str "␞SUPOPEN␞"

def SUP_CLOSE : List Char := str "␞SUPCLOSE␞"

def STYLE_HDG : List Char := str "␞STYLE:HDG␞"

def STYLE_PARA : List Char := str "␞STYLE:PARA␞"

/-- Python str.replace: replace every (leftmost, non-overlapping) occurrence
of pat by rep. -/
def replaceAllF : Nat → List Char → List Char → List Char → List Char
  | 0, _, _, s => s
  | fuel + 1, pat, rep, s =>
    Option.elim s.head? [] (fun c =>
      if pat.isPrefixOf s ∧ pat ≠ [] then
        rep ++ replaceAllF fuel pat rep (s.drop pat.length)
      else c :: replaceAllF fuel pat rep s.tail)

def replaceAll (pat rep s : List Char) : List Char := replaceAllF s.length pat rep s

/-- PIPE_ATTR_RE.sub(""): delete every `|letters="..."` attribute run. -/
def pipeAttrSubF : Nat → List Char → List Char
  | 0, s => s
  | fuel + 1, s =>
    Option.elim s.head? [] (fun c =>
      if c = '|' ∧ s.tail.takeWhile asciiLetter ≠ [] then
        let r := s.tail.dropWhile asciiLetter
        if r.head? = some '=' ∧ r.tail.head? = some '"' then
          let body := r.tail.tail
          if (body.dropWhile (fun d => d ≠ '"')).head? = some '"' then
            pipeAttrSubF fuel (body.dropWhile (fun d => d ≠ '"')).tail
          else c :: pipeAttrSubF fuel s.tail
        else c :: pipeAttrSubF fuel s.tail
      else c :: pipeAttrSubF fuel s.tail)

def pipeAttrSub (s : List Char) : List Char := pipeAttrSubF s.length s

/-- STAR_RE.sub(""): delete every run of one or more stars. -/
def starSubF : Nat → List Char → List Char
  | 0, s => s
  | fuel + 1, s =>
    Option.elim s.head? [] (fun c =>
      if c = '*' then starSubF fuel (s.dropWhile (fun d => d = '*'))
      else c :: starSubF fuel s.tail)

def starSub (s : List Char) : List Char := starSubF s.length s

/-- USFM_MARK_RE.sub(" "): backslash, one or more ASCII letters, optional
digits, optional one star, replaced by a single space. -/
def usfmMarkSubF : Nat → List Char → List Char
  | 0, s => s
  | fuel + 1, s =>
    Option.elim s.head? [] (fun c =>
      if c = '\\' ∧ s.tail.takeWhile asciiLetter ≠ [] then
        let r1 := (s.tail.dropWhile asciiLetter).dropWhile Char.isDigit
        let r2 := if r1.head? = some '*' then r1.tail else r1
        ' ' :: usfmMarkSubF fuel r2
      else c :: usfmMarkSubF fuel s.tail)

def usfmMarkSub (s : List Char) : List Char := usfmMarkSubF s.length s

/-- re.sub of one-or-more whitespace by a single space (the `\s` class is
modelled over the four ASCII whitespace characters of wsChar). -/
def wsCollapseF : Nat → List Char → List Char
  | 0, s => s
  | fuel + 1, s =>
    Option.elim s.head? [] (fun c =>
      if wsChar c then ' ' :: wsCollapseF fuel (s.dropWhile wsChar)
      else c :: wsCollapseF fuel s.tail)

def wsCollapse (s : List Char) : List Char := wsCollapseF s.length s

/-- The ASCII apostrophe, the curly single quotes, and the curly double
quotes used by the quote-repair rules. -/
def aposC : Char := Char.ofNat 39

def rsqC : Char := Char.ofNat 8217

def lsqC : Char := Char.ofNat 8216

def ldqC : Char := Char.ofNat 8220

def rdqC : Char := Char.ofNat 8221

def isQuote1 (c : Char) : Bool := c = rsqC ∨ c = aposC

def isOpenQ (c : Char) : Bool := c = lsqC ∨ c = ldqC ∨ c = aposC ∨ c = '"'

def isCloseDQ (c : Char) : Bool := c = rdqC ∨ c = '"'

def isPunct (c : Char) : Bool :=
  c = ',' ∨ c = '.' ∨ c = ';' ∨ c = ':' ∨ c = '!' ∨ c = '?'

/-- Apostrophe-between-letters repair: lookbehind word char, optional
whitespace, a single quote, optional whitespace, lookahead word char; the
match is replaced by just the quote. prev carries the character before the
scan position. -/
def aposFixF : Nat → Option Char → List Char → List Char
  | 0, _, s => s
  | fuel + 1, prev, s =>
    Option.elim s.head? [] (fun c =>
      if Option.elim prev false isWordChar then
        let r1 := s.dropWhile wsChar
        Option.elim r1.head? (c :: aposFixF fuel (some c) s.tail) (fun q =>
          if isQuote1 q then
            let w2 := r1.tail.takeWhile wsChar
            let r3 := r1.tail.dropWhile wsChar
            if Option.elim r3.head? false isWordChar then
              q :: aposFixF fuel (some (Option.elim w2.getLast? q (fun d => d))) r3
            else c :: aposFixF fuel (some c) s.tail
          else c :: aposFixF fuel (some c) s.tail)
      else c :: aposFixF fuel (some c) s.tail)

def aposFix (s : List Char) : List Char := aposFixF s.length none s

/-- Remove whitespace after an opening quote when a word character follows. -/
def quoteOpenFixF : Nat → List Char → List Char
  | 0, s => s
  | fuel + 1, s =>
    Option.elim s.head? [] (fun c =>
      if isOpenQ c ∧ s.tail.takeWhile wsChar ≠ [] then
        let r := s.tail.dropWhile wsChar
        Option.elim r.head? (c :: quoteOpenFixF fuel s.tail) (fun w =>
          if isWordChar w then c :: w :: quoteOpenFixF fuel r.tail
          else c :: quoteOpenFixF fuel s.tail)
      else c :: quoteOpenFixF fuel s.tail)

def quoteOpenFix (s : List Char) : List Char := quoteOpenFixF s.length s

/-- Insert a space after a closing double quote directly followed by a word
character. -/
def quoteCloseFixF : Nat → List Char → List Char
  | 0, s => s
  | fuel + 1, s =>
    Option.elim s.head? [] (fun c =>
      if isCloseDQ c then
        Option.elim s.tail.head? (c :: quoteCloseFixF fuel s.tail) (fun w =>
          if isWordChar w then c :: ' ' :: w :: quoteCloseFixF fuel s.tail.tail
          else c :: quoteCloseFixF fuel s.tail)
      else c :: quoteCloseFixF fuel s.tail)

def quoteCloseFix (s : List Char) : List Char := quoteCloseFixF s.length s

/-- Insert a space after punctuation-then-single-quote when a word character
follows. -/
def aposPunctFixF : Nat → List Char → List Char
  | 0, s => s
  | fuel + 1, s =>
    Option.elim s.head? [] (fun c =>
      if isPunct c then
        Option.elim s.tail.head? (c :: aposPunctFixF fuel s.tail) (fun q =>
          if isQuote1 q then
            Option.elim s.tail.tail.head? (c :: aposPunctFixF fuel s.tail) (fun w =>
              if isWordChar w then c :: q :: ' ' :: w :: aposPunctFixF fuel s.tail.tail.tail
              else c :: aposPunctFixF fuel s.tail)
          else c :: aposPunctFixF fuel s.tail)
      else c :: aposPunctFixF fuel s.tail)

def aposPunctFix (s : List Char) : List Char := aposPunctFixF s.length s

/-- Remove whitespace before common punctuation. -/
def punctSpaceFixF : Nat → List Char → List Char
  | 0, s => s
  | fuel + 1, s =>
    Option.elim s.head? [] (fun c =>
      if wsChar c then
        let r := s.dropWhile wsChar
        Option.elim r.head? (c :: punctSpaceFixF fuel s.tail) (fun p =>
          if isPunct p then p :: punctSpaceFixF fuel r.tail
          else c :: punctSpaceFixF fuel s.tail)
      else c :: punctSpaceFixF fuel s.tail)

def punctSpaceFix (s : List Char) : List Char := punctSpaceFixF s.length s

/-- normalise_line (02_parse_usfm.py lines 109-158): the twelve cleanup
steps in source order. -/
def normalise_line (line : List Char) : List Char :=
  let l1 := replaceAll (str " ") (str " ") line
  let l2 := replaceAll (str "\\add*") ADD_CLOSE l1
  let l3 := replaceAll (str "\\add ") ADD_OPEN l2
  let l4 := replaceAll (str "\\sc*") SC_CLOSE l3
  let l5 := replaceAll (str "\\sc ") SC_OPEN l4
  let l6 := replaceAll (str "\\sup*") SUP_CLOSE l5
  let l7 := replaceAll (str "\\sup ") SUP_OPEN l6
  let l8 := pipeAttrSub l7
  let l9 := starSub l8
  let l10 := usfmMarkSub l9
  let l11 := replaceAll (str "|") (str " ") l10
  let l12 := pyStrip (wsCollapse l11)
  let l13 := aposFix l12
  let l14 := quoteOpenFix l13
  let l15 := quoteCloseFix l14
  let l16 := aposPunctFix l15
  punctSpaceFix l16

/-- Python str.split(): split on whitespace runs, dropping empty pieces. -/
def splitWsF : Nat → List Char → List (List Char)
  | 0, _ => []
  | fuel + 1, s =>
    let s1 := s.dropWhile wsChar
    Option.elim s1.head? [] (fun _ =>
      s1.takeWhile (fun c => ! wsChar c) :: splitWsF fuel (s1.dropWhile (fun c => ! wsChar c)))

def splitWs (s : List Char) : List (List Char) := splitWsF s.length s

/-- One ASCII lowercase letter, as in the `[a-z]` class of V_RE. -/
def isLowerAZ (c : Char) : Bool := 'a' ≤ c ∧ c ≤ 'z'

/-- C_RE match `^\c\s+(\d+)\s*$`: the chapter number. -/
def cMatch (s : List Char) : Option Nat :=
  if (str "\\c").isPrefixOf s then
    let r := s.drop 2
    let w := r.takeWhile wsChar
    let r1 := r.dropWhile wsChar
    let d := r1.takeWhile Char.isDigit
    let r2 := r1.dropWhile Char.isDigit
    if w ≠ [] ∧ d ≠ [] ∧ r2.dropWhile wsChar = [] then some (digitsVal d) else none
  else none

/-- V_RE match `^\v\s+(\d+)([a-z]?)\s+(.*)$`: verse digits, optional one
lowercase suffix letter, and the trailing text. -/
def vMatch (s : List Char) : Option (List Char × List Char × List Char) :=
  if (str "\\v").isPrefixOf s then
    let r := s.drop 2
    let w := r.takeWhile wsChar
    let r1 := r.dropWhile wsChar
    let d := r1.takeWhile Char.isDigit
    let r2 := r1.dropWhile Char.isDigit
    let hasSuf := Option.elim r2.head? false isLowerAZ
    let suf := if hasSuf then r2.take 1 else []
    let r3 := if hasSuf then r2.tail else r2
    if w ≠ [] ∧ d ≠ [] ∧ r3.takeWhile wsChar ≠ [] then
      some (d, suf, r3.dropWhile wsChar)
    else none
  else none

/-- Q_RE match `^\q(\d*)\s+(.*)$`: the digit group and the trailing text. -/
def qMatch (s : List Char) : Option (List Char × List Char) :=
  if (str "\\q").isPrefixOf s then
    let r := s.drop 2
    let d := r.takeWhile Char.isDigit
    let r1 := r.dropWhile Char.isDigit
    if r1.takeWhile wsChar ≠ [] then some (d, r1.dropWhile wsChar) else none
  else none

/-- M_RE match `^\m\s+(.*)$`. -/
def mMatch (s : List Char) : Option (List Char) :=
  if (str "\\m").isPrefixOf s then
    let r := s.drop 2
    if r.takeWhile wsChar ≠ [] then some (r.dropWhile wsChar) else none
  else none

/-- P_RE match `^\p\s+(.*)$`. -/
def pMatch (s : List Char) : Option (List Char) :=
  if (str "\\p").isPrefixOf s then
    let r := s.drop 2
    if r.takeWhile wsChar ≠ [] then some (r.dropWhile wsChar) else none
  else none

/-- encode_chunk: wrap a chunk in the structural markers. -/
def encode_chunk (kind : List Char) (indent : Nat) (text : List Char) : List Char :=
  if kind = str "q" then
    structDelim :: (str "Q:" ++ natToDecimal indent ++ structDelim :: text)
  else structDelim :: ('P' :: structDelim :: text)

/-- Insertion-ordered dict update, as Python `verses[key] = text`. -/
def upsert (k v : List Char) : List (List Char × List Char) → List (List Char × List Char)
  | [] => [(k, v)]
  | (k0, v0) :: rest => if k0 = k then (k, v) :: rest else (k0, v0) :: upsert k v rest

def verseLookup (k : List Char) : List (List Char × List Char) → Option (List Char)
  | [] => none
  | (k0, v0) :: rest => if k0 = k then some v0 else verseLookup k rest

/-- The mutable state of parse_usfm_file's line loop. -/
structure PState where
  book : Option (List Char)
  chapter : Option Nat
  verses : List (List Char × List Char)
  current_v : Option (List Char)
  chunks : List (List Char)
  after_d : Bool
  after_p : Bool
deriving DecidableEq

/-- flush_current: store the joined chunks under the current verse key (if
any) and clear the chunk buffer. -/
def flush_current (st : PState) : PState :=
  Option.elim st.current_v
    ⟨st.book, st.chapter, st.verses, st.current_v, [], st.after_d, st.after_p⟩
    (fun v =>
      ⟨st.book, st.chapter, upsert v (pyStrip (joinSpace st.chunks)) st.verses,
        st.current_v, [], st.after_d, st.after_p⟩)

/-- Continuation-line handling (the final block of the loop): poetry lines,
flush-left poetry, prose paragraph markers, and default prose continuation. -/
def contLine (st : PState) (s : List Char) : PState :=
  if st.current_v ≠ none ∧ s ≠ [] then
    Option.elim (qMatch s)
      (Option.elim (mMatch s)
        (Option.elim (pMatch s)
          (let t := normalise_line (extract_usfm_footnotes s)
           if t = [] then st
           else ⟨st.book, st.chapter, st.verses, st.current_v,
             st.chunks ++ [encode_chunk (str "p") 0 t], st.after_d, st.after_p⟩)
          (fun txt =>
            let t := normalise_line (extract_usfm_footnotes (STYLE_PARA ++ txt))
            if t = [] then st
            else ⟨st.book, st.chapter, st.verses, st.current_v,
              st.chunks ++ [encode_chunk (str "p") 0 t], st.after_d, st.after_p⟩))
        (fun txt =>
          let t := normalise_line (extract_usfm_footnotes txt)
          if t = [] then st
          else ⟨st.book, st.chapter, st.verses, st.current_v,
            st.chunks ++ [encode_chunk (str "q") 1 t], st.after_d, st.after_p⟩))
      (fun dt =>
        let level := if dt.1 = [] then 1 else digitsVal dt.1
        let t := normalise_line (extract_usfm_footnotes dt.2)
        if t = [] then st
        else ⟨st.book, st.chapter, st.verses, st.current_v,
          st.chunks ++ [encode_chunk (str "q") level t], st.after_d, st.after_p⟩)
  else st

/-- One iteration of parse_usfm_file's loop over the input lines. -/
def processLine (st : PState) (line : List Char) : PState :=
  if (str "\\id ").isPrefixOf line then
    let parts := splitWs (pyStrip line)
    if 2 ≤ parts.length then
      ⟨some ((parts.getD 1 []).map Char.toUpper), st.chapter, st.verses, st.current_v,
        st.chunks, st.after_d, st.after_p⟩
    else st
  else
    let s := pyStrip line
    if s = str "\\d" ∨ (str "\\d ").isPrefixOf s then
      ⟨st.book, st.chapter, st.verses, st.current_v, st.chunks, true, st.after_p⟩
    else if s = str "\\p" ∨ s = str "\\p " then
      ⟨st.book, st.chapter, st.verses, st.current_v, st.chunks, st.after_d, true⟩
    else
      Option.elim (cMatch s)
        (Option.elim (vMatch s) (contLine st s) (fun dst =>
          Option.elim st.chapter (contLine st s) (fun ch =>
            let st1 := flush_current st
            let vkey := natToDecimal ch ++ ':' ::
              (natToDecimal (digitsVal dst.1) ++ (dst.2.1.map Char.toLower))
            let t0 := normalise_line (extract_usfm_footnotes dst.2.2)
            let ta := if st.after_d then STYLE_HDG ++ t0 else t0
            let tb := if st.after_p then STYLE_PARA ++ ta else ta
            let chunks2 :=
              if t0 = [] then st1.chunks
              else st1.chunks ++ [encode_chunk (str "p") 0 tb]
            ⟨st1.book, st1.chapter, st1.verses, some vkey, chunks2, false, false⟩)))
        (fun ch =>
          let st1 := flush_current st
          ⟨st1.book, some ch, st1.verses, none, st1.chunks, st1.after_d, st1.after_p⟩)

/-- parse_usfm_file on a list of input lines: fold the loop body, flush, and
return the book id and the verse dict. -/
def parse_usfm_lines (lines : List (List Char)) :
    Option (List Char) × List (List Char × List Char) :=
  let final := flush_current (lines.foldl processLine ⟨none, none, [], none, [], false, false⟩)
  (final.book, final.verses)

/-- C2 counterexample: with both flags pending, the paragraph tag PRECEDES
the heading tag in the emitted verse text (the code prepends STYLE_HDG
first, then prepends STYLE_PARA in front of it), so the claimed order
"heading tag precedes paragraph tag" is false. -/
theorem C2_counterexample :
    (parse_usfm_lines [str "\\c 1", str "\\d", str "\\p", str "\\v 1 Hello"]).2 =
      [(str "1:1", str "␞P␞␞STYLE:PARA␞␞STYLE:HDG␞Hello")]
    ∧ hasSub (STYLE_HDG ++ STYLE_PARA) (str "␞P␞␞STYLE:PARA␞␞STYLE:HDG␞Hello") = false := by
  decide

/-- C2 (amended: with the tag order reversed): when both pending flags are
set and a verse with non-empty normalised text arrives, both style tags are
applied to the verse's first chunk with the PARAGRAPH tag preceding the
heading tag, both flags are cleared, and a following verse is emitted with
no style tag (the flags are strictly single-use). -/
theorem C2_both_flags_tag_order (b : Option (List Char)) (c : Nat)
    (vs : List (List Char × List Char)) :
    processLine ⟨b, some c, vs, none, [], true, true⟩ (str "\\v 1 Hello") =
      ⟨b, some c, vs, some (natToDecimal c ++ str ":1"),
        [structDelim :: 'P' :: structDelim :: (STYLE_PARA ++ STYLE_HDG ++ str "Hello")],
        false, false⟩
    ∧ processLine ⟨b, some c, vs, some (natToDecimal c ++ str ":1"),
        [structDelim :: 'P' :: structDelim :: (STYLE_PARA ++ STYLE_HDG ++ str "Hello")],
        false, false⟩ (str "\\v 2 World") =
      ⟨b, some c, upsert (natToDecimal c ++ str ":1")
          (structDelim :: 'P' :: structDelim :: (STYLE_PARA ++ STYLE_HDG ++ str "Hello")) vs,
        some (natToDecimal c ++ str ":2"),
        [structDelim :: 'P' :: structDelim :: str "World"], false, false⟩ :=
  ⟨rfl, rfl⟩

/-- C2 witness: the amended theorem instantiated at a concrete state. -/
theorem C2_witness :
    processLine ⟨none, some 1, [], none, [], true, true⟩ (str "\\v 1 Hello") =
      ⟨none, some 1, [], some (natToDecimal 1 ++ str ":1"),
        [structDelim :: 'P' :: structDelim :: (STYLE_PARA ++ STYLE_HDG ++ str "Hello")],
        false, false⟩ :=
  (C2_both_flags_tag_order none 1 []).1

/-- C9: a verse whose trailing text normalises to the empty string still
consumes both pending flags — they are cleared, no chunk and hence no style
tag is emitted for that verse, and the styling is not deferred: in the
five-line document the empty verse 1:1 is stored as "" and verse 1:2 is
emitted untagged. -/
theorem C9_flags_consumed_on_empty (b : Option (List Char)) (c : Nat)
    (vs : List (List Char × List Char)) :
    processLine ⟨b, some c, vs, none, [], true, true⟩ (str "\\v 1 *") =
      ⟨b, some c, vs, some (natToDecimal c ++ str ":1"), [], false, false⟩
    ∧ (parse_usfm_lines [str "\\c 1", str "\\d", str "\\p", str "\\v 1 *",
        str "\\v 2 World"]).2 =
      [(str "1:1", []), (str "1:2", structDelim :: 'P' :: structDelim :: str "World")] :=
  ⟨rfl, by decide⟩

/-- C9 witness: the theorem instantiated at a concrete state. -/
theorem C9_witness :
    processLine ⟨none, some 1, [], none, [], true, true⟩ (str "\\v 1 *") =
      ⟨none, some 1, [], some (natToDecimal 1 ++ str ":1"), [], false, false⟩ :=
  (C9_flags_consumed_on_empty none 1 []).1

/-- The non-breaking space character. -/
def nbspC : Char := Char.ofNat 160

def isSp (c : Char) : Bool := c = ' '

def isLsqLdq (c : Char) : Bool := c = lsqC ∨ c = ldqC

def isAposC (c : Char) : Bool := c = aposC

/-- Character classes allowed in a normalised fragment: no tab, newline,
carriage return, non-breaking space, backslash, pipe or star. -/
def chOk (c : Char) : Bool :=
  !(c = '\t' ∨ c = '\n' ∨ c = '\r' ∨ c = nbspC ∨ c = '\\' ∨ c = '|' ∨ c = '*')

/-- The first chars of s match the given class predicates in order. -/
def matchesPrefix : List (Char → Bool) → List Char → Bool
  | [], _ => true
  | _ :: _, [] => false
  | p :: ps, c :: t => p c && matchesPrefix ps t

/-- No position of s starts a window matching the classes. -/
def noWin (ps : List (Char → Bool)) : List Char → Bool
  | [] => true
  | c :: t => !(matchesPrefix ps (c :: t)) && noWin ps t

/-- As noWin, with a class constraint on the character before the window
(d is the verdict when the window starts the string). -/
def noWinP (d : Bool) (p0 : Char → Bool) (ps : List (Char → Bool)) :
    Option Char → List Char → Bool
  | _, [] => true
  | prev, c :: t =>
    !(Option.elim prev d p0 && matchesPrefix ps (c :: t)) && noWinP d p0 ps (some c) t

def allCh (y : List Char) : Bool := y.all chOk

def noDS (y : List Char) : Bool := noWin [isSp, isSp] y

def noSpacePunct (y : List Char) : Bool := noWin [isSp, isPunct] y

def F1ok (prev : Option Char) (y : List Char) : Bool :=
  noWinP false isWordChar [isSp, isQuote1, isWordChar] prev y

def F2ok (prev : Option Char) (y : List Char) : Bool :=
  noWinP false isWordChar [isSp, isQuote1, isSp, isWordChar] prev y

def F3ok (prev : Option Char) (y : List Char) : Bool :=
  noWinP false isWordChar [isQuote1, isSp, isWordChar] prev y

def G6ok (y : List Char) : Bool := noWin [isLsqLdq, isSp, isWordChar] y

def G7ok (prev : Option Char) (y : List Char) : Bool :=
  noWinP true (fun c => ! isPunct c) [isAposC, isSp, isWordChar] prev y

def G8ok (y : List Char) : Bool := noWin [isCloseDQ, isWordChar] y

def G9ok (y : List Char) : Bool := noWin [isPunct, isQuote1, isWordChar] y

def noOpenWsW (y : List Char) : Bool := noWin [isOpenQ, isSp, isWordChar] y

def noAposWsW (y : List Char) : Bool := noWin [isAposC, isSp, isWordChar] y

def edgesOk (y : List Char) : Bool :=
  !(y.head? == some ' ') && !(y.getLast? == some ' ')

theorem word_not_punct (c : Char) (h : isWordChar c = true) : isPunct c = false := by
  cases hp : isPunct c with
  | false => rfl
  | true =>
    exfalso
    simp only [isPunct, decide_eq_true_eq] at hp
    rcases hp with rfl | rfl | rfl | rfl | rfl | rfl <;> exact absurd h (by decide)

theorem word_not_ws (c : Char) (h : isWordChar c = true) : wsChar c = false := by
  cases hp : wsChar c with
  | false => rfl
  | true =>
    exfalso
    simp only [wsChar, decide_eq_true_eq] at hp
    rcases hp with rfl | rfl | rfl | rfl <;> exact absurd h (by decide)

theorem word_not_sp (c : Char) (h : isWordChar c = true) : isSp c = false := by
  cases hp : isSp c with
  | false => rfl
  | true =>
    exfalso
    simp only [isSp, decide_eq_true_eq] at hp
    subst hp
    exact absurd h (by decide)

theorem word_not_q1 (c : Char) (h : isWordChar c = true) : isQuote1 c = false := by
  cases hp : isQuote1 c with
  | false => rfl
  | true =>
    exfalso
    simp only [isQuote1, decide_eq_true_eq] at hp
    rcases hp with rfl | rfl <;> exact absurd h (by decide)

theorem word_not_closeDQ (c : Char) (h : isWordChar c = true) : isCloseDQ c = false := by
  cases hp : isCloseDQ c with
  | false => rfl
  | true =>
    exfalso
    simp only [isCloseDQ, decide_eq_true_eq] at hp
    rcases hp with rfl | rfl <;> exact absurd h (by decide)

theorem word_not_openQ (c : Char) (h : isWordChar c = true) : isOpenQ c = false := by
  cases hp : isOpenQ c with
  | false => rfl
  | true =>
    exfalso
    simp only [isOpenQ, decide_eq_true_eq] at hp
    rcases hp with rfl | rfl | rfl | rfl <;> exact absurd h (by decide)

theorem punct_not_openQ (c : Char) (h : isPunct c = true) : isOpenQ c = false := by
  cases hp : isOpenQ c with
  | false => rfl
  | true =>
    exfalso
    simp only [isOpenQ, decide_eq_true_eq] at hp
    rcases hp with rfl | rfl | rfl | rfl <;> exact absurd h (by decide)

theorem punct_not_closeDQ (c : Char) (h : isPunct c = true) : isCloseDQ c = false := by
  cases hp : isCloseDQ c with
  | false => rfl
  | true =>
    exfalso
    simp only [isCloseDQ, decide_eq_true_eq] at hp
    rcases hp with rfl | rfl <;> exact absurd h (by decide)

theorem punct_not_ws (c : Char) (h : isPunct c = true) : wsChar c = false := by
  cases hp : wsChar c with
  | false => rfl
  | true =>
    exfalso
    simp only [wsChar, decide_eq_true_eq] at hp
    rcases hp with rfl | rfl | rfl | rfl <;> exact absurd h (by decide)

theorem punct_not_q1 (c : Char) (h : isPunct c = true) : isQuote1 c = false := by
  cases hp : isQuote1 c with
  | false => rfl
  | true =>
    exfalso
    simp only [isQuote1, decide_eq_true_eq] at hp
    rcases hp with rfl | rfl <;> exact absurd h (by decide)

theorem q1_not_ws (c : Char) (h : isQuote1 c = true) : wsChar c = false := by
  simp only [isQuote1, decide_eq_true_eq] at h
  rcases h with rfl | rfl <;> decide

theorem q1_not_closeDQ (c : Char) (h : isQuote1 c = true) : isCloseDQ c = false := by
  simp only [isQuote1, decide_eq_true_eq] at h
  rcases h with rfl | rfl <;> decide

theorem openQ_cases (c : Char) (h : isOpenQ c = true) :
    c = lsqC ∨ c = ldqC ∨ c = aposC ∨ c = '"' := by
  simpa only [isOpenQ, decide_eq_true_eq] using h

theorem q1_cases (c : Char) (h : isQuote1 c = true) : c = rsqC ∨ c = aposC := by
  simpa only [isQuote1, decide_eq_true_eq] using h

theorem sp_chOk (c : Char) (h : chOk c = true) (hw : wsChar c = true) : c = ' ' := by
  simp only [wsChar, decide_eq_true_eq] at hw
  rcases hw with rfl | rfl | rfl | rfl
  · rfl
  all_goals exact absurd h (by decide)

theorem aposFixF_succ (fuel : Nat) (prev : Option Char) (s : List Char) :
    aposFixF (fuel + 1) prev s =
      Option.elim s.head? [] (fun c =>
        if Option.elim prev false isWordChar then
          let r1 := s.dropWhile wsChar
          Option.elim r1.head? (c :: aposFixF fuel (some c) s.tail) (fun q =>
            if isQuote1 q then
              let w2 := r1.tail.takeWhile wsChar
              let r3 := r1.tail.dropWhile wsChar
              if Option.elim r3.head? false isWordChar then
                q :: aposFixF fuel (some (Option.elim w2.getLast? q (fun d => d))) r3
              else c :: aposFixF fuel (some c) s.tail
            else c :: aposFixF fuel (some c) s.tail)
        else c :: aposFixF fuel (some c) s.tail) := rfl

theorem quoteOpenFixF_succ (fuel : Nat) (s : List Char) :
    quoteOpenFixF (fuel + 1) s =
      Option.elim s.head? [] (fun c =>
        if isOpenQ c ∧ s.tail.takeWhile wsChar ≠ [] then
          let r := s.tail.dropWhile wsChar
          Option.elim r.head? (c :: quoteOpenFixF fuel s.tail) (fun w =>
            if isWordChar w then c :: w :: quoteOpenFixF fuel r.tail
            else c :: quoteOpenFixF fuel s.tail)
        else c :: quoteOpenFixF fuel s.tail) := rfl

theorem quoteCloseFixF_succ (fuel : Nat) (s : List Char) :
    quoteCloseFixF (fuel + 1) s =
      Option.elim s.head? [] (fun c =>
        if isCloseDQ c then
          Option.elim s.tail.head? (c :: quoteCloseFixF fuel s.tail) (fun w =>
            if isWordChar w then c :: ' ' :: w :: quoteCloseFixF fuel s.tail.tail
            else c :: quoteCloseFixF fuel s.tail)
        else c :: quoteCloseFixF fuel s.tail) := rfl

theorem aposPunctFixF_succ (fuel : Nat) (s : List Char) :
    aposPunctFixF (fuel + 1) s =
      Option.elim s.head? [] (fun c =>
        if isPunct c then
          Option.elim s.tail.head? (c :: aposPunctFixF fuel s.tail) (fun q =>
            if isQuote1 q then
              Option.elim s.tail.tail.head? (c :: aposPunctFixF fuel s.tail) (fun w =>
                if isWordChar w then
                  c :: q :: ' ' :: w :: aposPunctFixF fuel s.tail.tail.tail
                else c :: aposPunctFixF fuel s.tail)
            else c :: aposPunctFixF fuel s.tail)
        else c :: aposPunctFixF fuel s.tail) := rfl

theorem punctSpaceFixF_succ (fuel : Nat) (s : List Char) :
    punctSpaceFixF (fuel + 1) s =
      Option.elim s.head? [] (fun c =>
        if wsChar c then
          let r := s.dropWhile wsChar
          Option.elim r.head? (c :: punctSpaceFixF fuel s.tail) (fun p =>
            if isPunct p then p :: punctSpaceFixF fuel r.tail
            else c :: punctSpaceFixF fuel s.tail)
        else c :: punctSpaceFixF fuel s.tail) := rfl

theorem quoteOpenFixF_irrel :
    ∀ (n : Nat) (s : List Char) (f1 f2 : Nat), s.length ≤ n → s.length ≤ f1 →
      s.length ≤ f2 → quoteOpenFixF f1 s = quoteOpenFixF f2 s := by
  intro n
  induction n with
  | zero =>
    intro s f1 f2 h1 _ _
    have hs : s = [] := List.eq_nil_of_length_eq_zero (by omega)
    subst hs
    cases f1 <;> cases f2 <;> rfl
  | succ n ih =>
    intro s f1 f2 h1 hf1 hf2
    cases s with
    | nil => cases f1 <;> cases f2 <;> rfl
    | cons c cs =>
      simp only [List.length_cons] at h1 hf1 hf2
      match f1, f2, hf1, hf2 with
      | a + 1, b + 1, _, _ =>
        rw [quoteOpenFixF_succ, quoteOpenFixF_succ]
        simp only [List.head?_cons, Option.elim, List.tail_cons]
        have hstep : quoteOpenFixF a cs = quoteOpenFixF b cs :=
          ih cs a b (by omega) (by omega) (by omega)
        by_cases hcond : (isOpenQ c = true ∧ cs.takeWhile wsChar ≠ [])
        · rw [if_pos hcond, if_pos hcond]
          have hdw : (cs.dropWhile wsChar).length ≤ cs.length :=
            (List.dropWhile_sublist _).length_le
          cases hr : (cs.dropWhile wsChar).head? with
          | none => simp only [Option.elim, hstep]
          | some w =>
            simp only [Option.elim]
            have hne : cs.dropWhile wsChar ≠ [] := by
              intro he
              rw [he] at hr
              exact Option.noConfusion hr
            have htl : (cs.dropWhile wsChar).tail.length ≤ cs.length - 1 := by
              have := List.length_tail (cs.dropWhile wsChar)
              have hpos : 0 < (cs.dropWhile wsChar).length :=
                List.length_pos.mpr hne
              omega
            by_cases hw : isWordChar w = true
            · rw [if_pos hw, if_pos hw,
                ih (cs.dropWhile wsChar).tail a b (by omega) (by omega) (by omega)]
            · rw [if_neg hw, if_neg hw, hstep]
        · rw [if_neg hcond, if_neg hcond, hstep]

theorem quoteCloseFixF_irrel :
    ∀ (n : Nat) (s : List Char) (f1 f2 : Nat), s.length ≤ n → s.length ≤ f1 →
      s.length ≤ f2 → quoteCloseFixF f1 s = quoteCloseFixF f2 s := by
  intro n
  induction n with
  | zero =>
    intro s f1 f2 h1 _ _
    have hs : s = [] := List.eq_nil_of_length_eq_zero (by omega)
    subst hs
    cases f1 <;> cases f2 <;> rfl
  | succ n ih =>
    intro s f1 f2 h1 hf1 hf2
    cases s with
    | nil => cases f1 <;> cases f2 <;> rfl
    | cons c cs =>
      simp only [List.length_cons] at h1 hf1 hf2
      match f1, f2, hf1, hf2 with
      | a + 1, b + 1, _, _ =>
        rw [quoteCloseFixF_succ, quoteCloseFixF_succ]
        simp only [List.head?_cons, Option.elim, List.tail_cons]
        have hstep : quoteCloseFixF a cs = quoteCloseFixF b cs :=
          ih cs a b (by omega) (by omega) (by omega)
        by_cases hcond : isCloseDQ c = true
        · rw [if_pos hcond, if_pos hcond]
          cases hr : cs.head? with
          | none => simp only [Option.elim, hstep]
          | some w =>
            simp only [Option.elim]
            by_cases hw : isWordChar w = true
            · have htl : cs.tail.length ≤ cs.length - 1 := by
                have := List.length_tail cs
                omega
              rw [if_pos hw, if_pos hw, ih cs.tail a b (by omega) (by omega) (by omega)]
            · rw [if_neg hw, if_neg hw, hstep]
        · rw [if_neg hcond, if_neg hcond, hstep]

theorem aposPunctFixF_irrel :
    ∀ (n : Nat) (s : List Char) (f1 f2 : Nat), s.length ≤ n → s.length ≤ f1 →
      s.length ≤ f2 → aposPunctFixF f1 s = aposPunctFixF f2 s := by
  intro n
  induction n with
  | zero =>
    intro s f1 f2 h1 _ _
    have hs : s = [] := List.eq_nil_of_length_eq_zero (by omega)
    subst hs
    cases f1 <;> cases f2 <;> rfl
  | succ n ih =>
    intro s f1 f2 h1 hf1 hf2
    cases s with
    | nil => cases f1 <;> cases f2 <;> rfl
    | cons c cs =>
      simp only [List.length_cons] at h1 hf1 hf2
      match f1, f2, hf1, hf2 with
      | a + 1, b + 1, _, _ =>
        rw [aposPunctFixF_succ, aposPunctFixF_succ]
        simp only [List.head?_cons, Option.elim, List.tail_cons]
        have hstep : aposPunctFixF a cs = aposPunctFixF b cs :=
          ih cs a b (by omega) (by omega) (by omega)
        by_cases hcond : isPunct c = true
        · rw [if_pos hcond, if_pos hcond]
          cases hr : cs.head? with
          | none => simp only [Option.elim, hstep]
          | some q =>
            simp only [Option.elim]
            by_cases hq : isQuote1 q = true
            · rw [if_pos hq, if_pos hq]
              cases hr2 : cs.tail.head? with
              | none => simp only [Option.elim, hstep]
              | some w =>
                simp only [Option.elim]
                by_cases hw : isWordChar w = true
                · have htl : cs.tail.tail.length ≤ cs.length - 2 := by
                    have h2 := List.length_tail cs
                    have h3 := List.length_tail cs.tail
                    omega
                  rw [if_pos hw, if_pos hw,
                    ih cs.tail.tail a b (by omega) (by omega) (by omega)]
                · rw [if_neg hw, if_neg hw, hstep]
            · rw [if_neg hq, if_neg hq, hstep]
        · rw [if_neg hcond, if_neg hcond, hstep]

/-- aposFix with an explicit carried previous-character. -/
def aposFixP (prev : Option Char) (s : List Char) : List Char := aposFixF s.length prev s

theorem aposFix_eq_P (s : List Char) : aposFix s = aposFixP none s := rfl

theorem quoteOpenFix_nofire (c : Char) (t : List Char)
    (hn : ¬(isOpenQ c = true ∧ t.takeWhile wsChar ≠ [] ∧
      Option.elim (t.dropWhile wsChar).head? false isWordChar = true)) :
    quoteOpenFix (c :: t) = c :: quoteOpenFix t := by
  show quoteOpenFixF (t.length + 1) (c :: t) = c :: quoteOpenFixF t.length t
  rw [quoteOpenFixF_succ]
  simp only [List.head?_cons, Option.elim, List.tail_cons]
  by_cases h1 : (isOpenQ c = true ∧ t.takeWhile wsChar ≠ [])
  · rw [if_pos h1]
    cases hr : (t.dropWhile wsChar).head? with
    | none => simp only [Option.elim]
    | some w =>
      simp only [Option.elim]
      rw [if_neg]
      intro hw
      exact hn ⟨h1.1, h1.2, by rw [hr]; exact hw⟩
  · rw [if_neg h1]

theorem quoteOpenFix_fire (c w : Char) (t2 : List Char) (ho : isOpenQ c = true)
    (hw : isWordChar w = true) :
    quoteOpenFix (c :: ' ' :: w :: t2) = c :: w :: quoteOpenFix t2 := by
  show quoteOpenFixF (t2.length + 3) (c :: ' ' :: w :: t2) = c :: w :: quoteOpenFix t2
  rw [quoteOpenFixF_succ]
  simp only [List.head?_cons, Option.elim, List.tail_cons]
  rw [if_pos]
  · have hdw : (' ' :: w :: t2).dropWhile wsChar = w :: t2 := by
      rw [List.dropWhile_cons, if_pos (by decide), List.dropWhile_cons,
        if_neg (by simp [word_not_ws w hw])]
    rw [hdw]
    simp only [List.head?_cons, Option.elim, List.tail_cons]
    rw [if_pos hw]
    rw [quoteOpenFixF_irrel t2.length t2 (t2.length + 2) t2.length (Nat.le_refl _)
    (by omega) (Nat.le_refl _)]
    rfl
  · constructor
    · exact ho
    · rw [List.takeWhile_cons, if_pos (by decide)]
      simp

theorem quoteCloseFix_nofire (c : Char) (t : List Char)
    (hn : ¬(isCloseDQ c = true ∧ Option.elim t.head? false isWordChar = true)) :
    quoteCloseFix (c :: t) = c :: quoteCloseFix t := by
  show quoteCloseFixF (t.length + 1) (c :: t) = c :: quoteCloseFixF t.length t
  rw [quoteCloseFixF_succ]
  simp only [List.head?_cons, Option.elim, List.tail_cons]
  by_cases h1 : isCloseDQ c = true
  · rw [if_pos h1]
    cases hr : t.head? with
    | none => simp only [Option.elim]
    | some w =>
      simp only [Option.elim]
      rw [if_neg]
      intro hw
      exact hn ⟨h1, by rw [hr]; exact hw⟩
  · rw [if_neg h1]

theorem quoteCloseFix_fire (c w : Char) (z : List Char) (hc : isCloseDQ c = true)
    (hw : isWordChar w = true) :
    quoteCloseFix (c :: w :: z) = c :: ' ' :: w :: quoteCloseFix z := by
  show quoteCloseFixF (z.length + 2) (c :: w :: z) = c :: ' ' :: w :: quoteCloseFix z
  rw [quoteCloseFixF_succ]
  simp only [List.head?_cons, Option.elim, List.tail_cons]
  rw [if_pos hc, if_pos hw]
  rw [quoteCloseFixF_irrel z.length z (z.length + 1) z.length (Nat.le_refl _)
    (by omega) (Nat.le_refl _)]
  rfl

theorem aposPunctFix_nofire (c : Char) (t : List Char)
    (hn : ¬(isPunct c = true ∧ Option.elim t.head? false isQuote1 = true ∧
      Option.elim t.tail.head? false isWordChar = true)) :
    aposPunctFix (c :: t) = c :: aposPunctFix t := by
  show aposPunctFixF (t.length + 1) (c :: t) = c :: aposPunctFixF t.length t
  rw [aposPunctFixF_succ]
  simp only [List.head?_cons, Option.elim, List.tail_cons]
  by_cases h1 : isPunct c = true
  · rw [if_pos h1]
    cases hr : t.head? with
    | none => simp only [Option.elim]
    | some q =>
      simp only [Option.elim]
      by_cases hq : isQuote1 q = true
      · rw [if_pos hq]
        cases hr2 : t.tail.head? with
        | none => simp only [Option.elim]
        | some w =>
          simp only [Option.elim]
          rw [if_neg]
          intro hw
          exact hn ⟨h1, by rw [hr]; exact hq, by rw [hr2]; exact hw⟩
      · rw [if_neg hq]
  · rw [if_neg h1]

theorem aposPunctFix_fire (c q w : Char) (z : List Char) (hc : isPunct c = true)
    (hq : isQuote1 q = true) (hw : isWordChar w = true) :
    aposPunctFix (c :: q :: w :: z) = c :: q :: ' ' :: w :: aposPunctFix z := by
  show aposPunctFixF (z.length + 3) (c :: q :: w :: z) = c :: q :: ' ' :: w :: aposPunctFix z
  rw [aposPunctFixF_succ]
  simp only [List.head?_cons, Option.elim, List.tail_cons]
  rw [if_pos hc, if_pos hq, if_pos hw]
  rw [aposPunctFixF_irrel z.length z (z.length + 2) z.length (Nat.le_refl _)
    (by omega) (Nat.le_refl _)]
  rfl

theorem punctSpaceFix_nofire (c : Char) (t : List Char)
    (hn : ¬(wsChar c = true ∧ Option.elim (t.dropWhile wsChar).head? false isPunct = true)) :
    punctSpaceFix (c :: t) = c :: punctSpaceFix t := by
  show punctSpaceFixF (t.length + 1) (c :: t) = c :: punctSpaceFixF t.length t
  rw [punctSpaceFixF_succ]
  simp only [List.head?_cons, Option.elim, List.tail_cons]
  by_cases h1 : wsChar c = true
  · rw [if_pos h1]
    have hdw : (c :: t).dropWhile wsChar = t.dropWhile wsChar := by
      rw [List.dropWhile_cons, if_pos h1]
    rw [hdw]
    cases hr : (t.dropWhile wsChar).head? with
    | none => simp only [Option.elim]
    | some p =>
      simp only [Option.elim]
      rw [if_neg]
      intro hp
      exact hn ⟨h1, by rw [hr]; exact hp⟩
  · rw [if_neg h1]

theorem aposFixP_step_nonword (prev : Option Char) (c : Char) (t : List Char)
    (hp : Option.elim prev false isWordChar = false) :
    aposFixP prev (c :: t) = c :: aposFixP (some c) t := by
  show aposFixF (t.length + 1) prev (c :: t) = c :: aposFixF t.length (some c) t
  rw [aposFixF_succ]
  cases prev with
  | none => simp
  | some p =>
    have hp2 : isWordChar p = false := by simpa using hp
    simp [hp2]

theorem aposFixP_step_notq1 (prev : Option Char) (c : Char) (t : List Char)
    (hc : wsChar c = false) (hq : isQuote1 c = false) :
    aposFixP prev (c :: t) = c :: aposFixP (some c) t := by
  show aposFixF (t.length + 1) prev (c :: t) = c :: aposFixF t.length (some c) t
  rw [aposFixF_succ]
  have hdw : (c :: t).dropWhile wsChar = c :: t := by
    rw [List.dropWhile_cons, if_neg (by simp [hc])]
  cases prev with
  | none => simp
  | some p =>
    cases hp : isWordChar p with
    | false => simp [hp]
    | true =>
      simp only [List.head?_cons, Option.elim, List.tail_cons, hp, if_pos, hdw, hq]
      simp

theorem aposFixP_step_q1 (prev : Option Char) (c : Char) (t : List Char)
    (hc : wsChar c = false) (hq : isQuote1 c = true)
    (hnf : t.takeWhile wsChar = [] ∨
      Option.elim (t.dropWhile wsChar).head? false isWordChar = false) :
    aposFixP prev (c :: t) = c :: aposFixP (some c) t := by
  show aposFixF (t.length + 1) prev (c :: t) = c :: aposFixF t.length (some c) t
  rw [aposFixF_succ]
  have hdw : (c :: t).dropWhile wsChar = c :: t := by
    rw [List.dropWhile_cons, if_neg (by simp [hc])]
  cases prev with
  | none => simp
  | some p =>
    cases hp : isWordChar p with
    | false => simp [hp]
    | true =>
      simp only [List.head?_cons, Option.elim, List.tail_cons, hp, if_pos, hdw, hq, if_true]
      rcases hnf with hnf | hnf
      · have hdt : t.dropWhile wsChar = t := by
          cases t with
          | nil => rfl
          | cons d t1 =>
            rw [List.takeWhile_cons] at hnf
            rw [List.dropWhile_cons]
            by_cases hd : wsChar d = true
            · rw [if_pos hd] at hnf
              exact absurd hnf (by simp)
            · rw [if_neg hd]
        rw [hdt]
        cases hr : t.head? with
        | none => simp
        | some w =>
          cases hw : isWordChar w with
          | false => simp [hw]
          | true => simp [hw, hnf]
      · cases hr : (t.dropWhile wsChar).head? with
        | none => simp [hr]
        | some w =>
          rw [hr] at hnf
          simp only [Option.elim] at hnf
          simp [hr, hnf]

theorem aposFixP_step_ws (prev : Option Char) (c : Char) (t : List Char)
    (hc : wsChar c = true)
    (hnf : ¬(Option.elim (t.dropWhile wsChar).head? false isQuote1 = true ∧
      Option.elim ((t.dropWhile wsChar).tail.dropWhile wsChar).head? false
        isWordChar = true)) :
    aposFixP prev (c :: t) = c :: aposFixP (some c) t := by
  show aposFixF (t.length + 1) prev (c :: t) = c :: aposFixF t.length (some c) t
  rw [aposFixF_succ]
  have hdw : (c :: t).dropWhile wsChar = t.dropWhile wsChar := by
    rw [List.dropWhile_cons, if_pos hc]
  cases prev with
  | none => simp
  | some p =>
    cases hp : isWordChar p with
    | false => simp [hp]
    | true =>
      simp only [List.head?_cons, Option.elim, List.tail_cons, hp, if_pos, hdw]
      cases hr : (t.dropWhile wsChar).head? with
      | none => simp
      | some q =>
        cases hq : isQuote1 q with
        | false => simp [hq]
        | true =>
          cases hr2 : ((t.dropWhile wsChar).tail.dropWhile wsChar).head? with
          | none => simp [hq]
          | some w =>
            have hw : isWordChar w = false := by
              cases hwc : isWordChar w with
              | false => rfl
              | true =>
                exact absurd ⟨by rw [hr]; simpa using hq,
                  by rw [hr2]; simpa using hwc⟩ hnf
            simp [hq, hw]

theorem quoteOpenFix_head (s : List Char) : (quoteOpenFix s).head? = s.head? := by
  cases s with
  | nil => rfl
  | cons c t =>
    show (quoteOpenFixF (t.length + 1) (c :: t)).head? = some c
    rw [quoteOpenFixF_succ]
    simp only [List.head?_cons, Option.elim, List.tail_cons]
    by_cases h1 : (isOpenQ c = true ∧ t.takeWhile wsChar ≠ [])
    · rw [if_pos h1]
      cases hr : (t.dropWhile wsChar).head? with
      | none => simp
      | some w =>
        simp only [Option.elim]
        by_cases hw : isWordChar w = true
        · rw [if_pos hw]
          rfl
        · rw [if_neg hw]
          rfl
    · rw [if_neg h1]
      rfl

theorem quoteCloseFix_head (s : List Char) : (quoteCloseFix s).head? = s.head? := by
  cases s with
  | nil => rfl
  | cons c t =>
    show (quoteCloseFixF (t.length + 1) (c :: t)).head? = some c
    rw [quoteCloseFixF_succ]
    simp only [List.head?_cons, Option.elim, List.tail_cons]
    by_cases h1 : isCloseDQ c = true
    · rw [if_pos h1]
      cases hr : t.head? with
      | none => simp
      | some w =>
        simp only [Option.elim]
        by_cases hw : isWordChar w = true
        · rw [if_pos hw]
          rfl
        · rw [if_neg hw]
          rfl
    · rw [if_neg h1]
      rfl

theorem aposPunctFix_head (s : List Char) : (aposPunctFix s).head? = s.head? := by
  cases s with
  | nil => rfl
  | cons c t =>
    show (aposPunctFixF (t.length + 1) (c :: t)).head? = some c
    rw [aposPunctFixF_succ]
    simp only [List.head?_cons, Option.elim, List.tail_cons]
    by_cases h1 : isPunct c = true
    · rw [if_pos h1]
      cases hr : t.head? with
      | none => simp
      | some q =>
        simp only [Option.elim]
        by_cases hq : isQuote1 q = true
        · rw [if_pos hq]
          cases hr2 : t.tail.head? with
          | none => simp
          | some w =>
            simp only [Option.elim]
            by_cases hw : isWordChar w = true
            · rw [if_pos hw]
              rfl
            · rw [if_neg hw]
              rfl
        · rw [if_neg hq]
          rfl
    · rw [if_neg h1]
      rfl

theorem pyStrip_eq_self_of_edges (y : List Char)
    (hh : ∀ c, y.head? = some c → wsChar c = false)
    (hl : ∀ c, y.getLast? = some c → wsChar c = false) : pyStrip y = y := by
  cases y with
  | nil => rfl
  | cons c t =>
    unfold pyStrip trimEnd
    rw [List.dropWhile_cons, if_neg (by simp [hh c rfl])]
    cases hr : (c :: t).reverse with
    | nil => exact absurd hr (by simp)
    | cons d r =>
      have hd : (c :: t).getLast? = some d := by
        rw [← List.head?_reverse, hr]
        rfl
      rw [List.dropWhile_cons, if_neg (by simp [hl d hd])]
      rw [← hr, List.reverse_reverse]

theorem replaceAllF_id (c0 : Char) : ∀ (fuel : Nat) (pat rep s : List Char),
    pat.head? = some c0 → c0 ∉ s → replaceAllF fuel pat rep s = s := by
  intro fuel
  induction fuel with
  | zero => intro pat rep s _ _; rfl
  | succ fuel ih =>
    intro pat rep s hp hc
    cases s with
    | nil => rfl
    | cons c t =>
      show Option.elim (c :: t).head? [] _ = c :: t
      simp only [List.head?_cons, Option.elim, List.tail_cons]
      rw [if_neg]
      · rw [ih pat rep t hp (fun h => hc (List.mem_cons_of_mem _ h))]
      · rintro ⟨hpre, hne⟩
        cases pat with
        | nil => exact absurd hp (by simp)
        | cons d p2 =>
          have hd : d = c0 := by simpa using hp
          have := isPrefixOf_head hpre
          exact hc (by simp [← this, hd])

theorem replaceAll_id (c0 : Char) (pat rep s : List Char) (hp : pat.head? = some c0)
    (hc : c0 ∉ s) : replaceAll pat rep s = s :=
  replaceAllF_id c0 s.length pat rep s hp hc

theorem pipeAttrSubF_id : ∀ (fuel : Nat) (s : List Char),
    '|' ∉ s → pipeAttrSubF fuel s = s := by
  intro fuel
  induction fuel with
  | zero => intro s _; rfl
  | succ fuel ih =>
    intro s hc
    cases s with
    | nil => rfl
    | cons c t =>
      show Option.elim (c :: t).head? [] _ = c :: t
      simp only [List.head?_cons, Option.elim, List.tail_cons]
      rw [if_neg]
      · rw [ih t (fun h => hc (List.mem_cons_of_mem _ h))]
      · rintro ⟨he, _⟩
        exact hc (by simp [he])

theorem starSubF_id : ∀ (fuel : Nat) (s : List Char),
    '*' ∉ s → starSubF fuel s = s := by
  intro fuel
  induction fuel with
  | zero => intro s _; rfl
  | succ fuel ih =>
    intro s hc
    cases s with
    | nil => rfl
    | cons c t =>
      show Option.elim (c :: t).head? [] _ = c :: t
      simp only [List.head?_cons, Option.elim, List.tail_cons]
      rw [if_neg]
      · rw [ih t (fun h => hc (List.mem_cons_of_mem _ h))]
      · intro he
        exact hc (by simp [he])

theorem usfmMarkSubF_id : ∀ (fuel : Nat) (s : List Char),
    '\\' ∉ s → usfmMarkSubF fuel s = s := by
  intro fuel
  induction fuel with
  | zero => intro s _; rfl
  | succ fuel ih =>
    intro s hc
    cases s with
    | nil => rfl
    | cons c t =>
      show Option.elim (c :: t).head? [] _ = c :: t
      simp only [List.head?_cons, Option.elim, List.tail_cons]
      rw [if_neg]
      · rw [ih t (fun h => hc (List.mem_cons_of_mem _ h))]
      · rintro ⟨he, _⟩
        exact hc (by simp [he])

theorem wsCollapseF_id : ∀ (fuel : Nat) (s : List Char),
    (∀ c ∈ s, wsChar c = true → c = ' ') → noDS s = true → wsCollapseF fuel s = s := by
  intro fuel
  induction fuel with
  | zero => intro s _ _; rfl
  | succ fuel ih =>
    intro s hch hds
    cases s with
    | nil => rfl
    | cons c t =>
      show Option.elim (c :: t).head? [] _ = c :: t
      simp only [List.head?_cons, Option.elim, List.tail_cons]
      have hds2 : noDS t = true := by
        have := hds
        simp only [noDS, noWin, Bool.and_eq_true] at this
        exact this.2
      have hih : wsCollapseF fuel t = t :=
        ih t (fun d hd => hch d (List.mem_cons_of_mem _ hd)) hds2
      by_cases hw : wsChar c = true
      · rw [if_pos hw]
        have hcsp : c = ' ' := hch c (by simp) hw
        have hdt : (c :: t).dropWhile wsChar = t.dropWhile wsChar := by
          rw [List.dropWhile_cons, if_pos hw]
        have hdt2 : t.dropWhile wsChar = t := by
          cases t with
          | nil => rfl
          | cons d t1 =>
            rw [List.dropWhile_cons]
            by_cases hd : wsChar d = true
            · exfalso
              have hdsp : d = ' ' := hch d (by simp) hd
              have := hds
              simp only [noDS, noWin, matchesPrefix, Bool.and_eq_true, isSp, hcsp,
                hdsp, Bool.not_eq_true'] at this
              simp at this
            · rw [if_neg hd]
        rw [hdt, hdt2, hih, hcsp]
      · rw [if_neg hw, hih]
theorem matchesPrefix_cons (p : Char → Bool) (ps : List (Char → Bool)) (c : Char)
    (t : List Char) : matchesPrefix (p :: ps) (c :: t) = (p c && matchesPrefix ps t) := rfl

theorem matchesPrefix_one (p : Char → Bool) (t : List Char) :
    matchesPrefix [p] t = Option.elim t.head? false p := by
  cases t <;> simp [matchesPrefix, Option.elim]

theorem matchesPrefix_two (p q : Char → Bool) (t : List Char) :
    matchesPrefix [p, q] t =
      (Option.elim t.head? false p && Option.elim t.tail.head? false q) := by
  cases t with
  | nil => rfl
  | cons c t1 =>
    rw [matchesPrefix_cons, matchesPrefix_one]
    rfl

theorem matchesPrefix_nil (t : List Char) : matchesPrefix [] t = true := rfl

theorem noWin_step (ps : List (Char → Bool)) (c : Char) (t : List Char)
    (h : noWin ps (c :: t) = true) :
    matchesPrefix ps (c :: t) = false ∧ noWin ps t = true := by
  simp only [noWin, Bool.and_eq_true, Bool.not_eq_true'] at h
  exact h

theorem noWinP_step (d : Bool) (p0 : Char → Bool) (ps : List (Char → Bool))
    (prev : Option Char) (c : Char) (t : List Char)
    (h : noWinP d p0 ps prev (c :: t) = true) :
    (Option.elim prev d p0 && matchesPrefix ps (c :: t)) = false ∧
      noWinP d p0 ps (some c) t = true := by
  simp only [noWinP, Bool.and_eq_true, Bool.not_eq_true'] at h
  exact h

theorem allCh_step (c : Char) (t : List Char) (h : allCh (c :: t) = true) :
    chOk c = true ∧ allCh t = true := by
  simp only [allCh, List.all_cons, Bool.and_eq_true] at h
  exact h

theorem dropWhile_ws_eq_self_of_noDS (t : List Char)
    (hch : allCh t = true) (hds : Option.elim t.head? false isSp = false) :
    t.dropWhile wsChar = t := by
  cases t with
  | nil => rfl
  | cons d t1 =>
    rw [List.dropWhile_cons]
    by_cases hd : wsChar d = true
    · exfalso
      have hdc : chOk d = true := (allCh_step d t1 hch).1
      have : d = ' ' := sp_chOk d hdc hd
      subst this
      simp [isSp] at hds
    · rw [if_neg hd]

theorem aposFixP_id : ∀ (n : Nat) (y : List Char) (prev : Option Char), y.length ≤ n →
    allCh y = true → noDS y = true → F1ok prev y = true → F2ok prev y = true →
    F3ok prev y = true → aposFixP prev y = y := by
  intro n
  induction n with
  | zero =>
    intro y prev h1 _ _ _ _ _
    have hs : y = [] := List.eq_nil_of_length_eq_zero (by omega)
    subst hs
    rfl
  | succ n ih =>
    intro y prev h1 hch hds hF1 hF2 hF3
    cases y with
    | nil => rfl
    | cons c t =>
      simp only [List.length_cons] at h1
      obtain ⟨hc, hcht⟩ := allCh_step c t hch
      have hds2 : noDS t = true := (noWin_step _ c t hds).2
      have hF1s : F1ok (some c) t = true := (noWinP_step _ _ _ prev c t hF1).2
      have hF2s : F2ok (some c) t = true := (noWinP_step _ _ _ prev c t hF2).2
      have hF3s : F3ok (some c) t = true := (noWinP_step _ _ _ prev c t hF3).2
      have hih : aposFixP (some c) t = t :=
        ih t (some c) (by omega) hcht hds2 hF1s hF2s hF3s
      cases hp : Option.elim prev false isWordChar with
      | false => rw [aposFixP_step_nonword prev c t hp, hih]
      | true =>
        cases hwc : wsChar c with
        | true =>
          -- c is a space; a fire here would be the F1 or F2 window
          have hcsp : c = ' ' := sp_chOk c hc hwc
          have hdsp : Option.elim t.head? false isSp = false := by
            have := (noWin_step _ c t hds).1
            rw [matchesPrefix_cons, matchesPrefix_one] at this
            simpa [isSp, hcsp] using this
          have hdt : t.dropWhile wsChar = t :=
            dropWhile_ws_eq_self_of_noDS t hcht hdsp
          rw [aposFixP_step_ws prev c t hwc ?hnf, hih]
          case hnf =>
            rw [hdt]
            rintro ⟨hq1, hw⟩
            -- head of t is a single quote q; then a word follows directly (F1)
            -- or after one space (F2); both are forbidden windows
            cases t with
            | nil => simp at hq1
            | cons q t1 =>
              simp only [List.head?_cons, Option.elim] at hq1
              simp only [List.tail_cons] at hw
              have hqns : wsChar q = false := q1_not_ws q hq1
              cases t1 with
              | nil => simp at hw
              | cons e t2 =>
                by_cases he : wsChar e = true
                · have hesp : e = ' ' :=
                    sp_chOk e ((allCh_step e t2 (allCh_step q (e :: t2) hcht).2).1) he
                  subst hesp
                  have hds3 : noDS (' ' :: t2) = true := (noWin_step _ q _ hds2).2
                  have hds4 : Option.elim t2.head? false isSp = false := by
                    have := (noWin_step _ ' ' t2 hds3).1
                    rw [matchesPrefix_cons, matchesPrefix_one] at this
                    simpa [isSp] using this
                  have hdt2 : t2.dropWhile wsChar = t2 :=
                    dropWhile_ws_eq_self_of_noDS t2
                      (allCh_step ' ' t2 (allCh_step q (' ' :: t2) hcht).2).2 hds4
                  have hsp2 : (' ' :: t2).dropWhile wsChar = t2 := by
                    rw [List.dropWhile_cons, if_pos (by decide), hdt2]
                  rw [hsp2] at hw
                  have := (noWinP_step _ _ _ prev c (q :: ' ' :: t2) hF2).1
                  rw [hp] at this
                  simp only [Bool.true_and, matchesPrefix_cons, matchesPrefix_one,
                    matchesPrefix_nil] at this
                  simp [isSp, hcsp, hq1, hw] at this
                · have hdt1 : (e :: t2).dropWhile wsChar = e :: t2 := by
                    rw [List.dropWhile_cons, if_neg (by simp [he])]
                  rw [hdt1] at hw
                  simp only [List.head?_cons, Option.elim] at hw
                  -- F1 window: prev word, c space, q quote, e word
                  have := (noWinP_step _ _ _ prev c (q :: e :: t2) hF1).1
                  rw [hp] at this
                  simp only [Bool.true_and, matchesPrefix_cons, matchesPrefix_one,
                    matchesPrefix_nil] at this
                  simp [isSp, hcsp, hq1, hw] at this
        | false =>
          cases hq : isQuote1 c with
          | false => rw [aposFixP_step_notq1 prev c t hwc hq, hih]
          | true =>
            rw [aposFixP_step_q1 prev c t hwc hq ?hnf, hih]
            case hnf =>
              by_cases htw : t.takeWhile wsChar = []
              · exact Or.inl htw
              · refine Or.inr ?_
                -- t starts with a space (single, by noDS); a word after would be F3
                cases t with
                | nil => simp at htw
                | cons e t1 =>
                  have hews : wsChar e = true := by
                    by_contra hh
                    rw [List.takeWhile_cons, if_neg (by simpa using hh)] at htw
                    exact htw rfl
                  have hesp : e = ' ' := sp_chOk e ((allCh_step e t1 hcht).1) hews
                  subst hesp
                  have hds3 : Option.elim t1.head? false isSp = false := by
                    have := (noWin_step _ ' ' t1 hds2).1
                    rw [matchesPrefix_cons, matchesPrefix_one] at this
                    simpa [isSp] using this
                  have hdt1 : t1.dropWhile wsChar = t1 :=
                    dropWhile_ws_eq_self_of_noDS t1 (allCh_step ' ' t1 hcht).2 hds3
                  have hdt : (' ' :: t1).dropWhile wsChar = t1 := by
                    rw [List.dropWhile_cons, if_pos (by decide), hdt1]
                  rw [hdt]
                  cases hw : Option.elim t1.head? false isWordChar with
                  | false => rfl
                  | true =>
                    exfalso
                    -- F3 window: prev word, c quote, space, word
                    have := (noWinP_step _ _ _ prev c (' ' :: t1) hF3).1
                    rw [hp] at this
                    simp only [Bool.true_and, matchesPrefix_cons, matchesPrefix_two,
                      matchesPrefix_one] at this
                    simp [isSp, hq, hw] at this

theorem punctSpaceFix_id : ∀ (n : Nat) (y : List Char), y.length ≤ n →
    allCh y = true → noDS y = true → noSpacePunct y = true → punctSpaceFix y = y := by
  intro n
  induction n with
  | zero =>
    intro y h1 _ _ _
    have hs : y = [] := List.eq_nil_of_length_eq_zero (by omega)
    subst hs
    rfl
  | succ n ih =>
    intro y h1 hch hds hsp
    cases y with
    | nil => rfl
    | cons c t =>
      simp only [List.length_cons] at h1
      obtain ⟨hc, hcht⟩ := allCh_step c t hch
      have hih : punctSpaceFix t = t :=
        ih t (by omega) hcht (noWin_step _ c t hds).2 (noWin_step _ c t hsp).2
      rw [punctSpaceFix_nofire c t ?hnf, hih]
      case hnf =>
        rintro ⟨hwc, hpn⟩
        have hcsp : c = ' ' := sp_chOk c hc hwc
        have hdsp : Option.elim t.head? false isSp = false := by
          have := (noWin_step _ c t hds).1
          rw [matchesPrefix_cons, matchesPrefix_one] at this
          simpa [isSp, hcsp] using this
        rw [dropWhile_ws_eq_self_of_noDS t hcht hdsp] at hpn
        have := (noWin_step _ c t hsp).1
        rw [matchesPrefix_cons, matchesPrefix_one] at this
        simp [isSp, hcsp, hpn] at this
theorem quoteOpenFix_nil : quoteOpenFix [] = [] := rfl

theorem quoteCloseFix_nil : quoteCloseFix [] = [] := rfl

theorem aposPunctFix_nil : aposPunctFix [] = [] := rfl

theorem cancel_quote : ∀ (n : Nat) (y : List Char) (prev : Option Char), y.length ≤ n →
    allCh y = true → noDS y = true → G6ok y = true → G7ok prev y = true →
    G8ok y = true → G9ok y = true →
    (Option.elim prev false isPunct = true →
      matchesPrefix [isAposC, isSp, isWordChar] y = false) →
    aposPunctFix (quoteCloseFix (quoteOpenFix y)) = y := by
  intro n
  induction n with
  | zero =>
    intro y prev h1 _ _ _ _ _ _ _
    have hs : y = [] := List.eq_nil_of_length_eq_zero (by omega)
    subst hs
    rfl
  | succ n ih =>
    intro y prev h1 hch hds hG6 hG7 hG8 hG9 hdang
    cases y with
    | nil => rfl
    | cons c t =>
      simp only [List.length_cons] at h1
      obtain ⟨hc, hcht⟩ := allCh_step c t hch
      have hds2 : noDS t = true := (noWin_step _ c t hds).2
      have hG6s : G6ok t = true := (noWin_step _ c t hG6).2
      have hG7s : G7ok (some c) t = true := (noWinP_step _ _ _ prev c t hG7).2
      have hG8s : G8ok t = true := (noWin_step _ c t hG8).2
      have hG9s : G9ok t = true := (noWin_step _ c t hG9).2
      by_cases hB1 : (c = '"' ∧ matchesPrefix [isSp, isWordChar] t = true)
      · -- Block B1: close-double-quote, space, word: r9 deletes, r10 restores
        obtain ⟨hcq, hmt⟩ := hB1
        subst hcq
        cases t with
        | nil => simp [matchesPrefix] at hmt
        | cons d t1 =>
          rw [matchesPrefix_cons, matchesPrefix_one, Bool.and_eq_true] at hmt
          obtain ⟨hdsp, hw0⟩ := hmt
          have hdsp2 : d = ' ' := by simpa [isSp] using hdsp
          subst hdsp2
          cases t1 with
          | nil => simp at hw0
          | cons w t2 =>
            simp only [List.head?_cons, Option.elim] at hw0
            simp only [List.length_cons] at h1
            rw [quoteOpenFix_fire '"' w t2 (by decide) hw0]
            rw [quoteCloseFix_fire '"' w (quoteOpenFix t2) (by decide) hw0]
            rw [aposPunctFix_nofire '"' _ (by rintro ⟨hpc, _⟩; revert hpc; decide)]
            rw [aposPunctFix_nofire ' ' _ (by rintro ⟨hpc, _⟩; revert hpc; decide)]
            rw [aposPunctFix_nofire w _
              (by rintro ⟨hpc, _⟩; rw [word_not_punct w hw0] at hpc; exact Bool.noConfusion hpc)]
            have hArgs : allCh t2 = true ∧ noDS t2 = true ∧ G6ok t2 = true ∧
                G7ok (some w) t2 = true ∧ G8ok t2 = true ∧ G9ok t2 = true := by
              refine ⟨(allCh_step w t2 (allCh_step ' ' (w :: t2) hcht).2).2,
                (noWin_step _ w t2 (noWin_step _ ' ' (w :: t2) hds2).2).2,
                (noWin_step _ w t2 (noWin_step _ ' ' (w :: t2) hG6s).2).2,
                (noWinP_step _ _ _ _ w t2 (noWinP_step _ _ _ _ ' ' (w :: t2) hG7s).2).2,
                (noWin_step _ w t2 (noWin_step _ ' ' (w :: t2) hG8s).2).2,
                (noWin_step _ w t2 (noWin_step _ ' ' (w :: t2) hG9s).2).2⟩
            rw [ih t2 (some w) (by omega) hArgs.1 hArgs.2.1 hArgs.2.2.1 hArgs.2.2.2.1
              hArgs.2.2.2.2.1 hArgs.2.2.2.2.2
              (by
                intro hpc
                simp only [Option.elim] at hpc
                rw [word_not_punct w hw0] at hpc
                exact Bool.noConfusion hpc)]
      · by_cases hB2 : (isPunct c = true ∧ matchesPrefix [isAposC, isSp, isWordChar] t = true)
        · -- Block B2: punctuation, apostrophe, space, word: r9 deletes, r11 restores
          obtain ⟨hpc, hmt⟩ := hB2
          cases t with
          | nil => simp [matchesPrefix] at hmt
          | cons d t1 =>
            rw [matchesPrefix_cons, matchesPrefix_two, Bool.and_eq_true, Bool.and_eq_true] at hmt
            obtain ⟨hda, hdsp, hw0⟩ := hmt
            have hda2 : d = aposC := by simpa [isAposC] using hda
            subst hda2
            cases t1 with
            | nil => simp at hdsp
            | cons e t2 =>
              simp only [List.head?_cons, Option.elim] at hdsp
              have hesp : e = ' ' := by simpa [isSp] using hdsp
              subst hesp
              cases t2 with
              | nil => simp at hw0
              | cons w t3 =>
                simp only [List.tail_cons, List.head?_cons, Option.elim] at hw0
                simp only [List.length_cons] at h1
                rw [quoteOpenFix_nofire c _ (by
                  rintro ⟨ho, _, _⟩
                  rw [punct_not_openQ c hpc] at ho
                  exact Bool.noConfusion ho)]
                rw [quoteOpenFix_fire aposC w t3 (by decide) hw0]
                rw [quoteCloseFix_nofire c _ (by
                  rintro ⟨hcd, _⟩
                  rw [punct_not_closeDQ c hpc] at hcd
                  exact Bool.noConfusion hcd)]
                rw [quoteCloseFix_nofire aposC _ (by rintro ⟨hcd, _⟩; revert hcd; decide)]
                rw [quoteCloseFix_nofire w _ (by
                  rintro ⟨hcd, _⟩
                  rw [word_not_closeDQ w hw0] at hcd
                  exact Bool.noConfusion hcd)]
                rw [aposPunctFix_fire c aposC w (quoteCloseFix (quoteOpenFix t3)) hpc
                  (by decide) hw0]
                have hArgs : allCh t3 = true ∧ noDS t3 = true ∧ G6ok t3 = true ∧
                    G7ok (some w) t3 = true ∧ G8ok t3 = true ∧ G9ok t3 = true := by
                  refine ⟨(allCh_step w t3 (allCh_step ' ' _
                      (allCh_step aposC _ hcht).2).2).2,
                    (noWin_step _ w t3 (noWin_step _ ' ' _
                      (noWin_step _ aposC _ hds2).2).2).2,
                    (noWin_step _ w t3 (noWin_step _ ' ' _
                      (noWin_step _ aposC _ hG6s).2).2).2,
                    (noWinP_step _ _ _ _ w t3 (noWinP_step _ _ _ _ ' ' _
                      (noWinP_step _ _ _ _ aposC _ hG7s).2).2).2,
                    (noWin_step _ w t3 (noWin_step _ ' ' _
                      (noWin_step _ aposC _ hG8s).2).2).2,
                    (noWin_step _ w t3 (noWin_step _ ' ' _
                      (noWin_step _ aposC _ hG9s).2).2).2⟩
                rw [ih t3 (some w) (by omega) hArgs.1 hArgs.2.1 hArgs.2.2.1 hArgs.2.2.2.1
                  hArgs.2.2.2.2.1 hArgs.2.2.2.2.2
                  (by
                    intro hpc2
                    simp only [Option.elim] at hpc2
                    rw [word_not_punct w hw0] at hpc2
                    exact Bool.noConfusion hpc2)]
        · -- Inert: no scanner fires at c; all three step one character
          have h9 : quoteOpenFix (c :: t) = c :: quoteOpenFix t := by
            apply quoteOpenFix_nofire
            rintro ⟨ho, htw, hw⟩
            -- t starts with a single space then a word character
            cases t with
            | nil => simp at htw
            | cons e t1 =>
              have hews : wsChar e = true := by
                by_contra hh
                rw [List.takeWhile_cons, if_neg (by simpa using hh)] at htw
                exact htw rfl
              have hesp : e = ' ' := sp_chOk e ((allCh_step e t1 hcht).1) hews
              subst hesp
              have hds3 : Option.elim t1.head? false isSp = false := by
                have := (noWin_step _ ' ' t1 hds2).1
                rw [matchesPrefix_cons, matchesPrefix_one] at this
                simpa [isSp] using this
              have hdt1 : (' ' :: t1).dropWhile wsChar = t1 := by
                rw [List.dropWhile_cons, if_pos (by decide),
                  dropWhile_ws_eq_self_of_noDS t1 (allCh_step ' ' t1 hcht).2 hds3]
              rw [hdt1] at hw
              rcases openQ_cases c ho with hcc | hcc | hcc | hcc
              · -- left single quote: G6 forbids
                have := (noWin_step _ c (' ' :: t1) hG6).1
                rw [matchesPrefix_cons, matchesPrefix_two] at this
                simp [isLsqLdq, hcc, isSp, hw] at this
              · have := (noWin_step _ c (' ' :: t1) hG6).1
                rw [matchesPrefix_cons, matchesPrefix_two] at this
                simp [isLsqLdq, hcc, isSp, hw] at this
              · -- apostrophe: G7 forces a punctuation prev, then hdang applies
                subst hcc
                have hflag := (noWinP_step _ _ _ prev aposC (' ' :: t1) hG7).1
                rw [matchesPrefix_cons, matchesPrefix_two] at hflag
                simp only [List.head?_cons, List.tail_cons] at hflag
                rw [hw] at hflag
                simp only [Option.elim, show isSp ' ' = true from by decide,
                  show isAposC aposC = true from by decide, Bool.and_true,
                  Bool.true_and] at hflag
                have hprevP : Option.elim prev false isPunct = true := by
                  cases prev with
                  | none => simp at hflag
                  | some p =>
                    simp only [Option.elim]
                    simp only [Bool.not_eq_false] at hflag
                    simpa using hflag
                have hcontra := hdang hprevP
                rw [matchesPrefix_cons, matchesPrefix_two] at hcontra
                simp only [List.head?_cons, List.tail_cons] at hcontra
                rw [hw] at hcontra
                simp only [Option.elim, show isSp ' ' = true from by decide,
                  show isAposC aposC = true from by decide, Bool.and_true,
                  Bool.true_and] at hcontra
                exact Bool.noConfusion hcontra
              · -- double quote: this is exactly block B1
                exact hB1 ⟨hcc, by
                  rw [matchesPrefix_cons, matchesPrefix_one]
                  simp [isSp, hw]⟩
          rw [h9]
          have h10 : quoteCloseFix (c :: quoteOpenFix t) =
              c :: quoteCloseFix (quoteOpenFix t) := by
            apply quoteCloseFix_nofire
            rintro ⟨hcd, hwd⟩
            rw [quoteOpenFix_head t] at hwd
            have := (noWin_step _ c t hG8).1
            rw [matchesPrefix_cons, matchesPrefix_one] at this
            simp [hcd, hwd] at this
          rw [h10]
          have h11 : aposPunctFix (c :: quoteCloseFix (quoteOpenFix t)) =
              c :: aposPunctFix (quoteCloseFix (quoteOpenFix t)) := by
            apply aposPunctFix_nofire
            rintro ⟨hpc, hqd, hwd⟩
            rw [quoteCloseFix_head, quoteOpenFix_head] at hqd
            cases t with
            | nil => simp at hqd
            | cons d t1 =>
              simp only [List.head?_cons, Option.elim] at hqd
              -- d is a single quote; the second char of the transformed tail
              have h9d : quoteOpenFix (d :: t1) = d :: quoteOpenFix t1 := by
                apply quoteOpenFix_nofire
                rintro ⟨ho2, htw2, hw2⟩
                -- only the apostrophe is an opening quote among single quotes,
                -- and then this is block B2, excluded
                rcases q1_cases d hqd with hdd | hdd
                · rw [hdd] at ho2
                  exact absurd ho2 (by decide)
                · subst hdd
                  cases t1 with
                  | nil => simp at htw2
                  | cons e t2 =>
                    have hews : wsChar e = true := by
                      by_contra hh
                      rw [List.takeWhile_cons, if_neg (by simpa using hh)] at htw2
                      exact htw2 rfl
                    have hesp : e = ' ' :=
                      sp_chOk e ((allCh_step e t2 (allCh_step aposC _ hcht).2).1) hews
                    subst hesp
                    have hds3 : Option.elim t2.head? false isSp = false := by
                      have := (noWin_step _ ' ' t2 (noWin_step _ aposC _ hds2).2).1
                      rw [matchesPrefix_cons, matchesPrefix_one] at this
                      simpa [isSp] using this
                    have hdt1 : (' ' :: t2).dropWhile wsChar = t2 := by
                      rw [List.dropWhile_cons, if_pos (by decide),
                        dropWhile_ws_eq_self_of_noDS t2
                          (allCh_step ' ' t2 (allCh_step aposC _ hcht).2).2 hds3]
                    rw [hdt1] at hw2
                    exact hB2 ⟨hpc, by
                      rw [matchesPrefix_cons, matchesPrefix_two]
                      simp only [isAposC, isSp, List.head?_cons, Option.elim,
                        List.tail_cons]
                      cases t2 with
                      | nil => simp at hw2
                      | cons w t3 =>
                        simp only [List.head?_cons, Option.elim] at hw2
                        simp [hw2]⟩
              have h10d : quoteCloseFix (d :: quoteOpenFix t1) =
                  d :: quoteCloseFix (quoteOpenFix t1) := by
                apply quoteCloseFix_nofire
                rintro ⟨hcd2, _⟩
                rw [q1_not_closeDQ d hqd] at hcd2
                exact Bool.noConfusion hcd2
              rw [h9d, h10d] at hwd
              simp only [List.tail_cons] at hwd
              rw [quoteCloseFix_head, quoteOpenFix_head] at hwd
              -- G9 forbids punct-quote-word
              have := (noWin_step _ c (d :: t1) hG9).1
              rw [matchesPrefix_cons, matchesPrefix_two] at this
              simp [hpc, hqd, hwd] at this
          rw [h11]
          have hdang2 : Option.elim (some c) false isPunct = true →
              matchesPrefix [isAposC, isSp, isWordChar] t = false := by
            intro hpc
            simp only [Option.elim] at hpc
            cases hmt : matchesPrefix [isAposC, isSp, isWordChar] t with
            | false => rfl
            | true => exact absurd ⟨hpc, hmt⟩ hB2
          rw [ih t (some c) (by omega) hcht hds2 hG6s hG7s hG8s hG9s hdang2]
theorem noWin_intro (ps : List (Char → Bool)) (c : Char) (t : List Char)
    (hm : matchesPrefix ps (c :: t) = false) (ht : noWin ps t = true) :
    noWin ps (c :: t) = true := by
  simp [noWin, hm, ht]

theorem noWinP_intro (d : Bool) (p0 : Char → Bool) (ps : List (Char → Bool))
    (prev : Option Char) (c : Char) (t : List Char)
    (hm : (Option.elim prev d p0 && matchesPrefix ps (c :: t)) = false)
    (ht : noWinP d p0 ps (some c) t = true) :
    noWinP d p0 ps prev (c :: t) = true := by
  simp only [noWinP, hm, ht, Bool.not_false, Bool.true_and]

theorem noWinP_congr_prev (d : Bool) (p0 : Char → Bool) (ps : List (Char → Bool))
    (pA pB : Option Char) (y : List Char)
    (h : Option.elim pA d p0 = Option.elim pB d p0) :
    noWinP d p0 ps pA y = noWinP d p0 ps pB y := by
  cases y with
  | nil => rfl
  | cons c t => simp only [noWinP, h]

theorem matchesPrefix_mono (ps : List (Char → Bool)) :
    ∀ (u v : List Char), matchesPrefix ps u = true → matchesPrefix ps (u ++ v) = true := by
  induction ps with
  | nil => intro u v _; rfl
  | cons p ps ih =>
    intro u v h
    cases u with
    | nil => exact absurd h (by simp [matchesPrefix])
    | cons c u1 =>
      rw [matchesPrefix_cons, Bool.and_eq_true] at h
      rw [List.cons_append, matchesPrefix_cons, h.1, ih u1 v h.2]
      rfl

theorem noWin_prefix (ps : List (Char → Bool)) :
    ∀ (l1 l2 : List Char), l1 <+: l2 → noWin ps l2 = true → noWin ps l1 = true := by
  intro l1
  induction l1 with
  | nil => intro l2 _ _; rfl
  | cons c t1 ih =>
    intro l2 hp h2
    obtain ⟨r, hr⟩ := hp
    subst hr
    rw [List.cons_append] at h2
    obtain ⟨hm, ht⟩ := noWin_step ps c (t1 ++ r) h2
    refine noWin_intro ps c t1 ?_ (ih (t1 ++ r) ⟨r, rfl⟩ ht)
    cases hmm : matchesPrefix ps (c :: t1) with
    | false => rfl
    | true =>
      exfalso
      have := matchesPrefix_mono ps (c :: t1) r hmm
      rw [List.cons_append] at this
      rw [this] at hm
      exact Bool.noConfusion hm

theorem noWin_dropWhile (ps : List (Char → Bool)) (p : Char → Bool) :
    ∀ (l : List Char), noWin ps l = true → noWin ps (l.dropWhile p) = true := by
  intro l
  induction l with
  | nil => intro h; exact h
  | cons c t ih =>
    intro h
    rw [List.dropWhile_cons]
    by_cases hc : p c = true
    · rw [if_pos hc]
      exact ih (noWin_step ps c t h).2
    · rw [if_neg hc]
      exact h

theorem noWin_pyStrip (ps : List (Char → Bool)) (l : List Char)
    (h : noWin ps l = true) : noWin ps (pyStrip l) = true := by
  unfold pyStrip trimEnd
  apply noWin_prefix ps _ (l.dropWhile wsChar)
  · refine ⟨(((l.dropWhile wsChar).reverse).takeWhile wsChar).reverse, ?_⟩
    rw [← List.reverse_append, List.takeWhile_append_dropWhile, List.reverse_reverse]
  · exact noWin_dropWhile ps wsChar l h

theorem aposFixF_irrel :
    ∀ (n : Nat) (s : List Char) (prev : Option Char) (f1 f2 : Nat), s.length ≤ n →
      s.length ≤ f1 → s.length ≤ f2 → aposFixF f1 prev s = aposFixF f2 prev s := by
  intro n
  induction n with
  | zero =>
    intro s prev f1 f2 h1 _ _
    have hs : s = [] := List.eq_nil_of_length_eq_zero (by omega)
    subst hs
    cases f1 <;> cases f2 <;> rfl
  | succ n ih =>
    intro s prev f1 f2 h1 hf1 hf2
    cases s with
    | nil => cases f1 <;> cases f2 <;> rfl
    | cons c cs =>
      simp only [List.length_cons] at h1 hf1 hf2
      match f1, f2, hf1, hf2 with
      | a + 1, b + 1, _, _ =>
        rw [aposFixF_succ, aposFixF_succ]
        simp only [List.head?_cons, Option.elim, List.tail_cons]
        have hstep : aposFixF a (some c) cs = aposFixF b (some c) cs :=
          ih cs (some c) a b (by omega) (by omega) (by omega)
        cases prev with
        | none => simp [hstep]
        | some p =>
          cases hp : isWordChar p with
          | false => simp [hp, hstep]
          | true =>
            simp only [hp, if_pos]
            have hds : ((c :: cs).dropWhile wsChar).length ≤ cs.length + 1 :=
              (List.dropWhile_sublist _).length_le
            cases hr : ((c :: cs).dropWhile wsChar).head? with
            | none => simp [hstep]
            | some q =>
              have hne : (c :: cs).dropWhile wsChar ≠ [] := by
                intro he
                rw [he] at hr
                exact Option.noConfusion hr
              have hpos : 0 < ((c :: cs).dropWhile wsChar).length :=
                List.length_pos.mpr hne
              have hdnw : ∀ d ∈ (c :: cs).dropWhile wsChar, True := fun _ _ => trivial
              have hdl0 : ((c :: cs).dropWhile wsChar).length ≤ cs.length + 1 := hds
              have hdlen : (c :: cs).dropWhile wsChar = c :: cs ∨
                  ((c :: cs).dropWhile wsChar).length ≤ cs.length := by
                rw [List.dropWhile_cons]
                by_cases hc : wsChar c = true
                · right
                  rw [if_pos hc]
                  exact (List.dropWhile_sublist _).length_le
                · left
                  rw [if_neg hc]
              simp only [Option.elim]
              by_cases hq : isQuote1 q = true
              · rw [if_pos hq, if_pos hq]
                have htl : (((c :: cs).dropWhile wsChar).tail.dropWhile wsChar).length ≤
                    cs.length := by
                  have h4 : (((c :: cs).dropWhile wsChar).tail.dropWhile wsChar).length ≤
                      (((c :: cs).dropWhile wsChar).tail).length :=
                    (List.dropWhile_sublist _).length_le
                  have h5 := List.length_tail ((c :: cs).dropWhile wsChar)
                  omega
                cases hr3 : (((c :: cs).dropWhile wsChar).tail.dropWhile wsChar).head? with
                | none => simp [hstep]
                | some w =>
                  simp only [Option.elim]
                  by_cases hw : isWordChar w = true
                  · rw [if_pos hw, if_pos hw,
                      ih _ _ a b (by omega) (by omega) (by omega)]
                  · rw [if_neg hw, if_neg hw, hstep]
              · rw [if_neg hq, if_neg hq, hstep]
theorem mem_pipeAttrSubF :
    ∀ (fuel : Nat) (s : List Char) (a : Char), a ∈ pipeAttrSubF fuel s → a ∈ s := by
  intro fuel
  induction fuel with
  | zero => intro s a h; exact h
  | succ fuel ih =>
    intro s a h
    cases s with
    | nil => exact absurd h (by simp [pipeAttrSubF, Option.elim])
    | cons c t =>
      rw [show pipeAttrSubF (fuel + 1) (c :: t) =
        (if c = '|' ∧ t.takeWhile asciiLetter ≠ [] then
          (if (t.dropWhile asciiLetter).head? = some '=' ∧
              (t.dropWhile asciiLetter).tail.head? = some '"' then
            (if (((t.dropWhile asciiLetter).tail.tail).dropWhile
                (fun d => d ≠ '"')).head? = some '"' then
              pipeAttrSubF fuel (((t.dropWhile asciiLetter).tail.tail).dropWhile
                (fun d => d ≠ '"')).tail
            else c :: pipeAttrSubF fuel t)
          else c :: pipeAttrSubF fuel t)
        else c :: pipeAttrSubF fuel t) from rfl] at h
      by_cases h1 : (c = '|' ∧ t.takeWhile asciiLetter ≠ [])
      · rw [if_pos h1] at h
        by_cases h2 : ((t.dropWhile asciiLetter).head? = some '=' ∧
            (t.dropWhile asciiLetter).tail.head? = some '"')
        · rw [if_pos h2] at h
          by_cases h3 : ((((t.dropWhile asciiLetter).tail.tail).dropWhile
              (fun d => d ≠ '"')).head? = some '"')
          · rw [if_pos h3] at h
            have := ih _ a h
            have hsub : (((t.dropWhile asciiLetter).tail.tail).dropWhile
                (fun d => d ≠ '"')).tail ⊆ t := by
              intro x hx
              have s1 := (List.tail_sublist _).subset hx
              have s2 := (List.dropWhile_sublist (fun d => d ≠ '"')).subset s1
              have s3 := (List.tail_sublist _).subset s2
              have s4 := (List.tail_sublist _).subset s3
              exact (List.dropWhile_sublist asciiLetter).subset s4
            exact List.mem_cons_of_mem c (hsub this)
          · rw [if_neg h3] at h
            rcases List.mem_cons.mp h with rfl | h
            · simp
            · exact List.mem_cons_of_mem c (ih t a h)
        · rw [if_neg h2] at h
          rcases List.mem_cons.mp h with rfl | h
          · simp
          · exact List.mem_cons_of_mem c (ih t a h)
      · rw [if_neg h1] at h
        rcases List.mem_cons.mp h with rfl | h
        · simp
        · exact List.mem_cons_of_mem c (ih t a h)

theorem mem_replaceAllF :
    ∀ (fuel : Nat) (pat rep s : List Char) (a : Char), a ∈ replaceAllF fuel pat rep s →
      a ∈ rep ∨ a ∈ s := by
  intro fuel
  induction fuel with
  | zero => intro pat rep s a h; exact Or.inr h
  | succ fuel ih =>
    intro pat rep s a h
    cases s with
    | nil => exact absurd h (by simp [replaceAllF, Option.elim])
    | cons c t =>
      rw [show replaceAllF (fuel + 1) pat rep (c :: t) =
        (if pat.isPrefixOf (c :: t) ∧ pat ≠ [] then
          rep ++ replaceAllF fuel pat rep ((c :: t).drop pat.length)
        else c :: replaceAllF fuel pat rep t) from rfl] at h
      by_cases h1 : (pat.isPrefixOf (c :: t) = true ∧ pat ≠ [])
      · rw [if_pos h1] at h
        rcases List.mem_append.mp h with h | h
        · exact Or.inl h
        · rcases ih pat rep _ a h with h | h
          · exact Or.inl h
          · exact Or.inr ((List.drop_sublist _ _).subset h)
      · rw [if_neg h1] at h
        rcases List.mem_cons.mp h with rfl | h
        · exact Or.inr (by simp)
        · rcases ih pat rep t a h with h | h
          · exact Or.inl h
          · exact Or.inr (List.mem_cons_of_mem c h)

theorem mem_starSubF :
    ∀ (fuel : Nat) (s : List Char) (a : Char), a ∈ starSubF fuel s → a ∈ s := by
  intro fuel
  induction fuel with
  | zero => intro s a h; exact h
  | succ fuel ih =>
    intro s a h
    cases s with
    | nil => exact absurd h (by simp [starSubF, Option.elim])
    | cons c t =>
      rw [show starSubF (fuel + 1) (c :: t) =
        (if c = '*' then starSubF fuel ((c :: t).dropWhile (fun d => d = '*'))
        else c :: starSubF fuel t) from rfl] at h
      by_cases h1 : c = '*'
      · rw [if_pos h1] at h
        exact (List.dropWhile_sublist _).subset (ih _ a h)
      · rw [if_neg h1] at h
        rcases List.mem_cons.mp h with rfl | h
        · simp
        · exact List.mem_cons_of_mem c (ih t a h)

theorem mem_usfmMarkSubF :
    ∀ (fuel : Nat) (s : List Char) (a : Char), a ∈ usfmMarkSubF fuel s →
      a = ' ' ∨ a ∈ s := by
  intro fuel
  induction fuel with
  | zero => intro s a h; exact Or.inr h
  | succ fuel ih =>
    intro s a h
    cases s with
    | nil => exact absurd h (by simp [usfmMarkSubF, Option.elim])
    | cons c t =>
      rw [show usfmMarkSubF (fuel + 1) (c :: t) =
        (if c = '\\' ∧ t.takeWhile asciiLetter ≠ [] then
          ' ' :: usfmMarkSubF fuel
            (if ((t.dropWhile asciiLetter).dropWhile Char.isDigit).head? = some '*' then
              ((t.dropWhile asciiLetter).dropWhile Char.isDigit).tail
            else (t.dropWhile asciiLetter).dropWhile Char.isDigit)
        else c :: usfmMarkSubF fuel t) from rfl] at h
      by_cases h1 : (c = '\\' ∧ t.takeWhile asciiLetter ≠ [])
      · rw [if_pos h1] at h
        rcases List.mem_cons.mp h with rfl | h
        · exact Or.inl rfl
        · rcases ih _ a h with h | h
          · exact Or.inl h
          · refine Or.inr (List.mem_cons_of_mem c ?_)
            have hsub : (if ((t.dropWhile asciiLetter).dropWhile Char.isDigit).head? =
                some '*' then ((t.dropWhile asciiLetter).dropWhile Char.isDigit).tail
                else (t.dropWhile asciiLetter).dropWhile Char.isDigit) ⊆ t := by
              intro x hx
              by_cases h2 : ((t.dropWhile asciiLetter).dropWhile Char.isDigit).head? =
                  some '*'
              · rw [if_pos h2] at hx
                exact (List.dropWhile_sublist _).subset
                  ((List.dropWhile_sublist _).subset ((List.tail_sublist _).subset hx))
              · rw [if_neg h2] at hx
                exact (List.dropWhile_sublist _).subset
                  ((List.dropWhile_sublist _).subset hx)
            exact hsub h
      · rw [if_neg h1] at h
        rcases List.mem_cons.mp h with rfl | h
        · exact Or.inr (by simp)
        · rcases ih t a h with h | h
          · exact Or.inl h
          · exact Or.inr (List.mem_cons_of_mem c h)

theorem mem_wsCollapseF :
    ∀ (fuel : Nat) (s : List Char) (a : Char), a ∈ wsCollapseF fuel s →
      a = ' ' ∨ a ∈ s := by
  intro fuel
  induction fuel with
  | zero => intro s a h; exact Or.inr h
  | succ fuel ih =>
    intro s a h
    cases s with
    | nil => exact absurd h (by simp [wsCollapseF, Option.elim])
    | cons c t =>
      rw [show wsCollapseF (fuel + 1) (c :: t) =
        (if wsChar c then ' ' :: wsCollapseF fuel ((c :: t).dropWhile wsChar)
        else c :: wsCollapseF fuel t) from rfl] at h
      by_cases h1 : wsChar c = true
      · rw [if_pos h1] at h
        rcases List.mem_cons.mp h with rfl | h
        · exact Or.inl rfl
        · rcases ih _ a h with h | h
          · exact Or.inl h
          · exact Or.inr ((List.dropWhile_sublist _).subset h)
      · rw [if_neg h1] at h
        rcases List.mem_cons.mp h with rfl | h
        · exact Or.inr (by simp)
        · rcases ih t a h with h | h
          · exact Or.inl h
          · exact Or.inr (List.mem_cons_of_mem c h)

theorem mem_aposFixF :
    ∀ (fuel : Nat) (prev : Option Char) (s : List Char) (a : Char),
      a ∈ aposFixF fuel prev s → a ∈ s := by
  intro fuel
  induction fuel with
  | zero => intro prev s a h; exact h
  | succ fuel ih =>
    intro prev s a h
    have hinert : ∀ (c : Char) (t : List Char), a ∈ c :: aposFixF fuel (some c) t →
        a ∈ c :: t := by
      intro c t hh
      rcases List.mem_cons.mp hh with rfl | hh
      · simp
      · exact List.mem_cons_of_mem c (ih _ t a hh)
    cases s with
    | nil => exact absurd h (by simp [aposFixF, Option.elim])
    | cons c t =>
      rw [aposFixF_succ] at h
      cases prev with
      | none =>
        simp only [List.head?_cons, Option.elim, List.tail_cons] at h
        rw [if_neg Bool.false_ne_true] at h
        exact hinert c t h
      | some p =>
        simp only [List.head?_cons, Option.elim, List.tail_cons] at h
        by_cases hp : isWordChar p = true
        · rw [if_pos hp] at h
          cases hr : ((c :: t).dropWhile wsChar).head? with
          | none =>
            rw [hr] at h
            simp only [Option.elim] at h
            exact hinert c t h
          | some q =>
            rw [hr] at h
            simp only [Option.elim] at h
            have hqmem : q ∈ (c :: t) :=
              (List.dropWhile_sublist _).subset (List.mem_of_mem_head? (by rw [hr]; rfl))
            by_cases hq : isQuote1 q = true
            · rw [if_pos hq] at h
              cases hr3 : (((c :: t).dropWhile wsChar).tail.dropWhile wsChar).head? with
              | none =>
                rw [hr3] at h
                simp only [] at h
                rw [if_neg Bool.false_ne_true] at h
                exact hinert c t h
              | some w =>
                rw [hr3] at h
                simp only [] at h
                by_cases hw : isWordChar w = true
                · rw [if_pos hw] at h
                  rcases List.mem_cons.mp h with rfl | h
                  · exact hqmem
                  · have hsub : ((c :: t).dropWhile wsChar).tail.dropWhile wsChar ⊆
                        (c :: t) := by
                      intro x hx
                      exact (List.dropWhile_sublist _).subset ((List.tail_sublist _).subset
                        ((List.dropWhile_sublist _).subset hx))
                    exact hsub (ih _ _ a h)
                · rw [if_neg hw] at h
                  exact hinert c t h
            · rw [if_neg hq] at h
              exact hinert c t h
        · rw [if_neg hp] at h
          exact hinert c t h

theorem mem_quoteOpenFixF :
    ∀ (fuel : Nat) (s : List Char) (a : Char), a ∈ quoteOpenFixF fuel s → a ∈ s := by
  intro fuel
  induction fuel with
  | zero => intro s a h; exact h
  | succ fuel ih =>
    intro s a h
    cases s with
    | nil => exact absurd h (by simp [quoteOpenFixF, Option.elim])
    | cons c t =>
      rw [quoteOpenFixF_succ] at h
      simp only [List.head?_cons, Option.elim, List.tail_cons] at h
      by_cases h1 : (isOpenQ c = true ∧ t.takeWhile wsChar ≠ [])
      · rw [if_pos h1] at h
        cases hr : (t.dropWhile wsChar).head? with
        | none =>
          rw [hr] at h
          simp only [Option.elim] at h
          rcases List.mem_cons.mp h with rfl | h
          · simp
          · exact List.mem_cons_of_mem c (ih t a h)
        | some w =>
          rw [hr] at h
          simp only [Option.elim] at h
          have hwmem : w ∈ t :=
            (List.dropWhile_sublist _).subset (List.mem_of_mem_head? (by rw [hr]; rfl))
          by_cases hw : isWordChar w = true
          · rw [if_pos hw] at h
            rcases List.mem_cons.mp h with rfl | h
            · simp
            · rcases List.mem_cons.mp h with rfl | h
              · exact List.mem_cons_of_mem c hwmem
              · have hsub : (t.dropWhile wsChar).tail ⊆ t := fun x hx =>
                  (List.dropWhile_sublist _).subset ((List.tail_sublist _).subset hx)
                exact List.mem_cons_of_mem c (hsub (ih _ a h))
          · rw [if_neg hw] at h
            rcases List.mem_cons.mp h with rfl | h
            · simp
            · exact List.mem_cons_of_mem c (ih t a h)
      · rw [if_neg h1] at h
        rcases List.mem_cons.mp h with rfl | h
        · simp
        · exact List.mem_cons_of_mem c (ih t a h)

theorem mem_quoteCloseFixF :
    ∀ (fuel : Nat) (s : List Char) (a : Char), a ∈ quoteCloseFixF fuel s →
      a = ' ' ∨ a ∈ s := by
  intro fuel
  induction fuel with
  | zero => intro s a h; exact Or.inr h
  | succ fuel ih =>
    intro s a h
    cases s with
    | nil => exact absurd h (by simp [quoteCloseFixF, Option.elim])
    | cons c t =>
      rw [quoteCloseFixF_succ] at h
      simp only [List.head?_cons, Option.elim, List.tail_cons] at h
      by_cases h1 : isCloseDQ c = true
      · rw [if_pos h1] at h
        cases hr : t.head? with
        | none =>
          rw [hr] at h
          simp only [Option.elim] at h
          rcases List.mem_cons.mp h with rfl | h
          · exact Or.inr (by simp)
          · rcases ih t a h with h | h
            · exact Or.inl h
            · exact Or.inr (List.mem_cons_of_mem c h)
        | some w =>
          rw [hr] at h
          simp only [Option.elim] at h
          have hwmem : w ∈ t := List.mem_of_mem_head? (by rw [hr]; rfl)
          by_cases hw : isWordChar w = true
          · rw [if_pos hw] at h
            rcases List.mem_cons.mp h with rfl | h
            · exact Or.inr (by simp)
            · rcases List.mem_cons.mp h with rfl | h
              · exact Or.inl rfl
              · rcases List.mem_cons.mp h with rfl | h
                · exact Or.inr (List.mem_cons_of_mem c hwmem)
                · rcases ih t.tail a h with h | h
                  · exact Or.inl h
                  · exact Or.inr (List.mem_cons_of_mem c ((List.tail_sublist _).subset h))
          · rw [if_neg hw] at h
            rcases List.mem_cons.mp h with rfl | h
            · exact Or.inr (by simp)
            · rcases ih t a h with h | h
              · exact Or.inl h
              · exact Or.inr (List.mem_cons_of_mem c h)
      · rw [if_neg h1] at h
        rcases List.mem_cons.mp h with rfl | h
        · exact Or.inr (by simp)
        · rcases ih t a h with h | h
          · exact Or.inl h
          · exact Or.inr (List.mem_cons_of_mem c h)

theorem mem_aposPunctFixF :
    ∀ (fuel : Nat) (s : List Char) (a : Char), a ∈ aposPunctFixF fuel s →
      a = ' ' ∨ a ∈ s := by
  intro fuel
  induction fuel with
  | zero => intro s a h; exact Or.inr h
  | succ fuel ih =>
    intro s a h
    cases s with
    | nil => exact absurd h (by simp [aposPunctFixF, Option.elim])
    | cons c t =>
      rw [aposPunctFixF_succ] at h
      simp only [List.head?_cons, Option.elim, List.tail_cons] at h
      by_cases h1 : isPunct c = true
      · rw [if_pos h1] at h
        cases hr : t.head? with
        | none =>
          rw [hr] at h
          simp only [Option.elim] at h
          rcases List.mem_cons.mp h with rfl | h
          · exact Or.inr (by simp)
          · rcases ih t a h with h | h
            · exact Or.inl h
            · exact Or.inr (List.mem_cons_of_mem c h)
        | some q =>
          rw [hr] at h
          simp only [Option.elim] at h
          have hqmem : q ∈ t := List.mem_of_mem_head? (by rw [hr]; rfl)
          by_cases hq : isQuote1 q = true
          · rw [if_pos hq] at h
            cases hr2 : t.tail.head? with
            | none =>
              rw [hr2] at h
              simp only [Option.elim] at h
              rcases List.mem_cons.mp h with rfl | h
              · exact Or.inr (by simp)
              · rcases ih t a h with h | h
                · exact Or.inl h
                · exact Or.inr (List.mem_cons_of_mem c h)
            | some w =>
              rw [hr2] at h
              simp only [Option.elim] at h
              have hwmem : w ∈ t :=
                (List.tail_sublist _).subset (List.mem_of_mem_head? (by rw [hr2]; rfl))
              by_cases hw : isWordChar w = true
              · rw [if_pos hw] at h
                rcases List.mem_cons.mp h with rfl | h
                · exact Or.inr (by simp)
                · rcases List.mem_cons.mp h with rfl | h
                  · exact Or.inr (List.mem_cons_of_mem c hqmem)
                  · rcases List.mem_cons.mp h with rfl | h
                    · exact Or.inl rfl
                    · rcases List.mem_cons.mp h with rfl | h
                      · exact Or.inr (List.mem_cons_of_mem c hwmem)
                      · rcases ih t.tail.tail a h with h | h
                        · exact Or.inl h
                        · exact Or.inr (List.mem_cons_of_mem c
                            ((List.tail_sublist _).subset ((List.tail_sublist _).subset h)))
              · rw [if_neg hw] at h
                rcases List.mem_cons.mp h with rfl | h
                · exact Or.inr (by simp)
                · rcases ih t a h with h | h
                  · exact Or.inl h
                  · exact Or.inr (List.mem_cons_of_mem c h)
          · rw [if_neg hq] at h
            rcases List.mem_cons.mp h with rfl | h
            · exact Or.inr (by simp)
            · rcases ih t a h with h | h
              · exact Or.inl h
              · exact Or.inr (List.mem_cons_of_mem c h)
      · rw [if_neg h1] at h
        rcases List.mem_cons.mp h with rfl | h
        · exact Or.inr (by simp)
        · rcases ih t a h with h | h
          · exact Or.inl h
          · exact Or.inr (List.mem_cons_of_mem c h)

theorem mem_punctSpaceFixF :
    ∀ (fuel : Nat) (s : List Char) (a : Char), a ∈ punctSpaceFixF fuel s → a ∈ s := by
  intro fuel
  induction fuel with
  | zero => intro s a h; exact h
  | succ fuel ih =>
    intro s a h
    cases s with
    | nil => exact absurd h (by simp [punctSpaceFixF, Option.elim])
    | cons c t =>
      rw [punctSpaceFixF_succ] at h
      simp only [List.head?_cons, Option.elim, List.tail_cons] at h
      by_cases h1 : wsChar c = true
      · rw [if_pos h1] at h
        cases hr : ((c :: t).dropWhile wsChar).head? with
        | none =>
          rw [hr] at h
          simp only [Option.elim] at h
          rcases List.mem_cons.mp h with rfl | h
          · simp
          · exact List.mem_cons_of_mem c (ih t a h)
        | some p =>
          rw [hr] at h
          simp only [Option.elim] at h
          have hpmem : p ∈ (c :: t) :=
            (List.dropWhile_sublist _).subset (List.mem_of_mem_head? (by rw [hr]; rfl))
          by_cases hp2 : isPunct p = true
          · rw [if_pos hp2] at h
            rcases List.mem_cons.mp h with rfl | h
            · exact hpmem
            · have hsub : ((c :: t).dropWhile wsChar).tail ⊆ (c :: t) := fun x hx =>
                (List.dropWhile_sublist _).subset ((List.tail_sublist _).subset hx)
              exact hsub (ih _ a h)
          · rw [if_neg hp2] at h
            rcases List.mem_cons.mp h with rfl | h
            · simp
            · exact List.mem_cons_of_mem c (ih t a h)
      · rw [if_neg h1] at h
        rcases List.mem_cons.mp h with rfl | h
        · simp
        · exact List.mem_cons_of_mem c (ih t a h)
theorem sp_ws (c : Char) (h : isSp c = true) : wsChar c = true := by
  simp only [isSp, decide_eq_true_eq] at h
  subst h
  decide

theorem head_dropWhile_not (p : Char → Bool) :
    ∀ (l : List Char) (c : Char), (l.dropWhile p).head? = some c → p c = false := by
  intro l
  induction l with
  | nil => intro c h; exact absurd h (by simp)
  | cons a t ih =>
    intro c h
    rw [List.dropWhile_cons] at h
    by_cases ha : p a = true
    · rw [if_pos ha] at h
      exact ih c h
    · rw [if_neg ha] at h
      simp only [List.head?_cons, Option.some.injEq] at h
      subst h
      simpa using ha

theorem pyStrip_head_not_ws (x : List Char) (c : Char)
    (h : (pyStrip x).head? = some c) : wsChar c = false := by
  unfold pyStrip trimEnd at h
  have hpre : ((x.dropWhile wsChar).reverse.dropWhile wsChar).reverse <+:
      x.dropWhile wsChar := by
    refine ⟨(((x.dropWhile wsChar).reverse).takeWhile wsChar).reverse, ?_⟩
    rw [← List.reverse_append, List.takeWhile_append_dropWhile, List.reverse_reverse]
  obtain ⟨r, hr⟩ := hpre
  cases htr : ((x.dropWhile wsChar).reverse.dropWhile wsChar).reverse with
  | nil =>
    rw [htr] at h
    exact absurd h (by simp)
  | cons d z =>
    rw [htr] at h
    simp only [List.head?_cons, Option.some.injEq] at h
    subst h
    rw [htr] at hr
    have hthis : (x.dropWhile wsChar).head? = some d := by
      rw [← hr]
      rfl
    exact head_dropWhile_not wsChar x d hthis

theorem pyStrip_last_not_ws (x : List Char) (c : Char)
    (h : (pyStrip x).getLast? = some c) : wsChar c = false := by
  unfold pyStrip trimEnd at h
  rw [List.getLast?_reverse] at h
  exact head_dropWhile_not wsChar _ c h

theorem wsCollapseF_wsSp :
    ∀ (n : Nat) (s : List Char) (fuel : Nat), s.length ≤ n → s.length ≤ fuel →
      ∀ c ∈ wsCollapseF fuel s, wsChar c = true → c = ' ' := by
  intro n
  induction n with
  | zero =>
    intro s fuel h1 _ c hc _
    have hs : s = [] := List.eq_nil_of_length_eq_zero (by omega)
    subst hs
    cases fuel <;> exact absurd hc (by simp [wsCollapseF, Option.elim])
  | succ n ih =>
    intro s fuel h1 hf c hc hw
    cases s with
    | nil => cases fuel <;> exact absurd hc (by simp [wsCollapseF, Option.elim])
    | cons a t =>
      simp only [List.length_cons] at h1 hf
      match fuel, hf with
      | fuel + 1, _ =>
        rw [show wsCollapseF (fuel + 1) (a :: t) =
          (if wsChar a then ' ' :: wsCollapseF fuel ((a :: t).dropWhile wsChar)
          else a :: wsCollapseF fuel t) from rfl] at hc
        by_cases ha : wsChar a = true
        · rw [if_pos ha] at hc
          rcases List.mem_cons.mp hc with rfl | hc
          · rfl
          · have hdl : ((a :: t).dropWhile wsChar).length ≤ t.length := by
              rw [List.dropWhile_cons, if_pos ha]
              exact (List.dropWhile_sublist _).length_le
            exact ih _ fuel (by omega) (by omega) c hc hw
        · rw [if_neg ha] at hc
          rcases List.mem_cons.mp hc with rfl | hc
          · exact absurd hw (by simp [ha])
          · exact ih t fuel (by omega) (by omega) c hc hw

theorem wsCollapseF_head (fuel : Nat) (c : Char) (t : List Char) :
    (wsCollapseF (fuel + 1) (c :: t)).head? = some (if wsChar c then ' ' else c) := by
  rw [show wsCollapseF (fuel + 1) (c :: t) =
    (if wsChar c then ' ' :: wsCollapseF fuel ((c :: t).dropWhile wsChar)
    else c :: wsCollapseF fuel t) from rfl]
  by_cases hc : wsChar c = true
  · rw [if_pos hc, if_pos hc]
    rfl
  · rw [if_neg hc, if_neg hc]
    rfl

theorem wsCollapseF_noDS :
    ∀ (n : Nat) (s : List Char) (fuel : Nat), s.length ≤ n → s.length ≤ fuel →
      noDS (wsCollapseF fuel s) = true := by
  intro n
  induction n with
  | zero =>
    intro s fuel h1 _
    have hs : s = [] := List.eq_nil_of_length_eq_zero (by omega)
    subst hs
    cases fuel <;> rfl
  | succ n ih =>
    intro s fuel h1 hf
    cases s with
    | nil => cases fuel <;> rfl
    | cons a t =>
      simp only [List.length_cons] at h1 hf
      match fuel, hf with
      | fuel + 1, _ =>
        rw [show wsCollapseF (fuel + 1) (a :: t) =
          (if wsChar a then ' ' :: wsCollapseF fuel ((a :: t).dropWhile wsChar)
          else a :: wsCollapseF fuel t) from rfl]
        by_cases ha : wsChar a = true
        · rw [if_pos ha]
          have hda : (a :: t).dropWhile wsChar = t.dropWhile wsChar := by
            rw [List.dropWhile_cons, if_pos ha]
          have hdl : (t.dropWhile wsChar).length ≤ t.length :=
            (List.dropWhile_sublist _).length_le
          rw [hda]
          refine noWin_intro _ _ _ ?_ (ih _ fuel (by omega) (by omega))
          rw [matchesPrefix_cons, matchesPrefix_one]
          cases hdw : t.dropWhile wsChar with
          | nil =>
            have hnil : wsCollapseF fuel ([] : List Char) = [] := by
              cases fuel <;> rfl
            rw [hnil]
            simp
          | cons d z =>
            have hdns : wsChar d = false := head_dropWhile_not wsChar t d (by rw [hdw]; rfl)
            have hfl : 1 ≤ fuel := by
              rw [hdw] at hdl
              simp only [List.length_cons] at hdl
              omega
            match fuel, hfl with
            | f2 + 1, _ =>
              rw [wsCollapseF_head]
              rw [if_neg (by simp [hdns])]
              simp only [Option.elim]
              cases hsp : isSp d with
              | false => simp [hsp]
              | true => exact absurd (sp_ws d hsp) (by simp [hdns])
        · rw [if_neg ha]
          refine noWin_intro _ _ _ ?_ (ih t fuel (by omega) (by omega))
          rw [matchesPrefix_cons]
          have : isSp a = false := by
            cases hsp : isSp a with
            | false => rfl
            | true => exact absurd (sp_ws a hsp) (by simp [ha])
          simp [this]
theorem q1_not_word (c : Char) (h : isQuote1 c = true) : isWordChar c = false := by
  simp only [isQuote1, decide_eq_true_eq] at h
  rcases h with rfl | rfl <;> decide

theorem q1_not_sp (c : Char) (h : isQuote1 c = true) : isSp c = false := by
  cases hs : isSp c with
  | false => rfl
  | true => exact absurd (sp_ws c hs) (by simp [q1_not_ws c h])

theorem word_not_isSp (c : Char) (h : isWordChar c = true) : isSp c = false := by
  cases hs : isSp c with
  | false => rfl
  | true => exact absurd (sp_ws c hs) (by simp [word_not_ws c h])

theorem getLast?_cons_congr (c : Char) {l1 l2 : List Char}
    (h : l1.getLast? = l2.getLast?) : (c :: l1).getLast? = (c :: l2).getLast? := by
  cases l1 with
  | nil =>
    cases l2 with
    | nil => rfl
    | cons d z =>
      exfalso
      rw [List.getLast?_nil] at h
      have := List.getLast?_isSome (l := d :: z)
      rw [← h] at this
      simp at this
  | cons a w =>
    cases l2 with
    | nil =>
      exfalso
      rw [List.getLast?_nil] at h
      have := List.getLast?_isSome (l := a :: w)
      rw [h] at this
      simp at this
    | cons d z =>
      rw [List.getLast?_cons_cons, List.getLast?_cons_cons]
      exact h

theorem aposFixP_fire_a (prev : Option Char) (q w : Char) (t2 : List Char)
    (hp : Option.elim prev false isWordChar = true) (hq : isQuote1 q = true)
    (hw : isWordChar w = true) :
    aposFixP prev (q :: ' ' :: w :: t2) = q :: aposFixP (some ' ') (w :: t2) := by
  show aposFixF (t2.length + 3) prev (q :: ' ' :: w :: t2) = _
  rw [aposFixF_succ]
  cases prev with
  | none => exact absurd hp (by simp)
  | some p =>
    have hp2 : isWordChar p = true := by simpa using hp
    simp only [List.head?_cons, Option.elim, List.tail_cons, hp2, if_true]
    have hdw : (q :: ' ' :: w :: t2).dropWhile wsChar = q :: ' ' :: w :: t2 := by
      rw [List.dropWhile_cons, if_neg (by simp [q1_not_ws q hq])]
    rw [hdw]
    simp only [List.head?_cons, Option.elim, List.tail_cons, hq, if_true]
    have htk : (' ' :: w :: t2).takeWhile wsChar = [' '] := by
      rw [List.takeWhile_cons, if_pos (by decide), List.takeWhile_cons,
        if_neg (by simp [word_not_ws w hw])]
    have hdr : (' ' :: w :: t2).dropWhile wsChar = w :: t2 := by
      rw [List.dropWhile_cons, if_pos (by decide), List.dropWhile_cons,
        if_neg (by simp [word_not_ws w hw])]
    rw [htk, hdr]
    simp only [List.head?_cons, Option.elim, hw, if_true, List.getLast?_singleton]
    rw [aposFixF_irrel (t2.length + 1) (w :: t2) (some ' ') (t2.length + 2)
      (t2.length + 1) (by simp) (by simp) (by simp)]
    rfl

theorem aposFixP_fire_b (prev : Option Char) (q w : Char) (t2 : List Char)
    (hp : Option.elim prev false isWordChar = true) (hq : isQuote1 q = true)
    (hw : isWordChar w = true) :
    aposFixP prev (' ' :: q :: w :: t2) = q :: aposFixP (some q) (w :: t2) := by
  show aposFixF (t2.length + 3) prev (' ' :: q :: w :: t2) = _
  rw [aposFixF_succ]
  cases prev with
  | none => exact absurd hp (by simp)
  | some p =>
    have hp2 : isWordChar p = true := by simpa using hp
    simp only [List.head?_cons, Option.elim, List.tail_cons, hp2, if_true]
    have hdw : (' ' :: q :: w :: t2).dropWhile wsChar = q :: w :: t2 := by
      rw [List.dropWhile_cons, if_pos (by decide), List.dropWhile_cons,
        if_neg (by simp [q1_not_ws q hq])]
    rw [hdw]
    simp only [List.head?_cons, Option.elim, List.tail_cons, hq, if_true]
    have htk : (w :: t2).takeWhile wsChar = [] := by
      rw [List.takeWhile_cons, if_neg (by simp [word_not_ws w hw])]
    have hdr : (w :: t2).dropWhile wsChar = w :: t2 := by
      rw [List.dropWhile_cons, if_neg (by simp [word_not_ws w hw])]
    rw [htk, hdr]
    simp only [List.head?_cons, Option.elim, hw, if_true, List.getLast?_nil]
    rw [aposFixF_irrel (t2.length + 1) (w :: t2) (some q) (t2.length + 2)
      (t2.length + 1) (by simp) (by simp) (by simp)]
    rfl

theorem aposFixP_fire_c (prev : Option Char) (q w : Char) (t2 : List Char)
    (hp : Option.elim prev false isWordChar = true) (hq : isQuote1 q = true)
    (hw : isWordChar w = true) :
    aposFixP prev (' ' :: q :: ' ' :: w :: t2) = q :: aposFixP (some ' ') (w :: t2) := by
  show aposFixF (t2.length + 4) prev (' ' :: q :: ' ' :: w :: t2) = _
  rw [aposFixF_succ]
  cases prev with
  | none => exact absurd hp (by simp)
  | some p =>
    have hp2 : isWordChar p = true := by simpa using hp
    simp only [List.head?_cons, Option.elim, List.tail_cons, hp2, if_true]
    have hdw : (' ' :: q :: ' ' :: w :: t2).dropWhile wsChar = q :: ' ' :: w :: t2 := by
      rw [List.dropWhile_cons, if_pos (by decide), List.dropWhile_cons,
        if_neg (by simp [q1_not_ws q hq])]
    rw [hdw]
    simp only [List.head?_cons, Option.elim, List.tail_cons, hq, if_true]
    have htk : (' ' :: w :: t2).takeWhile wsChar = [' '] := by
      rw [List.takeWhile_cons, if_pos (by decide), List.takeWhile_cons,
        if_neg (by simp [word_not_ws w hw])]
    have hdr : (' ' :: w :: t2).dropWhile wsChar = w :: t2 := by
      rw [List.dropWhile_cons, if_pos (by decide), List.dropWhile_cons,
        if_neg (by simp [word_not_ws w hw])]
    rw [htk, hdr]
    simp only [List.head?_cons, Option.elim, hw, if_true, List.getLast?_singleton]
    rw [aposFixF_irrel (t2.length + 1) (w :: t2) (some ' ') (t2.length + 3)
      (t2.length + 1) (by simp) (by simp) (by simp)]
    rfl
theorem aposFixP_head_nonword (prev : Option Char) (s : List Char)
    (hp : Option.elim prev false isWordChar = false) :
    (aposFixP prev s).head? = s.head? := by
  cases s with
  | nil => rfl
  | cons d t =>
    rw [aposFixP_step_nonword prev d t hp]
    rfl

theorem aposFixP_nil (prev : Option Char) : aposFixP prev [] = [] := rfl

theorem aposFixP_out : ∀ (n : Nat) (s : List Char) (prev : Option Char), s.length ≤ n →
    allCh s = true → noDS s = true →
    noDS (aposFixP prev s) = true ∧ F1ok prev (aposFixP prev s) = true ∧
    F2ok prev (aposFixP prev s) = true ∧ F3ok prev (aposFixP prev s) = true ∧
    (aposFixP prev s).getLast? = s.getLast? := by
  intro n
  induction n with
  | zero =>
    intro s prev h1 _ _
    have hs : s = [] := List.eq_nil_of_length_eq_zero (by omega)
    subst hs
    exact ⟨rfl, rfl, rfl, rfl, rfl⟩
  | succ n ih =>
    intro s prev h1 hch hds
    cases s with
    | nil => exact ⟨rfl, rfl, rfl, rfl, rfl⟩
    | cons c t =>
      simp only [List.length_cons] at h1
      obtain ⟨hc, hcht⟩ := allCh_step c t hch
      have hdsF := (noWin_step _ c t hds).1
      have hds2 := (noWin_step _ c t hds).2
      rw [matchesPrefix_cons, matchesPrefix_one] at hdsF
      -- the double-space flag for the output at the junction, shared by all
      -- inert branches
      have hf0 : (isSp c && Option.elim (aposFixP (some c) t).head? false isSp) =
          false := by
        cases hspc : isSp c with
        | false => simp
        | true =>
          have hcsp : c = ' ' := by simpa [isSp] using hspc
          rw [aposFixP_head_nonword (some c) t (by rw [hcsp]; decide)]
          simp only [Bool.true_and]
          cases t with
          | nil => simp
          | cons d t1 =>
            simp only [List.head?_cons, Option.elim]
            rw [hspc] at hdsF
            simpa using hdsF
      have hassemble : aposFixP prev (c :: t) = c :: aposFixP (some c) t →
          (Option.elim prev false isWordChar &&
            matchesPrefix [isSp, isQuote1, isWordChar] (c :: aposFixP (some c) t)) =
            false →
          (Option.elim prev false isWordChar &&
            matchesPrefix [isSp, isQuote1, isSp, isWordChar]
              (c :: aposFixP (some c) t)) = false →
          (Option.elim prev false isWordChar &&
            matchesPrefix [isQuote1, isSp, isWordChar] (c :: aposFixP (some c) t)) =
            false →
          noDS (aposFixP prev (c :: t)) = true ∧
          F1ok prev (aposFixP prev (c :: t)) = true ∧
          F2ok prev (aposFixP prev (c :: t)) = true ∧
          F3ok prev (aposFixP prev (c :: t)) = true ∧
          (aposFixP prev (c :: t)).getLast? = (c :: t).getLast? := by
        intro hstep hf1 hf2 hf3
        obtain ⟨ih0, ih1, ih2, ih3, ih4⟩ := ih t (some c) (by omega) hcht hds2
        rw [hstep]
        refine ⟨noWin_intro _ _ _ ?_ ih0, noWinP_intro _ _ _ _ _ _ hf1 ih1,
          noWinP_intro _ _ _ _ _ _ hf2 ih2, noWinP_intro _ _ _ _ _ _ hf3 ih3,
          getLast?_cons_congr c ih4⟩
        rw [matchesPrefix_cons, matchesPrefix_one]
        exact hf0
      cases hp : Option.elim prev false isWordChar with
      | false =>
        exact hassemble (aposFixP_step_nonword prev c t hp) (by rw [hp]; simp)
          (by rw [hp]; simp) (by rw [hp]; simp)
      | true =>
        cases hwc : wsChar c with
        | true =>
          -- c is a single space
          have hcsp : c = ' ' := sp_chOk c hc hwc
          have hq1c : isQuote1 c = false := by
            cases hx : isQuote1 c with
            | false => rfl
            | true => exact absurd hwc (by simp [q1_not_ws c hx])
          -- the head of t is not a space
          have hdsp : Option.elim t.head? false isSp = false := by
            rw [hcsp] at hdsF
            simpa [show isSp ' ' = true from by decide] using hdsF
          cases t with
          | nil =>
            refine hassemble (aposFixP_step_ws prev c [] hwc (by simp)) ?_ ?_ ?_ <;>
              simp [matchesPrefix_cons, aposFixP_nil, matchesPrefix_one,
                matchesPrefix_two, matchesPrefix, hq1c]
          | cons q t1 =>
            have hqns : isSp q = false := by simpa using hdsp
            cases hq1 : isQuote1 q with
            | false =>
              -- no quote after the space: inert
              have hstep : aposFixP prev (c :: q :: t1) =
                  c :: aposFixP (some c) (q :: t1) := by
                apply aposFixP_step_ws prev c (q :: t1) hwc
                rintro ⟨hx, _⟩
                have hqw : wsChar q = false := by
                  cases hy : wsChar q with
                  | false => rfl
                  | true =>
                    have := sp_chOk q (allCh_step q t1 hcht).1 hy
                    rw [this] at hqns
                    simp [isSp] at hqns
                rw [List.dropWhile_cons, if_neg (by simp [hqw])] at hx
                simp only [List.head?_cons, Option.elim] at hx
                rw [hq1] at hx
                exact Bool.noConfusion hx
              have hout : aposFixP (some c) (q :: t1) =
                  q :: aposFixP (some q) t1 :=
                aposFixP_step_nonword (some c) q t1 (by rw [hcsp]; decide)
              refine hassemble hstep ?_ ?_ ?_
              · rw [hout, matchesPrefix_cons, matchesPrefix_cons]
                simp [hq1]
              · rw [hout, matchesPrefix_cons, matchesPrefix_cons]
                simp [hq1]
              · rw [matchesPrefix_cons]
                simp [hq1c]
            | true =>
              -- space-quote: fire shapes b and c, or inert
              have hqnw : wsChar q = false := q1_not_ws q hq1
              cases t1 with
              | nil =>
                have hstep : aposFixP prev (c :: [q]) =
                    c :: aposFixP (some c) [q] := by
                  apply aposFixP_step_ws prev c [q] hwc
                  rintro ⟨_, hx⟩
                  rw [List.dropWhile_cons, if_neg (by simp [hqnw])] at hx
                  simp at hx
                have hout : aposFixP (some c) [q] = q :: aposFixP (some q) [] :=
                  aposFixP_step_nonword (some c) q [] (by rw [hcsp]; decide)
                refine hassemble hstep ?_ ?_ ?_
                · rw [hout, aposFixP_nil, matchesPrefix_cons, matchesPrefix_cons,
                    matchesPrefix_one]
                  simp
                · rw [hout, aposFixP_nil, matchesPrefix_cons, matchesPrefix_cons,
                    matchesPrefix_two]
                  simp
                · rw [matchesPrefix_cons]
                  simp [hq1c]
              | cons e t2 =>
                cases hwe : isWordChar e with
                | true =>
                  -- fire shape b
                  subst hcsp
                  rw [aposFixP_fire_b prev q e t2 hp hq1 hwe]
                  obtain ⟨ih0, ih1, ih2, ih3, ih4⟩ :=
                    ih (e :: t2) (some q) (by simp only [List.length_cons] at h1 ⊢; omega)
                      (allCh_step q (e :: t2) hcht).2 (noWin_step _ q _ hds2).2
                  refine ⟨noWin_intro _ _ _ ?_ ih0, noWinP_intro _ _ _ _ _ _ ?_ ih1,
                    noWinP_intro _ _ _ _ _ _ ?_ ih2, noWinP_intro _ _ _ _ _ _ ?_ ih3,
                    ?_⟩
                  · rw [matchesPrefix_cons]
                    simp [q1_not_sp q hq1]
                  · rw [matchesPrefix_cons]
                    simp [q1_not_sp q hq1]
                  · rw [matchesPrefix_cons]
                    simp [q1_not_sp q hq1]
                  · rw [matchesPrefix_cons, matchesPrefix_two]
                    rw [aposFixP_head_nonword (some q) (e :: t2)
                      (by simp [q1_not_word q hq1, show isWordChar ' ' = false from by decide])]
                    simp [word_not_isSp e hwe]
                  · rw [getLast?_cons_congr q ih4]
                    simp only [List.getLast?_cons_cons]
                | false =>
                  cases hwse : wsChar e with
                  | true =>
                    -- space after the quote
                    have hesp : e = ' ' :=
                      sp_chOk e (allCh_step e t2 (allCh_step q _ hcht).2).1 hwse
                    subst hesp
                    have hds3 : Option.elim t2.head? false isSp = false := by
                      have := (noWin_step _ ' ' t2 (noWin_step _ q _ hds2).2).1
                      rw [matchesPrefix_cons, matchesPrefix_one] at this
                      simpa [isSp] using this
                    cases t2 with
                    | nil =>
                      have hstep : aposFixP prev (c :: q :: ' ' :: []) =
                          c :: aposFixP (some c) (q :: ' ' :: []) := by
                        apply aposFixP_step_ws prev c (q :: [' ']) hwc
                        rintro ⟨_, hx⟩
                        rw [List.dropWhile_cons, if_neg (by simp [hqnw])] at hx
                        simp only [List.tail_cons] at hx
                        rw [List.dropWhile_cons, if_pos (by decide)] at hx
                        simp at hx
                      have hout : aposFixP (some c) (q :: [' ']) =
                          q :: aposFixP (some q) [' '] :=
                        aposFixP_step_nonword (some c) q [' '] (by rw [hcsp]; decide)
                      have hout2 : aposFixP (some q) [' '] =
                          ' ' :: aposFixP (some ' ') [] :=
                        aposFixP_step_nonword (some q) ' ' []
                          (by simp [q1_not_word q hq1, show isWordChar ' ' = false from by decide])
                      refine hassemble hstep ?_ ?_ ?_
                      · rw [hout, hout2, matchesPrefix_cons, matchesPrefix_cons,
                          matchesPrefix_one]
                        simp [show isWordChar ' ' = false from by decide]
                      · rw [hout, hout2, aposFixP_nil, matchesPrefix_cons,
                          matchesPrefix_cons, matchesPrefix_cons, matchesPrefix_one]
                        simp [show isWordChar ' ' = false from by decide, matchesPrefix]
                      · rw [matchesPrefix_cons]
                        simp [hq1c]
                    | cons w t3 =>
                      have hwns : isSp w = false := by simpa using hds3
                      cases hww : isWordChar w with
                      | true =>
                        -- fire shape c
                        subst hcsp
                        rw [aposFixP_fire_c prev q w t3 hp hq1 hww]
                        obtain ⟨ih0, ih1, ih2, ih3, ih4⟩ :=
                          ih (w :: t3) (some ' ') (by simp only [List.length_cons] at h1 ⊢; omega)
                            (allCh_step ' ' (w :: t3)
                              (allCh_step q _ hcht).2).2
                            (noWin_step _ ' ' _ (noWin_step _ q _ hds2).2).2
                        have hprev : ∀ (d : Bool) (ps : List (Char → Bool)),
                            noWinP d isWordChar ps (some ' ')
                              (aposFixP (some ' ') (w :: t3)) =
                            noWinP d isWordChar ps (some q)
                              (aposFixP (some ' ') (w :: t3)) := by
                          intro d ps
                          exact noWinP_congr_prev _ _ _ _ _ _
                            (by simp [q1_not_word q hq1,
                              show isWordChar ' ' = false from by decide])
                        refine ⟨noWin_intro _ _ _ ?_ ih0,
                          noWinP_intro _ _ _ _ _ _ ?_ (by rw [← hprev]; exact ih1),
                          noWinP_intro _ _ _ _ _ _ ?_ (by rw [← hprev]; exact ih2),
                          noWinP_intro _ _ _ _ _ _ ?_ (by rw [← hprev]; exact ih3),
                          ?_⟩
                        · rw [matchesPrefix_cons]
                          simp [q1_not_sp q hq1]
                        · rw [matchesPrefix_cons]
                          simp [q1_not_sp q hq1]
                        · rw [matchesPrefix_cons]
                          simp [q1_not_sp q hq1]
                        · rw [matchesPrefix_cons, matchesPrefix_two]
                          rw [aposFixP_head_nonword (some ' ') (w :: t3) (by decide)]
                          simp [word_not_isSp w hww]
                        · rw [getLast?_cons_congr q ih4]
                          simp only [List.getLast?_cons_cons]
                      | false =>
                        -- inert: space quote space non-word
                        have hstep : aposFixP prev (c :: q :: ' ' :: w :: t3) =
                            c :: aposFixP (some c) (q :: ' ' :: w :: t3) := by
                          apply aposFixP_step_ws prev c (q :: ' ' :: w :: t3) hwc
                          rintro ⟨_, hx⟩
                          rw [List.dropWhile_cons, if_neg (by simp [hqnw])] at hx
                          simp only [List.tail_cons] at hx
                          rw [List.dropWhile_cons, if_pos (by decide)] at hx
                          rw [List.dropWhile_cons,
                            if_neg (by
                              cases hy : wsChar w with
                              | false => simp
                              | true =>
                                have := sp_chOk w
                                  (allCh_step w t3 (allCh_step ' ' _
                                    (allCh_step q _ hcht).2).2).1 hy
                                rw [this] at hwns
                                simp [isSp] at hwns)] at hx
                          simp only [List.head?_cons, Option.elim] at hx
                          rw [hww] at hx
                          exact Bool.noConfusion hx
                        have hout : aposFixP (some c) (q :: ' ' :: w :: t3) =
                            q :: aposFixP (some q) (' ' :: w :: t3) :=
                          aposFixP_step_nonword (some c) q _ (by rw [hcsp]; decide)
                        have hout2 : aposFixP (some q) (' ' :: w :: t3) =
                            ' ' :: aposFixP (some ' ') (w :: t3) :=
                          aposFixP_step_nonword (some q) ' ' _
                            (by simp [q1_not_word q hq1, show isWordChar ' ' = false from by decide])
                        refine hassemble hstep ?_ ?_ ?_
                        · rw [hout, hout2, matchesPrefix_cons, matchesPrefix_cons,
                            matchesPrefix_one]
                          simp [show isWordChar ' ' = false from by decide]
                        · rw [hout, hout2, matchesPrefix_cons, matchesPrefix_cons,
                            matchesPrefix_cons, matchesPrefix_one]
                          rw [aposFixP_head_nonword (some ' ') (w :: t3) (by decide)]
                          simp [hww]
                        · rw [matchesPrefix_cons]
                          simp [hq1c]
                  | false =>
                    -- non-space non-word after the quote: inert
                    have hstep : aposFixP prev (c :: q :: e :: t2) =
                        c :: aposFixP (some c) (q :: e :: t2) := by
                      apply aposFixP_step_ws prev c (q :: e :: t2) hwc
                      rintro ⟨_, hx⟩
                      rw [List.dropWhile_cons, if_neg (by simp [hqnw])] at hx
                      simp only [List.tail_cons] at hx
                      rw [List.dropWhile_cons, if_neg (by simp [hwse])] at hx
                      simp only [List.head?_cons, Option.elim] at hx
                      rw [hwe] at hx
                      exact Bool.noConfusion hx
                    have hout : aposFixP (some c) (q :: e :: t2) =
                        q :: aposFixP (some q) (e :: t2) :=
                      aposFixP_step_nonword (some c) q _ (by rw [hcsp]; decide)
                    have hout2 : aposFixP (some q) (e :: t2) =
                        e :: aposFixP (some e) t2 :=
                      aposFixP_step_nonword (some q) e _ (by simp [q1_not_word q hq1, show isWordChar ' ' = false from by decide])
                    refine hassemble hstep ?_ ?_ ?_
                    · rw [hout, hout2, matchesPrefix_cons, matchesPrefix_cons,
                        matchesPrefix_one]
                      simp [hwe]
                    · rw [hout, hout2, matchesPrefix_cons, matchesPrefix_cons,
                        matchesPrefix_cons]
                      have hesp : isSp e = false := by
                        cases hy : isSp e with
                        | false => rfl
                        | true => exact absurd (sp_ws e hy) (by simp [hwse])
                      simp [hesp]
                    · rw [matchesPrefix_cons]
                      simp [hq1c]
        | false =>
          -- c is not whitespace
          cases hq1c : isQuote1 c with
          | false =>
            have hstep := aposFixP_step_notq1 prev c t hwc hq1c
            have hspc : isSp c = false := by
              cases hy : isSp c with
              | false => rfl
              | true => exact absurd (sp_ws c hy) (by simp [hwc])
            refine hassemble hstep ?_ ?_ ?_
            · rw [matchesPrefix_cons]
              simp [hspc]
            · rw [matchesPrefix_cons]
              simp [hspc]
            · rw [matchesPrefix_cons]
              simp [hq1c]
          | true =>
            -- c is a single quote after a word character
            cases t with
            | nil =>
              have hstep := aposFixP_step_q1 prev c [] hwc hq1c (Or.inl rfl)
              refine hassemble hstep ?_ ?_ ?_ <;>
                simp [matchesPrefix_cons, aposFixP_nil, matchesPrefix_one,
                  matchesPrefix_two, matchesPrefix, q1_not_sp c hq1c, hq1c]
            | cons e t1 =>
              cases hwse : wsChar e with
              | false =>
                -- no space after the quote: trivial or no fire, inert either way
                have hstep := aposFixP_step_q1 prev c (e :: t1) hwc hq1c
                  (Or.inl (by rw [List.takeWhile_cons, if_neg (by simp [hwse])]))
                have hout : aposFixP (some c) (e :: t1) =
                    e :: aposFixP (some e) t1 :=
                  aposFixP_step_nonword (some c) e _ (by simp [q1_not_word c hq1c, show isWordChar ' ' = false from by decide])
                have hesp : isSp e = false := by
                  cases hy : isSp e with
                  | false => rfl
                  | true => exact absurd (sp_ws e hy) (by simp [hwse])
                refine hassemble hstep ?_ ?_ ?_
                · rw [matchesPrefix_cons]
                  simp [q1_not_sp c hq1c]
                · rw [matchesPrefix_cons]
                  simp [q1_not_sp c hq1c]
                · rw [hout, matchesPrefix_cons, matchesPrefix_cons]
                  simp [hesp]
              | true =>
                have hesp : e = ' ' := sp_chOk e (allCh_step e t1 hcht).1 hwse
                subst hesp
                have hds3 : Option.elim t1.head? false isSp = false := by
                  have := (noWin_step _ ' ' t1 hds2).1
                  rw [matchesPrefix_cons, matchesPrefix_one] at this
                  simpa [isSp] using this
                cases t1 with
                | nil =>
                  have hstep := aposFixP_step_q1 prev c [' '] hwc hq1c
                    (Or.inr (by
                      rw [List.dropWhile_cons, if_pos (by decide)]
                      simp))
                  have hout : aposFixP (some c) [' '] =
                      ' ' :: aposFixP (some ' ') [] :=
                    aposFixP_step_nonword (some c) ' ' [] (by simp [q1_not_word c hq1c, show isWordChar ' ' = false from by decide])
                  refine hassemble hstep ?_ ?_ ?_
                  · rw [matchesPrefix_cons]
                    simp [q1_not_sp c hq1c]
                  · rw [matchesPrefix_cons]
                    simp [q1_not_sp c hq1c]
                  · rw [hout, aposFixP_nil, matchesPrefix_cons, matchesPrefix_cons,
                      matchesPrefix_one]
                    simp [show isWordChar ' ' = false from by decide, matchesPrefix]
                | cons w t2 =>
                  have hwns : isSp w = false := by simpa using hds3
                  cases hww : isWordChar w with
                  | true =>
                    -- fire shape a
                    rw [aposFixP_fire_a prev c w t2 hp hq1c hww]
                    obtain ⟨ih0, ih1, ih2, ih3, ih4⟩ :=
                      ih (w :: t2) (some ' ') (by simp only [List.length_cons] at h1 ⊢; omega)
                        (allCh_step ' ' (w :: t2) hcht).2
                        (noWin_step _ ' ' _ hds2).2
                    have hprev : ∀ (d : Bool) (ps : List (Char → Bool)),
                        noWinP d isWordChar ps (some ' ')
                          (aposFixP (some ' ') (w :: t2)) =
                        noWinP d isWordChar ps (some c)
                          (aposFixP (some ' ') (w :: t2)) := by
                      intro d ps
                      exact noWinP_congr_prev _ _ _ _ _ _
                        (by simp [q1_not_word c hq1c, show isWordChar ' ' = false from by decide])
                    refine ⟨noWin_intro _ _ _ ?_ ih0,
                      noWinP_intro _ _ _ _ _ _ ?_ (by rw [← hprev]; exact ih1),
                      noWinP_intro _ _ _ _ _ _ ?_ (by rw [← hprev]; exact ih2),
                      noWinP_intro _ _ _ _ _ _ ?_ (by rw [← hprev]; exact ih3),
                      ?_⟩
                    · rw [matchesPrefix_cons]
                      simp [q1_not_sp c hq1c]
                    · rw [matchesPrefix_cons]
                      simp [q1_not_sp c hq1c]
                    · rw [matchesPrefix_cons]
                      simp [q1_not_sp c hq1c]
                    · rw [matchesPrefix_cons, matchesPrefix_two]
                      rw [aposFixP_head_nonword (some ' ') (w :: t2) (by decide)]
                      simp [word_not_isSp w hww]
                    · rw [getLast?_cons_congr c ih4]
                      simp only [List.getLast?_cons_cons]
                  | false =>
                    -- quote space non-word: inert
                    have hstep := aposFixP_step_q1 prev c (' ' :: w :: t2) hwc hq1c
                      (Or.inr (by
                        rw [List.dropWhile_cons, if_pos (by decide)]
                        rw [List.dropWhile_cons,
                          if_neg (by
                            cases hy : wsChar w with
                            | false => simp
                            | true =>
                              have := sp_chOk w
                                (allCh_step w t2 (allCh_step ' ' _ hcht).2).1 hy
                              rw [this] at hwns
                              simp [isSp] at hwns)]
                        simp only [List.head?_cons, Option.elim]
                        rw [hww]))
                    have hout : aposFixP (some c) (' ' :: w :: t2) =
                        ' ' :: aposFixP (some ' ') (w :: t2) :=
                      aposFixP_step_nonword (some c) ' ' _
                        (by simp [q1_not_word c hq1c, show isWordChar ' ' = false from by decide])
                    refine hassemble hstep ?_ ?_ ?_
                    · rw [matchesPrefix_cons]
                      simp [q1_not_sp c hq1c]
                    · rw [matchesPrefix_cons]
                      simp [q1_not_sp c hq1c]
                    · rw [hout, matchesPrefix_cons, matchesPrefix_cons,
                        matchesPrefix_one]
                      rw [aposFixP_head_nonword (some ' ') (w :: t2) (by decide)]
                      simp [hww]
theorem openQ_not_word (c : Char) (h : isOpenQ c = true) : isWordChar c = false := by
  simp only [isOpenQ, decide_eq_true_eq] at h
  rcases h with rfl | rfl | rfl | rfl <;> decide

theorem openQ_not_ws (c : Char) (h : isOpenQ c = true) : wsChar c = false := by
  simp only [isOpenQ, decide_eq_true_eq] at h
  rcases h with rfl | rfl | rfl | rfl <;> decide

theorem openQ_not_sp (c : Char) (h : isOpenQ c = true) : isSp c = false := by
  cases hs : isSp c with
  | false => rfl
  | true => exact absurd (sp_ws c hs) (by simp [openQ_not_ws c h])

theorem quoteOpenFix_nofire_clean (c : Char) (t : List Char) (hch : allCh t = true)
    (hds : noDS t = true)
    (hn : ¬(isOpenQ c = true ∧ matchesPrefix [isSp, isWordChar] t = true)) :
    quoteOpenFix (c :: t) = c :: quoteOpenFix t := by
  apply quoteOpenFix_nofire
  rintro ⟨ho, htw, hw⟩
  apply hn
  refine ⟨ho, ?_⟩
  cases t with
  | nil => simp at htw
  | cons e t1 =>
    have hews : wsChar e = true := by
      by_contra hh
      rw [List.takeWhile_cons, if_neg (by simpa using hh)] at htw
      exact htw rfl
    have hesp : e = ' ' := sp_chOk e ((allCh_step e t1 hch).1) hews
    subst hesp
    have hds3 : Option.elim t1.head? false isSp = false := by
      have := (noWin_step _ ' ' t1 hds).1
      rw [matchesPrefix_cons, matchesPrefix_one] at this
      simpa [show isSp ' ' = true from by decide] using this
    have hdt1 : (' ' :: t1).dropWhile wsChar = t1 := by
      rw [List.dropWhile_cons, if_pos (by decide),
        dropWhile_ws_eq_self_of_noDS t1 (allCh_step ' ' t1 hch).2 hds3]
    rw [hdt1] at hw
    rw [matchesPrefix_cons, matchesPrefix_one]
    simp [hw, show isSp ' ' = true from by decide]

theorem quoteOpenFix_cons_sp (t : List Char) :
    quoteOpenFix (' ' :: t) = ' ' :: quoteOpenFix t := by
  apply quoteOpenFix_nofire
  rintro ⟨ho, _, _⟩
  exact absurd ho (by decide)

theorem quoteOpenFix_out : ∀ (n : Nat) (s : List Char) (prev : Option Char),
    s.length ≤ n → allCh s = true → noDS s = true → F1ok prev s = true →
    F2ok prev s = true → F3ok prev s = true →
    noDS (quoteOpenFix s) = true ∧ F1ok prev (quoteOpenFix s) = true ∧
    F2ok prev (quoteOpenFix s) = true ∧ F3ok prev (quoteOpenFix s) = true ∧
    noOpenWsW (quoteOpenFix s) = true ∧ (quoteOpenFix s).getLast? = s.getLast? := by
  intro n
  induction n with
  | zero =>
    intro s prev h1 _ _ _ _ _
    have hs : s = [] := List.eq_nil_of_length_eq_zero (by omega)
    subst hs
    exact ⟨rfl, rfl, rfl, rfl, rfl, rfl⟩
  | succ n ih =>
    intro s prev h1 hch hds hF1 hF2 hF3
    cases s with
    | nil => exact ⟨rfl, rfl, rfl, rfl, rfl, rfl⟩
    | cons c t =>
      simp only [List.length_cons] at h1
      obtain ⟨hc, hcht⟩ := allCh_step c t hch
      have hdsF := (noWin_step _ c t hds).1
      have hds2 := (noWin_step _ c t hds).2
      have hF1s := (noWinP_step _ _ _ prev c t hF1).2
      have hF2s := (noWinP_step _ _ _ prev c t hF2).2
      have hF3s := (noWinP_step _ _ _ prev c t hF3).2
      rw [matchesPrefix_cons, matchesPrefix_one] at hdsF
      by_cases hfire : (isOpenQ c = true ∧ matchesPrefix [isSp, isWordChar] t = true)
      · -- fire: c is an opening quote, then one space, then a word character
        obtain ⟨ho, hmt⟩ := hfire
        cases t with
        | nil => simp [matchesPrefix] at hmt
        | cons d t1 =>
          rw [matchesPrefix_cons, matchesPrefix_one, Bool.and_eq_true] at hmt
          obtain ⟨hdsp, hw0⟩ := hmt
          have hdsp2 : d = ' ' := by simpa [isSp] using hdsp
          subst hdsp2
          cases t1 with
          | nil => simp at hw0
          | cons w t2 =>
            simp only [List.head?_cons, Option.elim] at hw0
            rw [quoteOpenFix_fire c w t2 ho hw0]
            obtain ⟨ih0, ih1, ih2, ih3, ih5, ih4⟩ :=
              ih t2 (some w) (by simp only [List.length_cons] at h1 ⊢; omega)
                (allCh_step w t2 (allCh_step ' ' _ hcht).2).2
                (noWin_step _ w _ (noWin_step _ ' ' _ hds2).2).2
                (noWinP_step _ _ _ _ w _ (noWinP_step _ _ _ _ ' ' _ hF1s).2).2
                (noWinP_step _ _ _ _ w _ (noWinP_step _ _ _ _ ' ' _ hF2s).2).2
                (noWinP_step _ _ _ _ w _ (noWinP_step _ _ _ _ ' ' _ hF3s).2).2
            have hcns : isSp c = false := openQ_not_sp c ho
            have hcnw : isWordChar c = false := openQ_not_word c ho
            have hwns : isSp w = false := word_not_isSp w hw0
            have hwnq : isQuote1 w = false := word_not_q1 w hw0
            have hwno : isOpenQ w = false := word_not_openQ w hw0
            refine ⟨?_, ?_, ?_, ?_, ?_, ?_⟩
            · refine noWin_intro _ _ _ ?_ (noWin_intro _ _ _ ?_ ih0)
              · rw [matchesPrefix_cons]
                simp [hcns]
              · rw [matchesPrefix_cons]
                simp [hwns]
            · refine noWinP_intro _ _ _ _ _ _ ?_ (noWinP_intro _ _ _ _ _ _ ?_ ih1)
              · rw [matchesPrefix_cons]
                simp [hcns]
              · simp [hcnw]
            · refine noWinP_intro _ _ _ _ _ _ ?_ (noWinP_intro _ _ _ _ _ _ ?_ ih2)
              · rw [matchesPrefix_cons]
                simp [hcns]
              · simp [hcnw]
            · refine noWinP_intro _ _ _ _ _ _ ?_ (noWinP_intro _ _ _ _ _ _ ?_ ih3)
              · rw [matchesPrefix_cons, matchesPrefix_two]
                simp [hwns]
              · simp [hcnw]
            · refine noWin_intro _ _ _ ?_ (noWin_intro _ _ _ ?_ ih5)
              · rw [matchesPrefix_cons, matchesPrefix_two]
                simp [hwns]
              · rw [matchesPrefix_cons]
                simp [hwno]
            · rw [getLast?_cons_congr c (getLast?_cons_congr w ih4)]
              simp only [List.getLast?_cons_cons]
      · -- no fire at c
        have hstep : quoteOpenFix (c :: t) = c :: quoteOpenFix t :=
          quoteOpenFix_nofire_clean c t hcht hds2 hfire
        rw [hstep]
        obtain ⟨ih0, ih1, ih2, ih3, ih5, ih4⟩ :=
          ih t (some c) (by omega) hcht hds2 hF1s hF2s hF3s
        have hhead : (quoteOpenFix t).head? = t.head? := quoteOpenFix_head t
        refine ⟨?_, ?_, ?_, ?_, ?_, getLast?_cons_congr c ih4⟩
        · refine noWin_intro _ _ _ ?_ ih0
          rw [matchesPrefix_cons, matchesPrefix_one, hhead]
          exact hdsF
        · -- F1 junction
          refine noWinP_intro _ _ _ _ _ _ ?_ ih1
          cases hpw : Option.elim prev false isWordChar with
          | false => simp
          | true =>
            simp only [Bool.true_and]
            rw [matchesPrefix_cons]
            cases hcsp : isSp c with
            | false => simp
            | true =>
              simp only [Bool.true_and]
              cases t with
              | nil => simp [matchesPrefix]
              | cons d t1 =>
                by_cases hdfire : (isOpenQ d = true ∧
                    matchesPrefix [isSp, isWordChar] t1 = true)
                · -- the tail fires: d is quote1-or-not, output second char a word char;
                  -- if d were quote1 the input had an F2 window, so the flag dies on d
                  obtain ⟨hod, hmt1⟩ := hdfire
                  cases t1 with
                  | nil => simp [matchesPrefix] at hmt1
                  | cons e t2 =>
                    rw [matchesPrefix_cons, matchesPrefix_one, Bool.and_eq_true] at hmt1
                    obtain ⟨hesp, hw2⟩ := hmt1
                    have hesp2 : e = ' ' := by simpa [isSp] using hesp
                    subst hesp2
                    cases t2 with
                    | nil => simp at hw2
                    | cons w t3 =>
                      simp only [List.head?_cons, Option.elim] at hw2
                      rw [quoteOpenFix_fire d w t3 hod hw2,
                        matchesPrefix_cons, matchesPrefix_one]
                      cases hdq : isQuote1 d with
                      | false => simp [hdq]
                      | true =>
                        exfalso
                        have := (noWinP_step _ _ _ prev c (d :: ' ' :: w :: t3) hF2).1
                        rw [hpw] at this
                        simp only [Bool.true_and, matchesPrefix_cons,
                          matchesPrefix_one, matchesPrefix_nil] at this
                        simp [hcsp, hdq, hw2,
                          show isSp ' ' = true from by decide] at this
                · rw [quoteOpenFix_nofire_clean d t1
                    (allCh_step d t1 hcht).2 (noWin_step _ d t1 hds2).2 hdfire,
                    matchesPrefix_cons, matchesPrefix_one, quoteOpenFix_head t1]
                  cases hdq : isQuote1 d with
                  | false => simp [hdq]
                  | true =>
                    have := (noWinP_step _ _ _ prev c (d :: t1) hF1).1
                    rw [hpw] at this
                    simp only [Bool.true_and, matchesPrefix_cons,
                      matchesPrefix_one, matchesPrefix_nil] at this
                    simp only [hcsp, hdq, Bool.true_and] at this
                    simp [this]
        · -- F2 junction
          refine noWinP_intro _ _ _ _ _ _ ?_ ih2
          cases hpw : Option.elim prev false isWordChar with
          | false => simp
          | true =>
            simp only [Bool.true_and]
            rw [matchesPrefix_cons]
            cases hcsp : isSp c with
            | false => simp
            | true =>
              simp only [Bool.true_and]
              cases t with
              | nil => simp [matchesPrefix]
              | cons d t1 =>
                by_cases hdfire : (isOpenQ d = true ∧
                    matchesPrefix [isSp, isWordChar] t1 = true)
                · obtain ⟨hod, hmt1⟩ := hdfire
                  cases t1 with
                  | nil => simp [matchesPrefix] at hmt1
                  | cons e t2 =>
                    rw [matchesPrefix_cons, matchesPrefix_one, Bool.and_eq_true] at hmt1
                    obtain ⟨hesp, hw2⟩ := hmt1
                    have hesp2 : e = ' ' := by simpa [isSp] using hesp
                    subst hesp2
                    cases t2 with
                    | nil => simp at hw2
                    | cons w t3 =>
                      simp only [List.head?_cons, Option.elim] at hw2
                      rw [quoteOpenFix_fire d w t3 hod hw2,
                        matchesPrefix_cons, matchesPrefix_cons]
                      simp [word_not_isSp w hw2]
                · rw [quoteOpenFix_nofire_clean d t1
                    (allCh_step d t1 hcht).2 (noWin_step _ d t1 hds2).2 hdfire,
                    matchesPrefix_cons]
                  cases hdq : isQuote1 d with
                  | false => simp [hdq]
                  | true =>
                    simp only [hdq, Bool.true_and]
                    rw [matchesPrefix_two, quoteOpenFix_head t1]
                    cases t1 with
                    | nil => simp
                    | cons e t2 =>
                      simp only [List.head?_cons, Option.elim]
                      cases hesp : isSp e with
                      | false => simp
                      | true =>
                        have hesp2 : e = ' ' := by simpa [isSp] using hesp
                        subst hesp2
                        rw [quoteOpenFix_cons_sp t2]
                        simp only [List.tail_cons, Bool.true_and]
                        rw [quoteOpenFix_head t2]
                        have := (noWinP_step _ _ _ prev c (d :: ' ' :: t2) hF2).1
                        rw [hpw] at this
                        simp only [Bool.true_and, matchesPrefix_cons,
                          matchesPrefix_one, matchesPrefix_nil] at this
                        simpa [hcsp, hdq,
                          show isSp ' ' = true from by decide] using this
        · -- F3 junction
          refine noWinP_intro _ _ _ _ _ _ ?_ ih3
          cases hpw : Option.elim prev false isWordChar with
          | false => simp
          | true =>
            simp only [Bool.true_and]
            rw [matchesPrefix_cons]
            cases hcq : isQuote1 c with
            | false => simp
            | true =>
              simp only [Bool.true_and]
              rw [matchesPrefix_two, hhead]
              cases t with
              | nil => simp
              | cons e t1 =>
                simp only [List.head?_cons, Option.elim]
                cases hesp : isSp e with
                | false => simp
                | true =>
                  have hesp2 : e = ' ' := by simpa [isSp] using hesp
                  subst hesp2
                  rw [quoteOpenFix_cons_sp t1]
                  simp only [List.tail_cons, Bool.true_and]
                  rw [quoteOpenFix_head t1]
                  have := (noWinP_step _ _ _ prev c (' ' :: t1) hF3).1
                  rw [hpw] at this
                  simp only [Bool.true_and, matchesPrefix_cons,
                    matchesPrefix_one, matchesPrefix_nil] at this
                  simpa [hcq, show isSp ' ' = true from by decide] using this
        · -- new openQ-space-word windows never appear in the output
          refine noWin_intro _ _ _ ?_ ih5
          rw [matchesPrefix_cons]
          cases hco : isOpenQ c with
          | false => simp
          | true =>
            simp only [Bool.true_and]
            rw [matchesPrefix_two, hhead]
            cases t with
            | nil => simp
            | cons e t1 =>
              simp only [List.head?_cons, Option.elim]
              cases hesp : isSp e with
              | false => simp
              | true =>
                have hesp2 : e = ' ' := by simpa [isSp] using hesp
                subst hesp2
                rw [quoteOpenFix_cons_sp t1]
                simp only [List.tail_cons, Bool.true_and]
                rw [quoteOpenFix_head t1]
                cases hw : Option.elim t1.head? false isWordChar with
                | false => exact hw
                | true =>
                  exfalso
                  apply hfire
                  refine ⟨hco, ?_⟩
                  rw [matchesPrefix_cons, matchesPrefix_one]
                  simp [hw, show isSp ' ' = true from by decide]
theorem closeDQ_not_ws (c : Char) (h : isCloseDQ c = true) : wsChar c = false := by
  simp only [isCloseDQ, decide_eq_true_eq] at h
  rcases h with rfl | rfl <;> decide

theorem closeDQ_not_sp (c : Char) (h : isCloseDQ c = true) : isSp c = false := by
  cases hs : isSp c with
  | false => rfl
  | true => exact absurd (sp_ws c hs) (by simp [closeDQ_not_ws c h])

theorem closeDQ_not_word (c : Char) (h : isCloseDQ c = true) : isWordChar c = false := by
  cases hw : isWordChar c with
  | false => rfl
  | true => exact absurd (word_not_closeDQ c hw) (by simp [h])

theorem closeDQ_not_q1 (c : Char) (h : isCloseDQ c = true) : isQuote1 c = false := by
  cases hq : isQuote1 c with
  | false => rfl
  | true => exact absurd (q1_not_closeDQ c hq) (by simp [h])

theorem lsqldq_openQ (c : Char) (h : isLsqLdq c = true) : isOpenQ c = true := by
  simp only [isLsqLdq, decide_eq_true_eq] at h
  rcases h with rfl | rfl <;> decide

theorem aposC_openQ (c : Char) (h : isAposC c = true) : isOpenQ c = true := by
  simp only [isAposC, decide_eq_true_eq] at h
  subst h
  decide

theorem word_not_lsqldq (c : Char) (h : isWordChar c = true) : isLsqLdq c = false := by
  cases hl : isLsqLdq c with
  | false => rfl
  | true => exact absurd (word_not_openQ c h) (by simp [lsqldq_openQ c hl])

theorem word_not_apos (c : Char) (h : isWordChar c = true) : isAposC c = false := by
  cases hl : isAposC c with
  | false => rfl
  | true => exact absurd (word_not_openQ c h) (by simp [aposC_openQ c hl])

theorem closeDQ_not_lsqldq (c : Char) (h : isCloseDQ c = true) : isLsqLdq c = false := by
  simp only [isCloseDQ, decide_eq_true_eq] at h
  rcases h with rfl | rfl <;> decide

theorem closeDQ_not_apos (c : Char) (h : isCloseDQ c = true) : isAposC c = false := by
  simp only [isCloseDQ, decide_eq_true_eq] at h
  rcases h with rfl | rfl <;> decide

theorem quoteCloseFix_cons_sp (t : List Char) :
    quoteCloseFix (' ' :: t) = ' ' :: quoteCloseFix t := by
  apply quoteCloseFix_nofire
  rintro ⟨ho, _⟩
  exact absurd ho (by decide)

theorem quoteCloseFix_out : ∀ (n : Nat) (s : List Char) (prev : Option Char),
    s.length ≤ n → allCh s = true → noDS s = true → F1ok prev s = true →
    F2ok prev s = true → F3ok prev s = true → noOpenWsW s = true →
    noDS (quoteCloseFix s) = true ∧ F1ok prev (quoteCloseFix s) = true ∧
    F2ok prev (quoteCloseFix s) = true ∧ F3ok prev (quoteCloseFix s) = true ∧
    G6ok (quoteCloseFix s) = true ∧ noAposWsW (quoteCloseFix s) = true ∧
    G8ok (quoteCloseFix s) = true ∧ (quoteCloseFix s).getLast? = s.getLast? := by
  intro n
  induction n with
  | zero =>
    intro s prev h1 _ _ _ _ _ _
    have hs : s = [] := List.eq_nil_of_length_eq_zero (by omega)
    subst hs
    exact ⟨rfl, rfl, rfl, rfl, rfl, rfl, rfl, rfl⟩
  | succ n ih =>
    intro s prev h1 hch hds hF1 hF2 hF3 hOW
    cases s with
    | nil => exact ⟨rfl, rfl, rfl, rfl, rfl, rfl, rfl, rfl⟩
    | cons c t =>
      simp only [List.length_cons] at h1
      obtain ⟨hc, hcht⟩ := allCh_step c t hch
      have hdsF := (noWin_step _ c t hds).1
      have hds2 := (noWin_step _ c t hds).2
      have hF1s := (noWinP_step _ _ _ prev c t hF1).2
      have hF2s := (noWinP_step _ _ _ prev c t hF2).2
      have hF3s := (noWinP_step _ _ _ prev c t hF3).2
      have hOWs := (noWin_step _ c t hOW).2
      rw [matchesPrefix_cons, matchesPrefix_one] at hdsF
      by_cases hfire : (isCloseDQ c = true ∧ Option.elim t.head? false isWordChar = true)
      · -- fire: closing double quote directly followed by a word char
        obtain ⟨ho, hw0⟩ := hfire
        cases t with
        | nil => simp at hw0
        | cons w z =>
          simp only [List.head?_cons, Option.elim] at hw0
          rw [quoteCloseFix_fire c w z ho hw0]
          obtain ⟨ih0, ih1, ih2, ih3, ih6, ih7, ih8, ih4⟩ :=
            ih z (some w) (by simp only [List.length_cons] at h1 ⊢; omega)
              (allCh_step w z hcht).2
              (noWin_step _ w _ hds2).2
              (noWinP_step _ _ _ _ w _ hF1s).2
              (noWinP_step _ _ _ _ w _ hF2s).2
              (noWinP_step _ _ _ _ w _ hF3s).2
              (noWin_step _ w _ hOWs).2
          have hcns : isSp c = false := closeDQ_not_sp c ho
          have hcnw : isWordChar c = false := closeDQ_not_word c ho
          have hcnq : isQuote1 c = false := closeDQ_not_q1 c ho
          have hwns : isSp w = false := word_not_isSp w hw0
          have hwnq : isQuote1 w = false := word_not_q1 w hw0
          refine ⟨?_, ?_, ?_, ?_, ?_, ?_, ?_, ?_⟩
          · refine noWin_intro _ _ _ ?_ (noWin_intro _ _ _ ?_ (noWin_intro _ _ _ ?_ ih0))
            · rw [matchesPrefix_cons]
              simp [hcns]
            · rw [matchesPrefix_cons, matchesPrefix_one]
              simp [hwns]
            · rw [matchesPrefix_cons]
              simp [hwns]
          · refine noWinP_intro _ _ _ _ _ _ ?_ (noWinP_intro _ _ _ _ _ _ ?_
              (noWinP_intro _ _ _ _ _ _ ?_ ih1))
            · rw [matchesPrefix_cons]
              simp [hcns]
            · simp [hcnw]
            · simp [show isWordChar ' ' = false from by decide]
          · refine noWinP_intro _ _ _ _ _ _ ?_ (noWinP_intro _ _ _ _ _ _ ?_
              (noWinP_intro _ _ _ _ _ _ ?_ ih2))
            · rw [matchesPrefix_cons, matchesPrefix_cons]
              simp [hcns]
            · simp [hcnw]
            · simp [show isWordChar ' ' = false from by decide]
          · refine noWinP_intro _ _ _ _ _ _ ?_ (noWinP_intro _ _ _ _ _ _ ?_
              (noWinP_intro _ _ _ _ _ _ ?_ ih3))
            · rw [matchesPrefix_cons]
              simp [hcnq]
            · simp [hcnw]
            · simp [show isWordChar ' ' = false from by decide]
          · refine noWin_intro _ _ _ ?_ (noWin_intro _ _ _ ?_ (noWin_intro _ _ _ ?_ ih6))
            · rw [matchesPrefix_cons]
              simp [closeDQ_not_lsqldq c ho]
            · rw [matchesPrefix_cons]
              simp [show isLsqLdq ' ' = false from by decide]
            · rw [matchesPrefix_cons]
              simp [word_not_lsqldq w hw0]
          · refine noWin_intro _ _ _ ?_ (noWin_intro _ _ _ ?_ (noWin_intro _ _ _ ?_ ih7))
            · rw [matchesPrefix_cons]
              simp [closeDQ_not_apos c ho]
            · rw [matchesPrefix_cons]
              simp [show isAposC ' ' = false from by decide]
            · rw [matchesPrefix_cons]
              simp [word_not_apos w hw0]
          · refine noWin_intro _ _ _ ?_ (noWin_intro _ _ _ ?_ (noWin_intro _ _ _ ?_ ih8))
            · rw [matchesPrefix_cons, matchesPrefix_one]
              simp [show isWordChar ' ' = false from by decide]
            · rw [matchesPrefix_cons]
              simp [show isCloseDQ ' ' = false from by decide]
            · rw [matchesPrefix_cons]
              simp [word_not_closeDQ w hw0]
          · rw [getLast?_cons_congr c (getLast?_cons_congr ' ' (getLast?_cons_congr w ih4))]
            simp only [List.getLast?_cons_cons]
      · -- no fire at c
        have hstep : quoteCloseFix (c :: t) = c :: quoteCloseFix t :=
          quoteCloseFix_nofire c t hfire
        rw [hstep]
        obtain ⟨ih0, ih1, ih2, ih3, ih6, ih7, ih8, ih4⟩ :=
          ih t (some c) (by omega) hcht hds2 hF1s hF2s hF3s hOWs
        have hhead : (quoteCloseFix t).head? = t.head? := quoteCloseFix_head t
        refine ⟨?_, ?_, ?_, ?_, ?_, ?_, ?_, getLast?_cons_congr c ih4⟩
        · refine noWin_intro _ _ _ ?_ ih0
          rw [matchesPrefix_cons, matchesPrefix_one, hhead]
          exact hdsF
        · -- F1 junction
          refine noWinP_intro _ _ _ _ _ _ ?_ ih1
          cases hpw : Option.elim prev false isWordChar with
          | false => simp
          | true =>
            simp only [Bool.true_and]
            rw [matchesPrefix_cons]
            cases hcsp : isSp c with
            | false => simp
            | true =>
              simp only [Bool.true_and]
              cases t with
              | nil => simp [matchesPrefix]
              | cons d t1 =>
                by_cases hdfire : (isCloseDQ d = true ∧
                    Option.elim t1.head? false isWordChar = true)
                · obtain ⟨hod, hw2⟩ := hdfire
                  cases t1 with
                  | nil => simp at hw2
                  | cons w t2 =>
                    simp only [List.head?_cons, Option.elim] at hw2
                    rw [quoteCloseFix_fire d w t2 hod hw2,
                      matchesPrefix_cons, matchesPrefix_one]
                    simp [show isWordChar ' ' = false from by decide]
                · rw [quoteCloseFix_nofire d t1 hdfire,
                    matchesPrefix_cons, matchesPrefix_one, quoteCloseFix_head t1]
                  cases hdq : isQuote1 d with
                  | false => simp [hdq]
                  | true =>
                    have := (noWinP_step _ _ _ prev c (d :: t1) hF1).1
                    rw [hpw] at this
                    simp only [Bool.true_and, matchesPrefix_cons,
                      matchesPrefix_one, matchesPrefix_nil] at this
                    simp only [hcsp, hdq, Bool.true_and] at this
                    simp [this]
        · -- F2 junction
          refine noWinP_intro _ _ _ _ _ _ ?_ ih2
          cases hpw : Option.elim prev false isWordChar with
          | false => simp
          | true =>
            simp only [Bool.true_and]
            rw [matchesPrefix_cons]
            cases hcsp : isSp c with
            | false => simp
            | true =>
              simp only [Bool.true_and]
              cases t with
              | nil => simp [matchesPrefix]
              | cons d t1 =>
                by_cases hdfire : (isCloseDQ d = true ∧
                    Option.elim t1.head? false isWordChar = true)
                · obtain ⟨hod, hw2⟩ := hdfire
                  cases t1 with
                  | nil => simp at hw2
                  | cons w t2 =>
                    simp only [List.head?_cons, Option.elim] at hw2
                    rw [quoteCloseFix_fire d w t2 hod hw2, matchesPrefix_cons]
                    simp [closeDQ_not_q1 d hod]
                · rw [quoteCloseFix_nofire d t1 hdfire, matchesPrefix_cons]
                  cases hdq : isQuote1 d with
                  | false => simp [hdq]
                  | true =>
                    simp only [hdq, Bool.true_and]
                    rw [matchesPrefix_two, quoteCloseFix_head t1]
                    cases t1 with
                    | nil => simp
                    | cons e t2 =>
                      simp only [List.head?_cons, Option.elim]
                      cases hesp : isSp e with
                      | false => simp
                      | true =>
                        have hesp2 : e = ' ' := by simpa [isSp] using hesp
                        subst hesp2
                        rw [quoteCloseFix_cons_sp t2]
                        simp only [List.tail_cons, Bool.true_and]
                        rw [quoteCloseFix_head t2]
                        have := (noWinP_step _ _ _ prev c (d :: ' ' :: t2) hF2).1
                        rw [hpw] at this
                        simp only [Bool.true_and, matchesPrefix_cons,
                          matchesPrefix_one, matchesPrefix_nil] at this
                        simpa [hcsp, hdq,
                          show isSp ' ' = true from by decide] using this
        · -- F3 junction
          refine noWinP_intro _ _ _ _ _ _ ?_ ih3
          cases hpw : Option.elim prev false isWordChar with
          | false => simp
          | true =>
            simp only [Bool.true_and]
            rw [matchesPrefix_cons]
            cases hcq : isQuote1 c with
            | false => simp
            | true =>
              simp only [Bool.true_and]
              rw [matchesPrefix_two, hhead]
              cases t with
              | nil => simp
              | cons e t1 =>
                simp only [List.head?_cons, Option.elim]
                cases hesp : isSp e with
                | false => simp
                | true =>
                  have hesp2 : e = ' ' := by simpa [isSp] using hesp
                  subst hesp2
                  rw [quoteCloseFix_cons_sp t1]
                  simp only [List.tail_cons, Bool.true_and]
                  rw [quoteCloseFix_head t1]
                  have := (noWinP_step _ _ _ prev c (' ' :: t1) hF3).1
                  rw [hpw] at this
                  simp only [Bool.true_and, matchesPrefix_cons,
                    matchesPrefix_one, matchesPrefix_nil] at this
                  simpa [hcq, show isSp ' ' = true from by decide] using this
        · -- G6 junction
          refine noWin_intro _ _ _ ?_ ih6
          rw [matchesPrefix_cons]
          cases hcl : isLsqLdq c with
          | false => simp
          | true =>
            simp only [Bool.true_and]
            rw [matchesPrefix_two, hhead]
            cases t with
            | nil => simp
            | cons e t1 =>
              simp only [List.head?_cons, Option.elim]
              cases hesp : isSp e with
              | false => simp
              | true =>
                have hesp2 : e = ' ' := by simpa [isSp] using hesp
                subst hesp2
                rw [quoteCloseFix_cons_sp t1]
                simp only [List.tail_cons, Bool.true_and]
                rw [quoteCloseFix_head t1]
                have := (noWin_step _ c (' ' :: t1) hOW).1
                simp only [matchesPrefix_cons, matchesPrefix_one,
                  matchesPrefix_nil] at this
                simpa [lsqldq_openQ c hcl,
                  show isSp ' ' = true from by decide] using this
        · -- apostrophe-space-word windows never appear either
          refine noWin_intro _ _ _ ?_ ih7
          rw [matchesPrefix_cons]
          cases hcl : isAposC c with
          | false => simp
          | true =>
            simp only [Bool.true_and]
            rw [matchesPrefix_two, hhead]
            cases t with
            | nil => simp
            | cons e t1 =>
              simp only [List.head?_cons, Option.elim]
              cases hesp : isSp e with
              | false => simp
              | true =>
                have hesp2 : e = ' ' := by simpa [isSp] using hesp
                subst hesp2
                rw [quoteCloseFix_cons_sp t1]
                simp only [List.tail_cons, Bool.true_and]
                rw [quoteCloseFix_head t1]
                have := (noWin_step _ c (' ' :: t1) hOW).1
                simp only [matchesPrefix_cons, matchesPrefix_one,
                  matchesPrefix_nil] at this
                simpa [aposC_openQ c hcl,
                  show isSp ' ' = true from by decide] using this
        · -- G8: the close-quote-word adjacency is exactly the fire condition
          refine noWin_intro _ _ _ ?_ ih8
          rw [matchesPrefix_cons, matchesPrefix_one, hhead]
          cases hcc : isCloseDQ c with
          | false => simp
          | true =>
            cases hw : Option.elim t.head? false isWordChar with
            | false => simp [hw]
            | true => exact absurd ⟨hcc, hw⟩ hfire
theorem punct_not_sp (c : Char) (h : isPunct c = true) : isSp c = false := by
  cases hs : isSp c with
  | false => rfl
  | true => exact absurd (sp_ws c hs) (by simp [punct_not_ws c h])

theorem punct_not_word (c : Char) (h : isPunct c = true) : isWordChar c = false := by
  cases hw : isWordChar c with
  | false => rfl
  | true => exact absurd (word_not_punct c hw) (by simp [h])

theorem punct_not_lsqldq (c : Char) (h : isPunct c = true) : isLsqLdq c = false := by
  cases hl : isLsqLdq c with
  | false => rfl
  | true => exact absurd (punct_not_openQ c h) (by simp [lsqldq_openQ c hl])

theorem punct_not_apos (c : Char) (h : isPunct c = true) : isAposC c = false := by
  cases hl : isAposC c with
  | false => rfl
  | true => exact absurd (punct_not_openQ c h) (by simp [aposC_openQ c hl])

theorem q1_not_lsqldq (c : Char) (h : isQuote1 c = true) : isLsqLdq c = false := by
  simp only [isQuote1, decide_eq_true_eq] at h
  rcases h with rfl | rfl <;> decide

theorem q1_not_punct (c : Char) (h : isQuote1 c = true) : isPunct c = false := by
  cases hp : isPunct c with
  | false => rfl
  | true => exact absurd (punct_not_q1 c hp) (by simp [h])

theorem q1_not_apos_or (c : Char) (h : isQuote1 c = true) :
    isAposC c = true ∨ c = rsqC := by
  simp only [isQuote1, decide_eq_true_eq] at h
  rcases h with rfl | rfl
  · exact Or.inr rfl
  · exact Or.inl (by simp [isAposC])

theorem aposPunctFix_cons_sp (t : List Char) :
    aposPunctFix (' ' :: t) = ' ' :: aposPunctFix t := by
  apply aposPunctFix_nofire
  rintro ⟨hp, _, _⟩
  exact absurd hp (by decide)

theorem aposPunctFix_out : ∀ (n : Nat) (s : List Char) (prev : Option Char),
    s.length ≤ n → allCh s = true → noDS s = true → F1ok prev s = true →
    F2ok prev s = true → F3ok prev s = true → G6ok s = true →
    noAposWsW s = true → G8ok s = true →
    noDS (aposPunctFix s) = true ∧ F1ok prev (aposPunctFix s) = true ∧
    F2ok prev (aposPunctFix s) = true ∧ F3ok prev (aposPunctFix s) = true ∧
    G6ok (aposPunctFix s) = true ∧ G7ok prev (aposPunctFix s) = true ∧
    G8ok (aposPunctFix s) = true ∧ G9ok (aposPunctFix s) = true ∧
    (aposPunctFix s).getLast? = s.getLast? := by
  intro n
  induction n with
  | zero =>
    intro s prev h1 _ _ _ _ _ _ _ _
    have hs : s = [] := List.eq_nil_of_length_eq_zero (by omega)
    subst hs
    exact ⟨rfl, rfl, rfl, rfl, rfl, rfl, rfl, rfl, rfl⟩
  | succ n ih =>
    intro s prev h1 hch hds hF1 hF2 hF3 hG6 hAW hG8
    cases s with
    | nil => exact ⟨rfl, rfl, rfl, rfl, rfl, rfl, rfl, rfl, rfl⟩
    | cons c t =>
      simp only [List.length_cons] at h1
      obtain ⟨hc, hcht⟩ := allCh_step c t hch
      have hdsF := (noWin_step _ c t hds).1
      have hds2 := (noWin_step _ c t hds).2
      have hF1s := (noWinP_step _ _ _ prev c t hF1).2
      have hF2s := (noWinP_step _ _ _ prev c t hF2).2
      have hF3s := (noWinP_step _ _ _ prev c t hF3).2
      have hG6s := (noWin_step _ c t hG6).2
      have hAWs := (noWin_step _ c t hAW).2
      have hG8s := (noWin_step _ c t hG8).2
      rw [matchesPrefix_cons, matchesPrefix_one] at hdsF
      by_cases hfire : (isPunct c = true ∧ Option.elim t.head? false isQuote1 = true ∧
          Option.elim t.tail.head? false isWordChar = true)
      · -- fire: punctuation, single quote, word char
        obtain ⟨ho, hq0, hw0⟩ := hfire
        cases t with
        | nil => simp at hq0
        | cons q t1 =>
          simp only [List.head?_cons, Option.elim] at hq0
          simp only [List.tail_cons] at hw0
          cases t1 with
          | nil => simp at hw0
          | cons w z =>
            simp only [List.head?_cons, Option.elim] at hw0
            rw [aposPunctFix_fire c q w z ho hq0 hw0]
            obtain ⟨ih0, ih1, ih2, ih3, ih6, ih7, ih8, ih9, ih4⟩ :=
              ih z (some w) (by simp only [List.length_cons] at h1 ⊢; omega)
                (allCh_step w z (allCh_step q _ hcht).2).2
                (noWin_step _ w _ (noWin_step _ q _ hds2).2).2
                (noWinP_step _ _ _ _ w _ (noWinP_step _ _ _ _ q _ hF1s).2).2
                (noWinP_step _ _ _ _ w _ (noWinP_step _ _ _ _ q _ hF2s).2).2
                (noWinP_step _ _ _ _ w _ (noWinP_step _ _ _ _ q _ hF3s).2).2
                (noWin_step _ w _ (noWin_step _ q _ hG6s).2).2
                (noWin_step _ w _ (noWin_step _ q _ hAWs).2).2
                (noWin_step _ w _ (noWin_step _ q _ hG8s).2).2
            have hcns : isSp c = false := punct_not_sp c ho
            have hcnw : isWordChar c = false := punct_not_word c ho
            have hcnq : isQuote1 c = false := punct_not_q1 c ho
            have hqns : isSp q = false := q1_not_sp q hq0
            have hqnw : isWordChar q = false := q1_not_word q hq0
            have hwns : isSp w = false := word_not_isSp w hw0
            refine ⟨?_, ?_, ?_, ?_, ?_, ?_, ?_, ?_, ?_⟩
            · refine noWin_intro _ _ _ ?_ (noWin_intro _ _ _ ?_ (noWin_intro _ _ _ ?_
                (noWin_intro _ _ _ ?_ ih0)))
              · rw [matchesPrefix_cons]
                simp [hcns]
              · rw [matchesPrefix_cons]
                simp [hqns]
              · rw [matchesPrefix_cons, matchesPrefix_one]
                simp [hwns]
              · rw [matchesPrefix_cons]
                simp [hwns]
            · refine noWinP_intro _ _ _ _ _ _ ?_ (noWinP_intro _ _ _ _ _ _ ?_
                (noWinP_intro _ _ _ _ _ _ ?_ (noWinP_intro _ _ _ _ _ _ ?_ ih1)))
              · rw [matchesPrefix_cons]
                simp [hcns]
              · simp [hcnw]
              · simp [hqnw]
              · simp [show isWordChar ' ' = false from by decide]
            · refine noWinP_intro _ _ _ _ _ _ ?_ (noWinP_intro _ _ _ _ _ _ ?_
                (noWinP_intro _ _ _ _ _ _ ?_ (noWinP_intro _ _ _ _ _ _ ?_ ih2)))
              · rw [matchesPrefix_cons]
                simp [hcns]
              · simp [hcnw]
              · simp [hqnw]
              · simp [show isWordChar ' ' = false from by decide]
            · refine noWinP_intro _ _ _ _ _ _ ?_ (noWinP_intro _ _ _ _ _ _ ?_
                (noWinP_intro _ _ _ _ _ _ ?_ (noWinP_intro _ _ _ _ _ _ ?_ ih3)))
              · rw [matchesPrefix_cons]
                simp [hcnq]
              · simp [hcnw]
              · simp [hqnw]
              · simp [show isWordChar ' ' = false from by decide]
            · refine noWin_intro _ _ _ ?_ (noWin_intro _ _ _ ?_ (noWin_intro _ _ _ ?_
                (noWin_intro _ _ _ ?_ ih6)))
              · rw [matchesPrefix_cons]
                simp [punct_not_lsqldq c ho]
              · rw [matchesPrefix_cons]
                simp [q1_not_lsqldq q hq0]
              · rw [matchesPrefix_cons]
                simp [show isLsqLdq ' ' = false from by decide]
              · rw [matchesPrefix_cons]
                simp [word_not_lsqldq w hw0]
            · refine noWinP_intro _ _ _ _ _ _ ?_ (noWinP_intro _ _ _ _ _ _ ?_
                (noWinP_intro _ _ _ _ _ _ ?_ (noWinP_intro _ _ _ _ _ _ ?_ ih7)))
              · rw [matchesPrefix_cons]
                simp [punct_not_apos c ho]
              · simp only [Option.elim, ho, Bool.not_true, Bool.false_and]
              · rw [matchesPrefix_cons]
                simp [show isAposC ' ' = false from by decide]
              · rw [matchesPrefix_cons]
                simp [word_not_apos w hw0]
            · refine noWin_intro _ _ _ ?_ (noWin_intro _ _ _ ?_ (noWin_intro _ _ _ ?_
                (noWin_intro _ _ _ ?_ ih8)))
              · rw [matchesPrefix_cons]
                simp [punct_not_closeDQ c ho]
              · rw [matchesPrefix_cons]
                simp [q1_not_closeDQ q hq0]
              · rw [matchesPrefix_cons]
                simp [show isCloseDQ ' ' = false from by decide]
              · rw [matchesPrefix_cons]
                simp [word_not_closeDQ w hw0]
            · refine noWin_intro _ _ _ ?_ (noWin_intro _ _ _ ?_ (noWin_intro _ _ _ ?_
                (noWin_intro _ _ _ ?_ ih9)))
              · rw [matchesPrefix_cons, matchesPrefix_cons, matchesPrefix_cons]
                simp [show isWordChar ' ' = false from by decide]
              · rw [matchesPrefix_cons]
                simp [q1_not_punct q hq0]
              · rw [matchesPrefix_cons]
                simp [show isPunct ' ' = false from by decide]
              · rw [matchesPrefix_cons]
                simp [word_not_punct w hw0]
            · rw [getLast?_cons_congr c (getLast?_cons_congr q
                (getLast?_cons_congr ' ' (getLast?_cons_congr w ih4)))]
              simp only [List.getLast?_cons_cons]
      · -- no fire at c
        have hstep : aposPunctFix (c :: t) = c :: aposPunctFix t :=
          aposPunctFix_nofire c t hfire
        rw [hstep]
        obtain ⟨ih0, ih1, ih2, ih3, ih6, ih7, ih8, ih9, ih4⟩ :=
          ih t (some c) (by omega) hcht hds2 hF1s hF2s hF3s hG6s hAWs hG8s
        have hhead : (aposPunctFix t).head? = t.head? := aposPunctFix_head t
        refine ⟨?_, ?_, ?_, ?_, ?_, ?_, ?_, ?_, getLast?_cons_congr c ih4⟩
        · refine noWin_intro _ _ _ ?_ ih0
          rw [matchesPrefix_cons, matchesPrefix_one, hhead]
          exact hdsF
        · -- F1 junction
          refine noWinP_intro _ _ _ _ _ _ ?_ ih1
          cases hpw : Option.elim prev false isWordChar with
          | false => simp
          | true =>
            simp only [Bool.true_and]
            rw [matchesPrefix_cons]
            cases hcsp : isSp c with
            | false => simp
            | true =>
              simp only [Bool.true_and]
              cases t with
              | nil => simp [matchesPrefix]
              | cons d t1 =>
                by_cases hdfire : (isPunct d = true ∧
                    Option.elim t1.head? false isQuote1 = true ∧
                    Option.elim t1.tail.head? false isWordChar = true)
                · obtain ⟨hod, hq2, hw2⟩ := hdfire
                  cases t1 with
                  | nil => simp at hq2
                  | cons q t2 =>
                    simp only [List.head?_cons, Option.elim] at hq2
                    simp only [List.tail_cons] at hw2
                    cases t2 with
                    | nil => simp at hw2
                    | cons w z =>
                      simp only [List.head?_cons, Option.elim] at hw2
                      rw [aposPunctFix_fire d q w z hod hq2 hw2,
                        matchesPrefix_cons]
                      simp [punct_not_q1 d hod]
                · rw [aposPunctFix_nofire d t1 hdfire,
                    matchesPrefix_cons, matchesPrefix_one, aposPunctFix_head t1]
                  cases hdq : isQuote1 d with
                  | false => simp [hdq]
                  | true =>
                    have := (noWinP_step _ _ _ prev c (d :: t1) hF1).1
                    rw [hpw] at this
                    simp only [Bool.true_and, matchesPrefix_cons,
                      matchesPrefix_one, matchesPrefix_nil] at this
                    simp only [hcsp, hdq, Bool.true_and] at this
                    simp [this]
        · -- F2 junction
          refine noWinP_intro _ _ _ _ _ _ ?_ ih2
          cases hpw : Option.elim prev false isWordChar with
          | false => simp
          | true =>
            simp only [Bool.true_and]
            rw [matchesPrefix_cons]
            cases hcsp : isSp c with
            | false => simp
            | true =>
              simp only [Bool.true_and]
              cases t with
              | nil => simp [matchesPrefix]
              | cons d t1 =>
                by_cases hdfire : (isPunct d = true ∧
                    Option.elim t1.head? false isQuote1 = true ∧
                    Option.elim t1.tail.head? false isWordChar = true)
                · obtain ⟨hod, hq2, hw2⟩ := hdfire
                  cases t1 with
                  | nil => simp at hq2
                  | cons q t2 =>
                    simp only [List.head?_cons, Option.elim] at hq2
                    simp only [List.tail_cons] at hw2
                    cases t2 with
                    | nil => simp at hw2
                    | cons w z =>
                      simp only [List.head?_cons, Option.elim] at hw2
                      rw [aposPunctFix_fire d q w z hod hq2 hw2,
                        matchesPrefix_cons]
                      simp [punct_not_q1 d hod]
                · rw [aposPunctFix_nofire d t1 hdfire, matchesPrefix_cons]
                  cases hdq : isQuote1 d with
                  | false => simp [hdq]
                  | true =>
                    simp only [hdq, Bool.true_and]
                    rw [matchesPrefix_two, aposPunctFix_head t1]
                    cases t1 with
                    | nil => simp
                    | cons e t2 =>
                      simp only [List.head?_cons, Option.elim]
                      cases hesp : isSp e with
                      | false => simp
                      | true =>
                        have hesp2 : e = ' ' := by simpa [isSp] using hesp
                        subst hesp2
                        rw [aposPunctFix_cons_sp t2]
                        simp only [List.tail_cons, Bool.true_and]
                        rw [aposPunctFix_head t2]
                        have := (noWinP_step _ _ _ prev c (d :: ' ' :: t2) hF2).1
                        rw [hpw] at this
                        simp only [Bool.true_and, matchesPrefix_cons,
                          matchesPrefix_one, matchesPrefix_nil] at this
                        simpa [hcsp, hdq,
                          show isSp ' ' = true from by decide] using this
        · -- F3 junction
          refine noWinP_intro _ _ _ _ _ _ ?_ ih3
          cases hpw : Option.elim prev false isWordChar with
          | false => simp
          | true =>
            simp only [Bool.true_and]
            rw [matchesPrefix_cons]
            cases hcq : isQuote1 c with
            | false => simp
            | true =>
              simp only [Bool.true_and]
              rw [matchesPrefix_two, hhead]
              cases t with
              | nil => simp
              | cons e t1 =>
                simp only [List.head?_cons, Option.elim]
                cases hesp : isSp e with
                | false => simp
                | true =>
                  have hesp2 : e = ' ' := by simpa [isSp] using hesp
                  subst hesp2
                  rw [aposPunctFix_cons_sp t1]
                  simp only [List.tail_cons, Bool.true_and]
                  rw [aposPunctFix_head t1]
                  have := (noWinP_step _ _ _ prev c (' ' :: t1) hF3).1
                  rw [hpw] at this
                  simp only [Bool.true_and, matchesPrefix_cons,
                    matchesPrefix_one, matchesPrefix_nil] at this
                  simpa [hcq, show isSp ' ' = true from by decide] using this
        · -- G6 junction
          refine noWin_intro _ _ _ ?_ ih6
          rw [matchesPrefix_cons]
          cases hcl : isLsqLdq c with
          | false => simp
          | true =>
            simp only [Bool.true_and]
            rw [matchesPrefix_two, hhead]
            cases t with
            | nil => simp
            | cons e t1 =>
              simp only [List.head?_cons, Option.elim]
              cases hesp : isSp e with
              | false => simp
              | true =>
                have hesp2 : e = ' ' := by simpa [isSp] using hesp
                subst hesp2
                rw [aposPunctFix_cons_sp t1]
                simp only [List.tail_cons, Bool.true_and]
                rw [aposPunctFix_head t1]
                have := (noWin_step _ c (' ' :: t1) hG6).1
                simp only [matchesPrefix_cons, matchesPrefix_one,
                  matchesPrefix_nil] at this
                simpa [hcl, show isSp ' ' = true from by decide] using this
        · -- G7: any apostrophe-space-word window in the output is punct-preceded
          refine noWinP_intro _ _ _ _ _ _ ?_ ih7
          cases hg : Option.elim prev true (fun c => !isPunct c) with
          | false => simp [hg]
          | true =>
            simp only [hg, Bool.true_and]
            rw [matchesPrefix_cons]
            cases hca : isAposC c with
            | false => simp
            | true =>
              simp only [Bool.true_and]
              rw [matchesPrefix_two, hhead]
              cases t with
              | nil => simp
              | cons e t1 =>
                simp only [List.head?_cons, Option.elim]
                cases hesp : isSp e with
                | false => simp
                | true =>
                  have hesp2 : e = ' ' := by simpa [isSp] using hesp
                  subst hesp2
                  rw [aposPunctFix_cons_sp t1]
                  simp only [List.tail_cons, Bool.true_and]
                  rw [aposPunctFix_head t1]
                  have := (noWin_step _ c (' ' :: t1) hAW).1
                  simp only [matchesPrefix_cons, matchesPrefix_one,
                    matchesPrefix_nil] at this
                  simpa [hca, show isSp ' ' = true from by decide] using this
        · -- G8 junction
          refine noWin_intro _ _ _ ?_ ih8
          rw [matchesPrefix_cons, matchesPrefix_one, hhead]
          have := (noWin_step _ c t hG8).1
          rw [matchesPrefix_cons, matchesPrefix_one] at this
          exact this
        · -- G9: a punct-quote-word triple here is exactly the fire condition
          refine noWin_intro _ _ _ ?_ ih9
          rw [matchesPrefix_cons]
          cases hcp : isPunct c with
          | false => simp
          | true =>
            simp only [Bool.true_and]
            rw [matchesPrefix_two, hhead]
            cases t with
            | nil => simp
            | cons d t1 =>
              simp only [List.head?_cons, Option.elim]
              cases hdq : isQuote1 d with
              | false => simp
              | true =>
                simp only [Bool.true_and]
                have hstep2 : aposPunctFix (d :: t1) = d :: aposPunctFix t1 := by
                  apply aposPunctFix_nofire
                  rintro ⟨hp, _, _⟩
                  rw [q1_not_punct d hdq] at hp
                  exact Bool.noConfusion hp
                rw [hstep2]
                simp only [List.tail_cons]
                rw [aposPunctFix_head t1]
                cases hw : Option.elim t1.head? false isWordChar with
                | false => exact hw
                | true =>
                  exfalso
                  apply hfire
                  refine ⟨hcp, ?_, ?_⟩
                  · simp [hdq]
                  · simpa using hw
theorem punctSpaceFixF_irrel :
    ∀ (n : Nat) (s : List Char) (f1 f2 : Nat), s.length ≤ n → s.length ≤ f1 →
      s.length ≤ f2 → punctSpaceFixF f1 s = punctSpaceFixF f2 s := by
  intro n
  induction n with
  | zero =>
    intro s f1 f2 h1 _ _
    have hs : s = [] := List.eq_nil_of_length_eq_zero (by omega)
    subst hs
    cases f1 <;> cases f2 <;> rfl
  | succ n ih =>
    intro s f1 f2 h1 hf1 hf2
    cases s with
    | nil => cases f1 <;> cases f2 <;> rfl
    | cons c cs =>
      simp only [List.length_cons] at h1 hf1 hf2
      match f1, f2, hf1, hf2 with
      | a + 1, b + 1, _, _ =>
        rw [punctSpaceFixF_succ, punctSpaceFixF_succ]
        simp only [List.head?_cons, Option.elim, List.tail_cons]
        have hstep : punctSpaceFixF a cs = punctSpaceFixF b cs :=
          ih cs a b (by omega) (by omega) (by omega)
        by_cases hcond : wsChar c = true
        · rw [if_pos hcond, if_pos hcond]
          have hdw : (c :: cs).dropWhile wsChar = cs.dropWhile wsChar := by
            rw [List.dropWhile_cons, if_pos hcond]
          rw [hdw]
          cases hr : (cs.dropWhile wsChar).head? with
          | none => simp only [Option.elim, hstep]
          | some p =>
            simp only [Option.elim]
            by_cases hp : isPunct p = true
            · have hdl : (cs.dropWhile wsChar).length ≤ cs.length :=
                (List.dropWhile_sublist _).length_le
              have htl : (cs.dropWhile wsChar).tail.length ≤ cs.length := by
                have := List.length_tail (cs.dropWhile wsChar)
                omega
              rw [if_pos hp, if_pos hp,
                ih (cs.dropWhile wsChar).tail a b (by omega) (by omega) (by omega)]
            · rw [if_neg hp, if_neg hp, hstep]
        · rw [if_neg hcond, if_neg hcond, hstep]

theorem punctSpaceFix_fire_sp (p : Char) (z : List Char) (hp : isPunct p = true) :
    punctSpaceFix (' ' :: p :: z) = p :: punctSpaceFix z := by
  show punctSpaceFixF (z.length + 2) (' ' :: p :: z) = p :: punctSpaceFix z
  rw [punctSpaceFixF_succ]
  simp only [List.head?_cons, Option.elim, List.tail_cons]
  rw [if_pos (by decide)]
  have hdw : (' ' :: p :: z).dropWhile wsChar = p :: z := by
    rw [List.dropWhile_cons, if_pos (by decide), List.dropWhile_cons,
      if_neg (by simp [punct_not_ws p hp])]
  rw [hdw]
  simp only [List.head?_cons, Option.elim, List.tail_cons]
  rw [if_pos hp]
  rw [punctSpaceFixF_irrel z.length z (z.length + 1) z.length (Nat.le_refl _)
    (by omega) (Nat.le_refl _)]
  rfl

theorem punctSpaceFix_cons_notws (e : Char) (t : List Char) (h : wsChar e = false) :
    punctSpaceFix (e :: t) = e :: punctSpaceFix t := by
  apply punctSpaceFix_nofire
  rintro ⟨hw, _⟩
  rw [h] at hw
  exact Bool.noConfusion hw

theorem punctSpaceFix_step_cases (e : Char) (t2 : List Char)
    (hch : allCh (e :: t2) = true) (hds : noDS (e :: t2) = true) :
    punctSpaceFix (e :: t2) = e :: punctSpaceFix t2 ∨
    (e = ' ' ∧ ∃ p z, t2 = p :: z ∧ isPunct p = true ∧
      punctSpaceFix (e :: t2) = p :: punctSpaceFix z) := by
  by_cases hw : wsChar e = true
  · have hesp : e = ' ' := sp_chOk e (allCh_step e t2 hch).1 hw
    subst hesp
    have hh : Option.elim t2.head? false isSp = false := by
      have := (noWin_step _ ' ' t2 hds).1
      rw [matchesPrefix_cons, matchesPrefix_one] at this
      simpa [show isSp ' ' = true from by decide] using this
    have hdw : t2.dropWhile wsChar = t2 :=
      dropWhile_ws_eq_self_of_noDS t2 (allCh_step ' ' t2 hch).2 hh
    cases hp : Option.elim t2.head? false isPunct with
    | false =>
      left
      apply punctSpaceFix_nofire
      rintro ⟨_, hp2⟩
      rw [hdw] at hp2
      rw [hp] at hp2
      exact Bool.noConfusion hp2
    | true =>
      right
      cases t2 with
      | nil => simp at hp
      | cons p z =>
        simp only [List.head?_cons, Option.elim] at hp
        exact ⟨rfl, p, z, rfl, hp, punctSpaceFix_fire_sp p z hp⟩
  · exact Or.inl (punctSpaceFix_cons_notws e t2 (by simpa using hw))

theorem psf_matchesPrefix : ∀ (n : Nat) (ps : List (Char → Bool)),
    (∀ p ∈ ps, ∀ x, isPunct x = true → p x = false) →
    ∀ (t : List Char), t.length ≤ n → allCh t = true → noDS t = true →
    matchesPrefix ps (punctSpaceFix t) = true → matchesPrefix ps t = true := by
  intro n
  induction n with
  | zero =>
    intro ps hP t h1 _ _ hm
    have hs : t = [] := List.eq_nil_of_length_eq_zero (by omega)
    subst hs
    exact hm
  | succ n ih =>
    intro ps hP t h1 hch hds hm
    cases t with
    | nil => exact hm
    | cons e t2 =>
      simp only [List.length_cons] at h1
      rcases punctSpaceFix_step_cases e t2 hch hds with hstep | ⟨hesp, p, z, hz, hp, hstep⟩
      · rw [hstep] at hm
        cases ps with
        | nil => rfl
        | cons q qs =>
          rw [matchesPrefix_cons, Bool.and_eq_true] at hm ⊢
          exact ⟨hm.1, ih qs (fun r hr => hP r (List.mem_cons_of_mem _ hr)) t2
            (by omega) (allCh_step e t2 hch).2 (noWin_step _ e t2 hds).2 hm.2⟩
      · subst hz
        rw [hstep] at hm
        cases ps with
        | nil => rfl
        | cons q qs =>
          rw [matchesPrefix_cons, Bool.and_eq_true] at hm
          exact absurd hm.1 (by simp [hP q (by simp) p hp])

theorem psf_disj_sp : ∀ p ∈ [isSp], ∀ x : Char, isPunct x = true → p x = false := by
  intro p hp x hx
  rcases List.mem_cons.mp hp with rfl | hp
  · exact punct_not_sp x hx
  · simp at hp

theorem psf_disj_w : ∀ p ∈ [isWordChar], ∀ x : Char, isPunct x = true → p x = false := by
  intro p hp x hx
  rcases List.mem_cons.mp hp with rfl | hp
  · exact punct_not_word x hx
  · simp at hp

theorem psf_disj_qw :
    ∀ p ∈ [isQuote1, isWordChar], ∀ x : Char, isPunct x = true → p x = false := by
  intro p hp x hx
  rcases List.mem_cons.mp hp with rfl | hp
  · exact punct_not_q1 x hx
  rcases List.mem_cons.mp hp with rfl | hp
  · exact punct_not_word x hx
  · simp at hp

theorem psf_disj_sw :
    ∀ p ∈ [isSp, isWordChar], ∀ x : Char, isPunct x = true → p x = false := by
  intro p hp x hx
  rcases List.mem_cons.mp hp with rfl | hp
  · exact punct_not_sp x hx
  rcases List.mem_cons.mp hp with rfl | hp
  · exact punct_not_word x hx
  · simp at hp

theorem psf_disj_qsw :
    ∀ p ∈ [isQuote1, isSp, isWordChar], ∀ x : Char, isPunct x = true → p x = false := by
  intro p hp x hx
  rcases List.mem_cons.mp hp with rfl | hp
  · exact punct_not_q1 x hx
  rcases List.mem_cons.mp hp with rfl | hp
  · exact punct_not_sp x hx
  rcases List.mem_cons.mp hp with rfl | hp
  · exact punct_not_word x hx
  · simp at hp

theorem punctSpaceFix_out : ∀ (n : Nat) (s : List Char) (prev : Option Char),
    s.length ≤ n → allCh s = true → noDS s = true → F1ok prev s = true →
    F2ok prev s = true → F3ok prev s = true → G6ok s = true → G7ok prev s = true →
    G8ok s = true → G9ok s = true →
    noDS (punctSpaceFix s) = true ∧ F1ok prev (punctSpaceFix s) = true ∧
    F2ok prev (punctSpaceFix s) = true ∧ F3ok prev (punctSpaceFix s) = true ∧
    G6ok (punctSpaceFix s) = true ∧ G7ok prev (punctSpaceFix s) = true ∧
    G8ok (punctSpaceFix s) = true ∧ G9ok (punctSpaceFix s) = true ∧
    noSpacePunct (punctSpaceFix s) = true ∧
    (punctSpaceFix s).getLast? = s.getLast? := by
  intro n
  induction n with
  | zero =>
    intro s prev h1 _ _ _ _ _ _ _ _ _
    have hs : s = [] := List.eq_nil_of_length_eq_zero (by omega)
    subst hs
    exact ⟨rfl, rfl, rfl, rfl, rfl, rfl, rfl, rfl, rfl, rfl⟩
  | succ n ih =>
    intro s prev h1 hch hds hF1 hF2 hF3 hG6 hG7 hG8 hG9
    cases s with
    | nil => exact ⟨rfl, rfl, rfl, rfl, rfl, rfl, rfl, rfl, rfl, rfl⟩
    | cons c t =>
      simp only [List.length_cons] at h1
      obtain ⟨hc, hcht⟩ := allCh_step c t hch
      have hdsF := (noWin_step _ c t hds).1
      have hds2 := (noWin_step _ c t hds).2
      have hF1s := (noWinP_step _ _ _ prev c t hF1).2
      have hF2s := (noWinP_step _ _ _ prev c t hF2).2
      have hF3s := (noWinP_step _ _ _ prev c t hF3).2
      have hG6s := (noWin_step _ c t hG6).2
      have hG7s := (noWinP_step _ _ _ prev c t hG7).2
      have hG8s := (noWin_step _ c t hG8).2
      have hG9s := (noWin_step _ c t hG9).2
      rcases punctSpaceFix_step_cases c t hch hds with hstep | ⟨hcsp, p, z, hz, hp, hstep⟩
      · -- no deletion at c
        rw [hstep]
        obtain ⟨ih0, ih1, ih2, ih3, ih6, ih7, ih8, ih9, ihS, ih4⟩ :=
          ih t (some c) (by omega) hcht hds2 hF1s hF2s hF3s hG6s hG7s hG8s hG9s
        refine ⟨?_, ?_, ?_, ?_, ?_, ?_, ?_, ?_, ?_, getLast?_cons_congr c ih4⟩
        · refine noWin_intro _ _ _ ?_ ih0
          rw [matchesPrefix_cons]
          cases hp0 : isSp c with
          | false => simp
          | true =>
            simp only [Bool.true_and]
            cases hm : matchesPrefix [isSp] (punctSpaceFix t) with
            | false => rfl
            | true =>
              exfalso
              have h2 := psf_matchesPrefix t.length [isSp] psf_disj_sp t
                (Nat.le_refl _) hcht hds2 hm
              have := (noWin_step _ c t hds).1
              rw [matchesPrefix_cons, hp0, h2] at this
              simp at this
        · refine noWinP_intro _ _ _ _ _ _ ?_ ih1
          cases hpw : Option.elim prev false isWordChar with
          | false => simp
          | true =>
            simp only [Bool.true_and]
            rw [matchesPrefix_cons]
            cases hp0 : isSp c with
            | false => simp
            | true =>
              simp only [Bool.true_and]
              cases hm : matchesPrefix [isQuote1, isWordChar] (punctSpaceFix t) with
              | false => rfl
              | true =>
                exfalso
                have h2 := psf_matchesPrefix t.length [isQuote1, isWordChar] psf_disj_qw t
                  (Nat.le_refl _) hcht hds2 hm
                have := (noWinP_step _ _ _ prev c t hF1).1
                rw [hpw, matchesPrefix_cons, hp0, h2] at this
                simp at this
        · refine noWinP_intro _ _ _ _ _ _ ?_ ih2
          cases hpw : Option.elim prev false isWordChar with
          | false => simp
          | true =>
            simp only [Bool.true_and]
            rw [matchesPrefix_cons]
            cases hp0 : isSp c with
            | false => simp
            | true =>
              simp only [Bool.true_and]
              cases hm : matchesPrefix [isQuote1, isSp, isWordChar] (punctSpaceFix t) with
              | false => rfl
              | true =>
                exfalso
                have h2 := psf_matchesPrefix t.length [isQuote1, isSp, isWordChar] psf_disj_qsw
                  t (Nat.le_refl _) hcht hds2 hm
                have := (noWinP_step _ _ _ prev c t hF2).1
                rw [hpw, matchesPrefix_cons, hp0, h2] at this
                simp at this
        · refine noWinP_intro _ _ _ _ _ _ ?_ ih3
          cases hpw : Option.elim prev false isWordChar with
          | false => simp
          | true =>
            simp only [Bool.true_and]
            rw [matchesPrefix_cons]
            cases hp0 : isQuote1 c with
            | false => simp
            | true =>
              simp only [Bool.true_and]
              cases hm : matchesPrefix [isSp, isWordChar] (punctSpaceFix t) with
              | false => rfl
              | true =>
                exfalso
                have h2 := psf_matchesPrefix t.length [isSp, isWordChar] psf_disj_sw t
                  (Nat.le_refl _) hcht hds2 hm
                have := (noWinP_step _ _ _ prev c t hF3).1
                rw [hpw, matchesPrefix_cons, hp0, h2] at this
                simp at this
        · refine noWin_intro _ _ _ ?_ ih6
          rw [matchesPrefix_cons]
          cases hp0 : isLsqLdq c with
          | false => simp
          | true =>
            simp only [Bool.true_and]
            cases hm : matchesPrefix [isSp, isWordChar] (punctSpaceFix t) with
            | false => rfl
            | true =>
              exfalso
              have h2 := psf_matchesPrefix t.length [isSp, isWordChar] psf_disj_sw t
                (Nat.le_refl _) hcht hds2 hm
              have := (noWin_step _ c t hG6).1
              rw [matchesPrefix_cons, hp0, h2] at this
              simp at this
        · refine noWinP_intro _ _ _ _ _ _ ?_ ih7
          cases hpw : Option.elim prev true (fun x => !isPunct x) with
          | false => simp [hpw]
          | true =>
            simp only [hpw, Bool.true_and]
            rw [matchesPrefix_cons]
            cases hp0 : isAposC c with
            | false => simp
            | true =>
              simp only [Bool.true_and]
              cases hm : matchesPrefix [isSp, isWordChar] (punctSpaceFix t) with
              | false => rfl
              | true =>
                exfalso
                have h2 := psf_matchesPrefix t.length [isSp, isWordChar] psf_disj_sw t
                  (Nat.le_refl _) hcht hds2 hm
                have := (noWinP_step _ _ _ prev c t hG7).1
                rw [hpw, matchesPrefix_cons, hp0, h2] at this
                simp at this
        · refine noWin_intro _ _ _ ?_ ih8
          rw [matchesPrefix_cons]
          cases hp0 : isCloseDQ c with
          | false => simp
          | true =>
            simp only [Bool.true_and]
            cases hm : matchesPrefix [isWordChar] (punctSpaceFix t) with
            | false => rfl
            | true =>
              exfalso
              have h2 := psf_matchesPrefix t.length [isWordChar] psf_disj_w t
                (Nat.le_refl _) hcht hds2 hm
              have := (noWin_step _ c t hG8).1
              rw [matchesPrefix_cons, hp0, h2] at this
              simp at this
        · refine noWin_intro _ _ _ ?_ ih9
          rw [matchesPrefix_cons]
          cases hp0 : isPunct c with
          | false => simp
          | true =>
            simp only [Bool.true_and]
            cases hm : matchesPrefix [isQuote1, isWordChar] (punctSpaceFix t) with
            | false => rfl
            | true =>
              exfalso
              have h2 := psf_matchesPrefix t.length [isQuote1, isWordChar] psf_disj_qw t
                (Nat.le_refl _) hcht hds2 hm
              have := (noWin_step _ c t hG9).1
              rw [matchesPrefix_cons, hp0, h2] at this
              simp at this
        · -- no space-before-punct remains
          refine noWin_intro _ _ _ ?_ ihS
          rw [matchesPrefix_cons]
          cases hp0 : isSp c with
          | false => simp
          | true =>
            simp only [Bool.true_and]
            have hcsp : c = ' ' := by simpa [isSp] using hp0
            rw [matchesPrefix_one]
            cases t with
            | nil => rfl
            | cons d t1 =>
              have hdns : wsChar d = false := by
                cases hdw : wsChar d with
                | false => rfl
                | true =>
                  exfalso
                  have hdsp : d = ' ' := sp_chOk d (allCh_step d t1 hcht).1 hdw
                  subst hdsp
                  have := (noWin_step _ c (' ' :: t1) hds).1
                  rw [matchesPrefix_cons, matchesPrefix_one] at this
                  simp [hp0, show isSp ' ' = true from by decide] at this
              rw [punctSpaceFix_cons_notws d t1 hdns]
              simp only [List.head?_cons, Option.elim]
              cases hdp : isPunct d with
              | false => rfl
              | true =>
                exfalso
                -- the space-punct pair would have fired at c
                have : punctSpaceFix (c :: d :: t1) = d :: punctSpaceFix t1 := by
                  subst hcsp
                  exact punctSpaceFix_fire_sp d t1 hdp
                rw [hstep, punctSpaceFix_cons_notws d t1 hdns] at this
                have hne : c ≠ d := by
                  intro he
                  rw [he] at hp0
                  exact absurd (punct_not_sp d hdp) (by simp [hp0])
                exact hne (List.head_eq_of_cons_eq this)
      · -- deletion: c is a space and punctuation follows
        subst hcsp hz
        rw [hstep]
        obtain ⟨ih0, ih1, ih2, ih3, ih6, ih7, ih8, ih9, ihS, ih4⟩ :=
          ih z (some p) (by simp only [List.length_cons] at h1 ⊢; omega)
            (allCh_step p z hcht).2
            (noWin_step _ p _ hds2).2
            (noWinP_step _ _ _ _ p _ hF1s).2
            (noWinP_step _ _ _ _ p _ hF2s).2
            (noWinP_step _ _ _ _ p _ hF3s).2
            (noWin_step _ p _ hG6s).2
            (noWinP_step _ _ _ _ p _ hG7s).2
            (noWin_step _ p _ hG8s).2
            (noWin_step _ p _ hG9s).2
        have hpns : isSp p = false := punct_not_sp p hp
        have hpnq : isQuote1 p = false := punct_not_q1 p hp
        have hpnw : isWordChar p = false := punct_not_word p hp
        refine ⟨?_, ?_, ?_, ?_, ?_, ?_, ?_, ?_, ?_, ?_⟩
        · refine noWin_intro _ _ _ ?_ ih0
          rw [matchesPrefix_cons]
          simp [hpns]
        · refine noWinP_intro _ _ _ _ _ _ ?_ ih1
          rw [matchesPrefix_cons]
          simp [hpns]
        · refine noWinP_intro _ _ _ _ _ _ ?_ ih2
          rw [matchesPrefix_cons]
          simp [hpns]
        · refine noWinP_intro _ _ _ _ _ _ ?_ ih3
          rw [matchesPrefix_cons]
          simp [hpnq]
        · refine noWin_intro _ _ _ ?_ ih6
          rw [matchesPrefix_cons]
          simp [punct_not_lsqldq p hp]
        · refine noWinP_intro _ _ _ _ _ _ ?_ ih7
          rw [matchesPrefix_cons]
          simp [punct_not_apos p hp]
        · refine noWin_intro _ _ _ ?_ ih8
          rw [matchesPrefix_cons]
          simp [punct_not_closeDQ p hp]
        · refine noWin_intro _ _ _ ?_ ih9
          rw [matchesPrefix_cons]
          cases hm : matchesPrefix [isQuote1, isWordChar] (punctSpaceFix z) with
          | false => simp [hm]
          | true =>
            exfalso
            have h2 := psf_matchesPrefix z.length [isQuote1, isWordChar] psf_disj_qw z
              (Nat.le_refl _) (allCh_step p z hcht).2 (noWin_step _ p _ hds2).2 hm
            have := (noWin_step _ p z hG9s).1
            rw [matchesPrefix_cons, h2] at this
            simp [hp] at this
        · refine noWin_intro _ _ _ ?_ ihS
          rw [matchesPrefix_cons]
          simp [hpns]
        · rw [getLast?_cons_congr p ih4]
          simp only [List.getLast?_cons_cons]
theorem replaceAllF_single_absent (c0 : Char) (rep : List Char) (hr : c0 ∉ rep) :
    ∀ (fuel : Nat) (s : List Char), s.length ≤ fuel →
      c0 ∉ replaceAllF fuel [c0] rep s := by
  intro fuel
  induction fuel with
  | zero =>
    intro s h1 hmem
    have hs : s = [] := List.eq_nil_of_length_eq_zero (by omega)
    subst hs
    exact absurd hmem (by simp [replaceAllF])
  | succ fuel ih =>
    intro s h1 hmem
    cases s with
    | nil => exact absurd hmem (by simp [replaceAllF, Option.elim])
    | cons c t =>
      simp only [List.length_cons] at h1
      rw [show replaceAllF (fuel + 1) [c0] rep (c :: t) =
        (if [c0].isPrefixOf (c :: t) ∧ [c0] ≠ [] then
          rep ++ replaceAllF fuel [c0] rep ((c :: t).drop 1)
        else c :: replaceAllF fuel [c0] rep t) from rfl] at hmem
      by_cases hpre : ([c0].isPrefixOf (c :: t) ∧ [c0] ≠ [])
      · rw [if_pos hpre] at hmem
        rcases List.mem_append.mp hmem with h2 | h2
        · exact hr h2
        · exact ih ((c :: t).drop 1) (by simp; omega) h2
      · rw [if_neg hpre] at hmem
        rcases List.mem_cons.mp hmem with rfl | h2
        · exact hpre ⟨by simp [List.isPrefixOf], by simp⟩
        · exact ih t (by omega) h2

theorem starSubF_no_star :
    ∀ (n : Nat) (s : List Char) (fuel : Nat), s.length ≤ n → s.length ≤ fuel →
      '*' ∉ starSubF fuel s := by
  intro n
  induction n with
  | zero =>
    intro s fuel h1 _ hmem
    have hs : s = [] := List.eq_nil_of_length_eq_zero (by omega)
    subst hs
    cases fuel <;> exact absurd hmem (by simp [starSubF, Option.elim])
  | succ n ih =>
    intro s fuel h1 hf hmem
    cases s with
    | nil => cases fuel <;> exact absurd hmem (by simp [starSubF, Option.elim])
    | cons c t =>
      simp only [List.length_cons] at h1 hf
      match fuel, hf with
      | fuel + 1, _ =>
        rw [show starSubF (fuel + 1) (c :: t) =
          (if c = '*' then starSubF fuel ((c :: t).dropWhile (fun d => d = '*'))
          else c :: starSubF fuel t) from rfl] at hmem
        by_cases hc : c = '*'
        · rw [if_pos hc] at hmem
          have hdl : ((c :: t).dropWhile (fun d => d = '*')).length ≤ t.length := by
            rw [List.dropWhile_cons, if_pos (by simp [hc])]
            exact (List.dropWhile_sublist _).length_le
          exact ih _ fuel (by omega) (by omega) hmem
        · rw [if_neg hc] at hmem
          rcases List.mem_cons.mp hmem with he | h2
          · exact hc he.symm
          · exact ih t fuel (by omega) (by omega) h2

theorem punctSpaceFix_nil : punctSpaceFix [] = [] := rfl

theorem punctSpaceFix_head_of_nonws (x : List Char)
    (hx : ∀ c, x.head? = some c → wsChar c = false) :
    ∀ c, (punctSpaceFix x).head? = some c → wsChar c = false := by
  cases x with
  | nil =>
    intro c hc
    rw [punctSpaceFix_nil] at hc
    exact absurd hc (by simp)
  | cons c t =>
    have hwc : wsChar c = false := hx c rfl
    rw [punctSpaceFix_cons_notws c t hwc]
    intro d hd
    simp only [List.head?_cons, Option.some.injEq] at hd
    rw [← hd]
    exact hwc

theorem stage0_invariants (u : List Char)
    (hb : '\\' ∉ u) (hp : '|' ∉ u) (hs : '*' ∉ u) (hn : nbspC ∉ u) :
    allCh (pyStrip (wsCollapse u)) = true ∧ noDS (pyStrip (wsCollapse u)) = true ∧
    (∀ c, (pyStrip (wsCollapse u)).head? = some c → wsChar c = false) ∧
    (∀ c, (pyStrip (wsCollapse u)).getLast? = some c → wsChar c = false) := by
  refine ⟨?_, ?_, ?_, ?_⟩
  · rw [show allCh (pyStrip (wsCollapse u)) = (pyStrip (wsCollapse u)).all chOk from rfl,
      List.all_eq_true]
    intro a ha
    have haw : a ∈ wsCollapse u := (pyStrip_sublist _).subset ha
    by_cases hw : wsChar a = true
    · have ha2 : a = ' ' :=
        wsCollapseF_wsSp u.length u u.length (Nat.le_refl _) (Nat.le_refl _) a haw hw
      rw [ha2]
      decide
    · rcases mem_wsCollapseF u.length u a haw with rfl | hau
      · decide
      · have h1 : a ≠ '\t' := fun he => hw (by rw [he]; decide)
        have h2 : a ≠ '\n' := fun he => hw (by rw [he]; decide)
        have h3 : a ≠ '\r' := fun he => hw (by rw [he]; decide)
        have h4 : a ≠ nbspC := fun he => hn (he ▸ hau)
        have h5 : a ≠ '\\' := fun he => hb (he ▸ hau)
        have h6 : a ≠ '|' := fun he => hp (he ▸ hau)
        have h7 : a ≠ '*' := fun he => hs (he ▸ hau)
        simp [chOk, h1, h2, h3, h4, h5, h6, h7]
  · exact noWin_pyStrip _ _ (wsCollapseF_noDS u.length u u.length (Nat.le_refl _)
      (Nat.le_refl _))
  · intro c hc
    exact pyStrip_head_not_ws _ c hc
  · intro c hc
    exact pyStrip_last_not_ws _ c hc
theorem pipeline_invariants (x0 : List Char) (hch : allCh x0 = true)
    (hds : noDS x0 = true)
    (hh : ∀ c, x0.head? = some c → wsChar c = false)
    (hl : ∀ c, x0.getLast? = some c → wsChar c = false) :
    allCh (punctSpaceFix (aposPunctFix (quoteCloseFix (quoteOpenFix (aposFix x0))))) = true ∧
    noDS (punctSpaceFix (aposPunctFix (quoteCloseFix (quoteOpenFix (aposFix x0))))) = true ∧
    F1ok none (punctSpaceFix (aposPunctFix (quoteCloseFix (quoteOpenFix (aposFix x0))))) = true ∧
    F2ok none (punctSpaceFix (aposPunctFix (quoteCloseFix (quoteOpenFix (aposFix x0))))) = true ∧
    F3ok none (punctSpaceFix (aposPunctFix (quoteCloseFix (quoteOpenFix (aposFix x0))))) = true ∧
    G6ok (punctSpaceFix (aposPunctFix (quoteCloseFix (quoteOpenFix (aposFix x0))))) = true ∧
    G7ok none (punctSpaceFix (aposPunctFix (quoteCloseFix (quoteOpenFix (aposFix x0))))) = true ∧
    G8ok (punctSpaceFix (aposPunctFix (quoteCloseFix (quoteOpenFix (aposFix x0))))) = true ∧
    G9ok (punctSpaceFix (aposPunctFix (quoteCloseFix (quoteOpenFix (aposFix x0))))) = true ∧
    noSpacePunct (punctSpaceFix (aposPunctFix (quoteCloseFix (quoteOpenFix
      (aposFix x0))))) = true ∧
    (∀ c, (punctSpaceFix (aposPunctFix (quoteCloseFix (quoteOpenFix
      (aposFix x0))))).head? = some c → wsChar c = false) ∧
    (∀ c, (punctSpaceFix (aposPunctFix (quoteCloseFix (quoteOpenFix
      (aposFix x0))))).getLast? = some c → wsChar c = false) := by
  rw [aposFix_eq_P]
  obtain ⟨h2ds, h2F1, h2F2, h2F3, h2L⟩ :=
    aposFixP_out x0.length x0 none (Nat.le_refl _) hch hds
  have hch1 : allCh (aposFixP none x0) = true := by
    rw [show allCh (aposFixP none x0) = (aposFixP none x0).all chOk from rfl,
      List.all_eq_true]
    intro a ha
    exact List.all_eq_true.mp hch a (mem_aposFixF x0.length none x0 a ha)
  have hh1 : (aposFixP none x0).head? = x0.head? := aposFixP_head_nonword none x0 rfl
  obtain ⟨h3ds, h3F1, h3F2, h3F3, h3OW, h3L⟩ :=
    quoteOpenFix_out (aposFixP none x0).length (aposFixP none x0) none (Nat.le_refl _)
      hch1 h2ds h2F1 h2F2 h2F3
  have hch2 : allCh (quoteOpenFix (aposFixP none x0)) = true := by
    rw [show allCh (quoteOpenFix (aposFixP none x0)) =
      (quoteOpenFix (aposFixP none x0)).all chOk from rfl, List.all_eq_true]
    intro a ha
    exact List.all_eq_true.mp hch1 a (mem_quoteOpenFixF _ _ a ha)
  have hh2 : (quoteOpenFix (aposFixP none x0)).head? = (aposFixP none x0).head? :=
    quoteOpenFix_head _
  obtain ⟨h4ds, h4F1, h4F2, h4F3, h4G6, h4AW, h4G8, h4L⟩ :=
    quoteCloseFix_out (quoteOpenFix (aposFixP none x0)).length _ none (Nat.le_refl _)
      hch2 h3ds h3F1 h3F2 h3F3 h3OW
  have hch3 : allCh (quoteCloseFix (quoteOpenFix (aposFixP none x0))) = true := by
    rw [show allCh (quoteCloseFix (quoteOpenFix (aposFixP none x0))) =
      (quoteCloseFix (quoteOpenFix (aposFixP none x0))).all chOk from rfl,
      List.all_eq_true]
    intro a ha
    rcases mem_quoteCloseFixF _ _ a ha with rfl | h2
    · decide
    · exact List.all_eq_true.mp hch2 a h2
  have hh3 : (quoteCloseFix (quoteOpenFix (aposFixP none x0))).head? =
      (quoteOpenFix (aposFixP none x0)).head? := quoteCloseFix_head _
  obtain ⟨h5ds, h5F1, h5F2, h5F3, h5G6, h5G7, h5G8, h5G9, h5L⟩ :=
    aposPunctFix_out (quoteCloseFix (quoteOpenFix (aposFixP none x0))).length _ none
      (Nat.le_refl _) hch3 h4ds h4F1 h4F2 h4F3 h4G6 h4AW h4G8
  have hch4 : allCh (aposPunctFix (quoteCloseFix (quoteOpenFix (aposFixP none x0)))) =
      true := by
    rw [show allCh (aposPunctFix (quoteCloseFix (quoteOpenFix (aposFixP none x0)))) =
      (aposPunctFix (quoteCloseFix (quoteOpenFix (aposFixP none x0)))).all chOk from rfl,
      List.all_eq_true]
    intro a ha
    rcases mem_aposPunctFixF _ _ a ha with rfl | h2
    · decide
    · exact List.all_eq_true.mp hch3 a h2
  have hh4 : (aposPunctFix (quoteCloseFix (quoteOpenFix (aposFixP none x0)))).head? =
      (quoteCloseFix (quoteOpenFix (aposFixP none x0))).head? := aposPunctFix_head _
  obtain ⟨h6ds, h6F1, h6F2, h6F3, h6G6, h6G7, h6G8, h6G9, h6SP, h6L⟩ :=
    punctSpaceFix_out (aposPunctFix (quoteCloseFix (quoteOpenFix
      (aposFixP none x0)))).length _ none (Nat.le_refl _) hch4 h5ds h5F1 h5F2 h5F3
      h5G6 h5G7 h5G8 h5G9
  have hch5 : allCh (punctSpaceFix (aposPunctFix (quoteCloseFix (quoteOpenFix
      (aposFixP none x0))))) = true := by
    rw [show allCh (punctSpaceFix (aposPunctFix (quoteCloseFix (quoteOpenFix
      (aposFixP none x0))))) = (punctSpaceFix (aposPunctFix (quoteCloseFix (quoteOpenFix
      (aposFixP none x0))))).all chOk from rfl, List.all_eq_true]
    intro a ha
    exact List.all_eq_true.mp hch4 a (mem_punctSpaceFixF _ _ a ha)
  refine ⟨hch5, h6ds, h6F1, h6F2, h6F3, h6G6, h6G7, h6G8, h6G9, h6SP, ?_, ?_⟩
  · apply punctSpaceFix_head_of_nonws
    intro c hc
    rw [hh4, hh3, hh2, hh1] at hc
    exact hh c hc
  · intro c hc
    rw [h6L, h5L, h4L, h3L, h2L] at hc
    exact hl c hc
theorem nl_decomp (z : List Char) : normalise_line z =
    punctSpaceFix (aposPunctFix (quoteCloseFix (quoteOpenFix (aposFix (pyStrip
      (wsCollapse (replaceAll (str "|") (str " ") (usfmMarkSub (starSub
      (pipeAttrSub (replaceAll (str "\\sup ") SUP_OPEN
      (replaceAll (str "\\sup*") SUP_CLOSE (replaceAll (str "\\sc ") SC_OPEN
      (replaceAll (str "\\sc*") SC_CLOSE (replaceAll (str "\\add ") ADD_OPEN
      (replaceAll (str "\\add*") ADD_CLOSE
      (replaceAll (str " ") (str " ") z))))))))))))))))) := rfl

theorem nl_invariants (s : List Char) (hbs : '\\' ∉ s) :
    allCh (normalise_line s) = true ∧ noDS (normalise_line s) = true ∧
    F1ok none (normalise_line s) = true ∧ F2ok none (normalise_line s) = true ∧
    F3ok none (normalise_line s) = true ∧ G6ok (normalise_line s) = true ∧
    G7ok none (normalise_line s) = true ∧ G8ok (normalise_line s) = true ∧
    G9ok (normalise_line s) = true ∧ noSpacePunct (normalise_line s) = true ∧
    (∀ c, (normalise_line s).head? = some c → wsChar c = false) ∧
    (∀ c, (normalise_line s).getLast? = some c → wsChar c = false) := by
  rw [nl_decomp]
  have hv1b : '\\' ∉ replaceAll (str " ") (str " ") s := by
    intro h
    rcases mem_replaceAllF _ _ _ _ _ h with h2 | h2
    · exact absurd h2 (by decide)
    · exact hbs h2
  have hv1n : nbspC ∉ replaceAll (str " ") (str " ") s :=
    replaceAllF_single_absent nbspC (str " ") (by decide) s.length s (Nat.le_refl _)
  rw [replaceAll_id '\\' (str "\\add*") ADD_CLOSE _ rfl hv1b,
    replaceAll_id '\\' (str "\\add ") ADD_OPEN _ rfl hv1b,
    replaceAll_id '\\' (str "\\sc*") SC_CLOSE _ rfl hv1b,
    replaceAll_id '\\' (str "\\sc ") SC_OPEN _ rfl hv1b,
    replaceAll_id '\\' (str "\\sup*") SUP_CLOSE _ rfl hv1b,
    replaceAll_id '\\' (str "\\sup ") SUP_OPEN _ rfl hv1b]
  have hv8b : '\\' ∉ pipeAttrSub (replaceAll (str " ") (str " ") s) :=
    fun h => hv1b (mem_pipeAttrSubF _ _ _ h)
  have hv8n : nbspC ∉ pipeAttrSub (replaceAll (str " ") (str " ") s) :=
    fun h => hv1n (mem_pipeAttrSubF _ _ _ h)
  have hv9b : '\\' ∉ starSub (pipeAttrSub (replaceAll (str " ") (str " ") s)) :=
    fun h => hv8b (mem_starSubF _ _ _ h)
  have hv9n : nbspC ∉ starSub (pipeAttrSub (replaceAll (str " ") (str " ") s)) :=
    fun h => hv8n (mem_starSubF _ _ _ h)
  have hv9s : '*' ∉ starSub (pipeAttrSub (replaceAll (str " ") (str " ") s)) :=
    starSubF_no_star _ _ _ (Nat.le_refl _) (Nat.le_refl _)
  have h10 : usfmMarkSub (starSub (pipeAttrSub (replaceAll (str " ") (str " ") s))) =
      starSub (pipeAttrSub (replaceAll (str " ") (str " ") s)) :=
    usfmMarkSubF_id _ _ hv9b
  rw [h10]
  have hvb : '\\' ∉ replaceAll (str "|") (str " ")
      (starSub (pipeAttrSub (replaceAll (str " ") (str " ") s))) := by
    intro h
    rcases mem_replaceAllF _ _ _ _ _ h with h2 | h2
    · exact absurd h2 (by decide)
    · exact hv9b h2
  have hvn : nbspC ∉ replaceAll (str "|") (str " ")
      (starSub (pipeAttrSub (replaceAll (str " ") (str " ") s))) := by
    intro h
    rcases mem_replaceAllF _ _ _ _ _ h with h2 | h2
    · exact absurd h2 (by decide)
    · exact hv9n h2
  have hvs : '*' ∉ replaceAll (str "|") (str " ")
      (starSub (pipeAttrSub (replaceAll (str " ") (str " ") s))) := by
    intro h
    rcases mem_replaceAllF _ _ _ _ _ h with h2 | h2
    · exact absurd h2 (by decide)
    · exact hv9s h2
  have hvp : '|' ∉ replaceAll (str "|") (str " ")
      (starSub (pipeAttrSub (replaceAll (str " ") (str " ") s))) :=
    replaceAllF_single_absent '|' (str " ") (by decide) _ _ (Nat.le_refl _)
  obtain ⟨hach, hands, hahh, hall⟩ := stage0_invariants _ hvb hvp hvs hvn
  exact pipeline_invariants _ hach hands hahh hall
/-- C7: the Inline Normalizer normalise_line (02_parse_usfm.py lines 109-158)
is idempotent on its own output for markup-free input: for every fragment s
containing no backslash markup markers, running it twice yields the same
result as running it once. -/
theorem C7_normalise_line_idempotent (s : List Char) (hbs : '\\' ∉ s) :
    normalise_line (normalise_line s) = normalise_line s := by
  obtain ⟨hch, hds, hF1, hF2, hF3, hG6, hG7, hG8, hG9, hSP, hh, hl⟩ := nl_invariants s hbs
  have habs : ∀ a ∈ normalise_line s, chOk a = true := fun a ha =>
    List.all_eq_true.mp hch a ha
  have hnb : nbspC ∉ normalise_line s := fun h => absurd (habs _ h) (by decide)
  have hbs2 : '\\' ∉ normalise_line s := fun h => absurd (habs _ h) (by decide)
  have hpp : '|' ∉ normalise_line s := fun h => absurd (habs _ h) (by decide)
  have hst : '*' ∉ normalise_line s := fun h => absurd (habs _ h) (by decide)
  have hl8 : pipeAttrSub (normalise_line s) = normalise_line s :=
    pipeAttrSubF_id (normalise_line s).length _ hpp
  have hl9 : starSub (normalise_line s) = normalise_line s :=
    starSubF_id (normalise_line s).length _ hst
  have hl10 : usfmMarkSub (normalise_line s) = normalise_line s :=
    usfmMarkSubF_id (normalise_line s).length _ hbs2
  have hwc : wsCollapse (normalise_line s) = normalise_line s :=
    wsCollapseF_id (normalise_line s).length _
      (fun c hc hw => sp_chOk c (habs c hc) hw) hds
  have hps : pyStrip (normalise_line s) = normalise_line s :=
    pyStrip_eq_self_of_edges _ hh hl
  have haf : aposFix (normalise_line s) = normalise_line s := by
    rw [aposFix_eq_P]
    exact aposFixP_id (normalise_line s).length _ none (Nat.le_refl _) hch hds hF1 hF2 hF3
  have hcq : aposPunctFix (quoteCloseFix (quoteOpenFix (normalise_line s))) =
      normalise_line s :=
    cancel_quote (normalise_line s).length _ none (Nat.le_refl _) hch hds hG6 hG7 hG8 hG9
      (fun h => Bool.noConfusion h)
  have hpsf : punctSpaceFix (normalise_line s) = normalise_line s :=
    punctSpaceFix_id (normalise_line s).length _ (Nat.le_refl _) hch hds hSP
  conv_lhs => rw [nl_decomp]
  rw [replaceAll_id nbspC (str " ") (str " ") _ rfl hnb,
    replaceAll_id '\\' (str "\\add*") ADD_CLOSE _ rfl hbs2,
    replaceAll_id '\\' (str "\\add ") ADD_OPEN _ rfl hbs2,
    replaceAll_id '\\' (str "\\sc*") SC_CLOSE _ rfl hbs2,
    replaceAll_id '\\' (str "\\sc ") SC_OPEN _ rfl hbs2,
    replaceAll_id '\\' (str "\\sup*") SUP_CLOSE _ rfl hbs2,
    replaceAll_id '\\' (str "\\sup ") SUP_OPEN _ rfl hbs2,
    hl8, hl9, hl10,
    replaceAll_id '|' (str "|") (str " ") _ rfl hpp,
    hwc, hps, haf, hcq, hpsf]

theorem C7_witness :
    '\\' ∉ str "He said  :  hello  world" ∧
    normalise_line (normalise_line (str "He said  :  hello  world")) =
      normalise_line (str "He said  :  hello  world") :=
  ⟨by decide, C7_normalise_line_idempotent (str "He said  :  hello  world") (by decide)⟩

/-- The base code points of the 66 runs of ten consecutive Unicode decimal
digits (general category Nd, CPython 3.11 Unicode tables): exactly the
characters Python int() accepts, with digit value codepoint minus base. -/
def ndBases : List Nat := [
  48, 1632, 1776, 1984, 2406, 2534, 2662, 2790, 2918, 3046, 3174, 3302,
  3430, 3558, 3664, 3792, 3872, 4160, 4240, 6112, 6160, 6470, 6608, 6784,
  6800, 6992, 7088, 7232, 7248, 42528, 43216, 43264, 43472, 43504, 43600,
  44016, 65296, 66720, 68912, 69734, 69872, 69942, 70096, 70384, 70736,
  70864, 71248, 71360, 71472, 71904, 72016, 72784, 73040, 73120, 92768,
  92864, 93008, 120782, 120792, 120802, 120812, 120822, 123200, 123632,
  125264, 130032]

/-- Code points with the Unicode digit property that are NOT decimal digits:
str.isdigit() accepts them but int() raises ValueError on them (superscripts,
subscripts, and similar; CPython 3.11 Unicode tables). -/
def digitOnlyCps : List Nat := [
  178, 179, 185, 4969, 4970, 4971, 4972, 4973, 4974, 4975, 4976, 4977,
  6618, 8304, 8308, 8309, 8310, 8311, 8312, 8313, 8320, 8321, 8322, 8323,
  8324, 8325, 8326, 8327, 8328, 8329, 9312, 9313, 9314, 9315, 9316, 9317,
  9318, 9319, 9320, 9332, 9333, 9334, 9335, 9336, 9337, 9338, 9339, 9340,
  9352, 9353, 9354, 9355, 9356, 9357, 9358, 9359, 9360, 9450, 9461, 9462,
  9463, 9464, 9465, 9466, 9467, 9468, 9469, 9471, 10102, 10103, 10104,
  10105, 10106, 10107, 10108, 10109, 10110, 10112, 10113, 10114, 10115,
  10116, 10117, 10118, 10119, 10120, 10122, 10123, 10124, 10125, 10126,
  10127, 10128, 10129, 10130, 68160, 68161, 68162, 68163, 69216, 69217,
  69218, 69219, 69220, 69221, 69222, 69223, 69224, 69714, 69715, 69716,
  69717, 69718, 69719, 69720, 69721, 69722, 127232, 127233, 127234,
  127235, 127236, 127237, 127238, 127239, 127240, 127241, 127242]

/-- The decimal value of a character as used by Python int(): its offset in
an Nd run, none for every other character. -/
def pyDecimalVal (c : Char) : Option Nat :=
  Option.elim (ndBases.find? (fun b => decide (b ≤ c.toNat) && decide (c.toNat < b + 10)))
    none (fun b => some (c.toNat - b))

/-- Python str.isdigit() on one character: a decimal digit or a
digit-property character. -/
def pyIsDigitChar (c : Char) : Bool :=
  (pyDecimalVal c).isSome || digitOnlyCps.contains c.toNat

/-- Python s.isdigit(): non-empty and every character a digit. -/
def pyIsDigit (s : List Char) : Bool := !s.isEmpty && s.all pyIsDigitChar

/-- Python int(s) on a string that passed isdigit: the base-10 value of the
per-character decimal values when every character is a decimal digit, and
ValueError (none) when some digit-property character is not decimal. -/
def pyIntDigits (s : List Char) : Option Nat :=
  if s.all (fun c => (pyDecimalVal c).isSome) then
    some (s.foldl (fun acc c => acc * 10 + Option.elim (pyDecimalVal c) 0 (fun v => v)) 0)
  else none

/-- `int(token[2:]) if token[2:].isdigit() else 1` with Python Unicode digit
semantics; none models the ValueError escaping render_structured_to_latex. -/
def qIndentE (tok : List Char) : Option Nat :=
  if pyIsDigit (tok.drop 2) then pyIntDigits (tok.drop 2) else some 1

/-- The decoder loop of render_structured_to_latex with the failure path of
the poetry branch: identical to decodeLoopF except that the indent
computation happens first (as in the source, before the payload bound check)
and a ValueError aborts the whole call (none). -/
def decodeLoopE : Nat → List (List Char) → Bool → List (List Char) →
    Option (List (List Char))
  | 0, _, _, out => some out
  | fuel + 1, parts, pending, out =>
    Option.elim parts.head? (some out) (fun tok =>
      let rest := parts.tail
      if tok = hdgTok then decodeLoopE fuel rest true out
      else if (str "Q:").isPrefixOf tok then
        Option.elim (qIndentE tok) none (fun ind =>
          Option.elim rest.head? (some out) (fun payload =>
            decodeLoopE fuel rest.tail pending (out ++ [poemline ind (pyStrip payload)])))
      else if tok = pTok then
        if rest[1]? = some paraTok then
          let out1 := out ++ [if out = [] then PILCROW else str "\\par" ++ PILCROW]
          Option.elim rest.tail.tail.head? (some out1) (fun payload =>
            let seg := pyStrip payload
            if seg = [] then decodeLoopE fuel rest.tail.tail.tail pending out1
            else if pending then
              decodeLoopE fuel rest.tail.tail.tail false
                (out1 ++ [render_heading_verse seg ++ [' ']])
            else decodeLoopE fuel rest.tail.tail.tail pending (out1 ++ [seg ++ [' ']]))
        else
          Option.elim rest.head? (some out) (fun payload =>
            let seg := pyStrip payload
            if seg = [] then decodeLoopE fuel rest.tail pending out
            else if pending then
              decodeLoopE fuel rest.tail false (out ++ [render_heading_verse seg ++ [' ']])
            else decodeLoopE fuel rest.tail pending (out ++ [seg ++ [' ']]))
      else
        if pyStrip tok = [] then decodeLoopE fuel rest pending out
        else if pending then decodeLoopE fuel rest false (out ++ [render_heading_verse tok ++ [' ']])
        else decodeLoopE fuel rest pending (out ++ [pyStrip tok ++ [' ']]))

/-- One unfolding step of the failure-aware decoder loop (definitional). -/
theorem decodeLoopE_succ (fuel : Nat) (parts : List (List Char)) (pending : Bool)
    (out : List (List Char)) :
    decodeLoopE (fuel + 1) parts pending out =
      Option.elim parts.head? (some out) (fun tok =>
        let rest := parts.tail
        if tok = hdgTok then decodeLoopE fuel rest true out
        else if (str "Q:").isPrefixOf tok then
          Option.elim (qIndentE tok) none (fun ind =>
            Option.elim rest.head? (some out) (fun payload =>
              decodeLoopE fuel rest.tail pending (out ++ [poemline ind (pyStrip payload)])))
        else if tok = pTok then
          if rest[1]? = some paraTok then
            let out1 := out ++ [if out = [] then PILCROW else str "\\par" ++ PILCROW]
            Option.elim rest.tail.tail.head? (some out1) (fun payload =>
              let seg := pyStrip payload
              if seg = [] then decodeLoopE fuel rest.tail.tail.tail pending out1
              else if pending then
                decodeLoopE fuel rest.tail.tail.tail false
                  (out1 ++ [render_heading_verse seg ++ [' ']])
              else decodeLoopE fuel rest.tail.tail.tail pending (out1 ++ [seg ++ [' ']]))
          else
            Option.elim rest.head? (some out) (fun payload =>
              let seg := pyStrip payload
              if seg = [] then decodeLoopE fuel rest.tail pending out
              else if pending then
                decodeLoopE fuel rest.tail false (out ++ [render_heading_verse seg ++ [' ']])
              else decodeLoopE fuel rest.tail pending (out ++ [seg ++ [' ']]))
        else
          if pyStrip tok = [] then decodeLoopE fuel rest pending out
          else if pending then decodeLoopE fuel rest false (out ++ [render_heading_verse tok ++ [' ']])
          else decodeLoopE fuel rest pending (out ++ [pyStrip tok ++ [' ']])) := rfl

/-- C10 counterexample: under Python digit semantics the original claim is
false. str.isdigit accepts the superscript two, int() then raises ValueError,
so the decoder FAILS on the token Q:SUP2 although its suffix is not a string
of decimal digits; and the Arabic-Indic digit three yields indent 3, not 1. -/
theorem C10_counterexample :
    decodeLoopE 2 [str "Q:²", str "line"] false [] = none ∧
    decodeLoopE 2 [str "Q:٣", str "line"] false [] =
      some [poemline 3 (str "line")] ∧
    poemline 3 (str "line") ≠ poemline 1 (str "line") := by
  decide

/-- C10 (amended): one step of the decoder loop on a poetry tag Q:x followed
by a payload token, with str.isdigit/int Unicode semantics: if x fails
isdigit (empty, or some character without the digit property) the line is
emitted at indent 1; if every character of x is a decimal digit the line is
emitted at the decoded indent n; and if x passes isdigit but some character
is not a decimal digit, int() raises ValueError and decoding fails. -/
theorem C10_poetry_indent_decode (fuel : Nat) (x payload : List Char)
    (rest : List (List Char)) (pending : Bool) (out : List (List Char)) :
    (pyIsDigit x = false →
      decodeLoopE (fuel + 1) (('Q' :: ':' :: x) :: payload :: rest) pending out =
        decodeLoopE fuel rest pending (out ++ [poemline 1 (pyStrip payload)])) ∧
    (∀ n, pyIsDigit x = true → pyIntDigits x = some n →
      decodeLoopE (fuel + 1) (('Q' :: ':' :: x) :: payload :: rest) pending out =
        decodeLoopE fuel rest pending (out ++ [poemline n (pyStrip payload)])) ∧
    (pyIsDigit x = true → pyIntDigits x = none →
      decodeLoopE (fuel + 1) (('Q' :: ':' :: x) :: payload :: rest) pending out = none) := by
  have hne : ('Q' :: ':' :: x) ≠ hdgTok := by
    intro he
    have h0 := congrArg List.head? he
    rw [show hdgTok = 'S' :: str "TYLE:HDG" from rfl] at h0
    simp at h0
  have hq : (str "Q:").isPrefixOf ('Q' :: ':' :: x) = true := by
    simp [str, List.isPrefixOf]
  refine ⟨?_, ?_, ?_⟩
  · intro h
    rw [decodeLoopE_succ]
    simp only [List.head?_cons, List.tail_cons, Option.elim]
    rw [if_neg hne, if_pos hq]
    unfold qIndentE
    simp only [List.drop_succ_cons, List.drop_zero]
    rw [if_neg (by simp [h])]
  · intro n hd hi
    rw [decodeLoopE_succ]
    simp only [List.head?_cons, List.tail_cons, Option.elim]
    rw [if_neg hne, if_pos hq]
    unfold qIndentE
    simp only [List.drop_succ_cons, List.drop_zero]
    rw [if_pos hd, hi]
  · intro hd hi
    rw [decodeLoopE_succ]
    simp only [List.head?_cons, List.tail_cons, Option.elim]
    rw [if_neg hne, if_pos hq]
    unfold qIndentE
    simp only [List.drop_succ_cons, List.drop_zero]
    rw [if_pos hd, hi]

/-- C10 witness: the three arms of the amended theorem at concrete tokens:
Q:a gives indent 1, Q:(arabic three) gives indent 3, Q:(superscript two)
fails. -/
theorem C10_witness :
    (decodeLoopE 1 (('Q' :: ':' :: str "a") :: str "hi" :: []) false [] =
      decodeLoopE 0 [] false ([] ++ [poemline 1 (pyStrip (str "hi"))])) ∧
    (decodeLoopE 1 (('Q' :: ':' :: str "٣") :: str "hi" :: []) false [] =
      decodeLoopE 0 [] false ([] ++ [poemline 3 (pyStrip (str "hi"))])) ∧
    (decodeLoopE 1 (('Q' :: ':' :: str "²") :: str "hi" :: []) false [] = none) :=
  ⟨(C10_poetry_indent_decode 0 (str "a") (str "hi") [] false []).1 (by decide),
   (C10_poetry_indent_decode 0 (str "٣") (str "hi") [] false []).2.1 3 (by decide) (by decide),
   (C10_poetry_indent_decode 0 (str "²") (str "hi") [] false []).2.2 (by decide) (by decide)⟩
